import Mathlib

/-!
Verification development for the source-range reconstruction core of
thonny/ast_utils.py.

The Python module correlates a parsed syntax tree (whose nodes carry only
start positions) with the raw token stream in order to assign an end
position to every positioned node, and offers query utilities over the
resulting ranges.  This file gives a shallow embedding of that code:

* Pos / Token model the (line, column) positions and the lexical tokens
  (the tokenizer itself is an external collaborator; token lists are inputs).
* extract_text_range embeds the text-extraction utility.
* compare_node_positions embeds the position comparator, faithfully
  including the self-comparison on its fourth branch (source line 466).
* tokenize_with_char_offsets embeds the byte-to-char column adapter,
  faithfully returning none because the Python function has no return
  statement; thokensOf is the value its loop accumulates and discards.
* Node / fix_ast_problems / markNode embed the tree model, the start
  position corrector and the end-position reconstructor
  (_mark_text_ranges_rec together with _set_real_end and its helpers).

Python while-loops that delete from the back of a list are rendered as
recursion over the reversed list; a result of none models the IndexError
(or failed assert) that the corresponding Python code raises, which
_mark_text_ranges_rec catches, falling back to a degenerate range.
Recursive tree traversals use an explicit fuel argument (instantiated with
the node count nsize, which strictly dominates every child) so that all
definitions are structurally recursive and hence computable by the kernel.
-/

namespace ThonnyAst

/-- One (line, column) position: line numbers are 1-based, columns 0-based,
both measured exactly as the Python code measures them. -/
structure Pos where
  line : Nat
  col : Nat
deriving DecidableEq, Repr

/-- Lexicographic non-strict order on positions, the order used implicitly
throughout ast_utils (compare_node_positions is its spec). -/
def posLe (a b : Pos) : Bool :=
  decide (a.line < b.line ∨ (a.line = b.line ∧ a.col ≤ b.col))

/-- Lexicographic strict order on positions. -/
def posLt (a b : Pos) : Bool :=
  decide (a.line < b.line ∨ (a.line = b.line ∧ a.col < b.col))

/-- Token types distinguished by ast_utils: the checks in _set_real_end and
its helpers mention exactly these tags (RBRACE/RPAR/RSQB/ELLIPSIS are named
token constants the code compares against; the Python 3 tokenizer actually
labels operator tokens OP, which is why the string-based fallbacks exist). -/
inductive TokType where
  | nameT
  | numberT
  | stringT
  | opT
  | newlineT
  | nlT
  | commentT
  | indentT
  | dedentT
  | encodingT
  | endmarkerT
  | ellipsisT
  | rbraceT
  | rparT
  | rsqbT
deriving DecidableEq, Repr

/-- One lexical token, as consumed by mark_text_ranges: type tag, text and
its start/end positions.  Token lists are inputs here because the
tokenizer is an external collaborator of the verified core. -/
structure Token where
  type : TokType
  string : String
  start : Pos
  endp : Pos
deriving DecidableEq, Repr

/-- Python substring membership on lists of characters: needle occurs
contiguously in the haystack.  Used to embed checks written as
membership of a token text in a string of bracket characters. -/
def charsIn (needle hay : List Char) : Bool :=
  match hay with
  | [] => needle.isEmpty
  | _ :: t => needle.isPrefixOf hay || charsIn needle t

/-- Python `s in pat` for strings (substring containment). -/
def strIn (s pat : String) : Bool :=
  charsIn s.toList pat.toList

/-- The reserved words excluded from expression trimming
(_strip_trailing_junk_from_expressions, source lines 230-234). -/
def kwList : List String :=
  ["and", "as", "assert", "class", "def", "del",
   "elif", "else", "except", "exec", "finally",
   "for", "from", "global", "if", "import", "in",
   "is", "lambda", "not", "or", "try",
   "while", "with", "yield"]

/-- The text range record used by the query utilities (thonny.common's
TextRange as read by ast_utils: fields lineno, col_offset, end_lineno,
end_col_offset, with 1-based lines and 0-based columns). -/
structure TextRange where
  lineno : Nat
  col_offset : Nat
  end_lineno : Nat
  end_col_offset : Nat
deriving DecidableEq, Repr

/-- Helper for splitlinesKeep: accumulates the current (reversed) line. -/
def splitlinesKeepAux (cur : List Char) : List Char → List (List Char)
  | [] => if cur.isEmpty then [] else [cur.reverse]
  | c :: rest =>
    if c = '\n' then (cur.reverse ++ ['\n']) :: splitlinesKeepAux [] rest
    else splitlinesKeepAux (c :: cur) rest

/-- Python str.splitlines(True) restricted to newline-terminated text:
splits into lines, each keeping its trailing newline (thonny sources use
LF line endings; the other Unicode line boundaries are not modelled). -/
def splitlinesKeep (s : List Char) : List (List Char) :=
  splitlinesKeepAux [] s

/-- Embedding of extract_text_range (source lines 23-31).  The source text
is a character list; the result is the extracted characters.  Python first
truncates lines[-1] at the end column and then drops the start column from
lines[0]; when the range covers a single line both operations hit the same
line, in that order.  none models the IndexError that Python raises when
the selected line slice is empty. -/
def extract_text_range (source : List Char) (text_range : TextRange) : Option (List Char) :=
  let lines0 := splitlinesKeep source
  let lines := (lines0.drop (text_range.lineno - 1)).take
      (text_range.end_lineno - (text_range.lineno - 1))
  match lines with
  | [] => none
  | _ :: _ =>
    let lines1 := lines.set (lines.length - 1)
        ((lines.getLast?.getD []).take text_range.end_col_offset)
    let lines2 := lines1.set 0 ((lines1.headD []).drop text_range.col_offset)
    some lines2.flatten

/-- Modelled from the spec: the Range Query Utilities contract for text
extraction, which slices the first covered line at the start column, the
last covered line at the end column, and concatenates the (possibly
single) line span. -/
def extract_text_spec (source : List Char) (text_range : TextRange) : Option (List Char) :=
  let lines := splitlinesKeep source
  if 1 ≤ text_range.lineno ∧ text_range.lineno ≤ text_range.end_lineno ∧
      text_range.end_lineno ≤ lines.length then
    if text_range.lineno = text_range.end_lineno then
      some ((((lines.get? (text_range.lineno - 1)).getD []).drop text_range.col_offset).take
            (text_range.end_col_offset - text_range.col_offset))
    else
      some ((((lines.get? (text_range.lineno - 1)).getD []).drop text_range.col_offset)
        ++ ((lines.drop text_range.lineno).take (text_range.end_lineno - 1 - text_range.lineno)).flatten
        ++ (((lines.get? (text_range.end_lineno - 1)).getD []).take text_range.end_col_offset))
  else none

/-- Embedding of compare_node_positions (source lines 459-469), applied to
the (lineno, col_offset) pairs it reads from the two nodes.  The fourth
branch faithfully reproduces the comparison of n2.col_offset with itself
written on source line 466. -/
def compare_node_positions (n1 n2 : Pos) : Int :=
  if n1.line > n2.line then 1
  else if n1.line < n2.line then -1
  else if n1.col > n2.col then 1
  else if n2.col < n2.col then -1
  else 0

/-- The Thoken record produced by tokenize_with_char_offsets (source line 14):
token type, text, and start/end line/column with character-based columns. -/
structure Thoken where
  type : TokType
  string : String
  lineno : Nat
  col_offset : Nat
  end_lineno : Nat
  end_col_offset : Nat
deriving DecidableEq, Repr

/-- Character count of the longest prefix of the line whose UTF-8 encoding
fits in byteCol bytes.  This is len(byte_line[:byteCol].decode(encoding))
for offsets that fall on character boundaries, which is where the
tokenizer reports them; the default/declared encoding is modelled as
UTF-8. -/
def charColOfByteCol : List Char → Nat → Nat
  | [], _ => 0
  | c :: rest, k =>
    if c.utf8Size ≤ k then charColOfByteCol rest (k - c.utf8Size) + 1 else 0

/-- Helper for splitNl: accumulates the current (reversed) piece. -/
def splitNlAux (cur : List Char) : List Char → List (List Char)
  | [] => [cur.reverse]
  | c :: rest =>
    if c = '\n' then cur.reverse :: splitNlAux [] rest
    else splitNlAux (c :: cur) rest

/-- Python str.split("\n"): the pieces between newline separators
(one piece more than there are newlines). -/
def splitNl (s : List Char) : List (List Char) :=
  splitNlAux [] s

/-- char_lines of tokenize_with_char_offsets (source line 334):
source.split("\n") with a newline re-appended to every piece. -/
def charLinesOf (source : String) : List (List Char) :=
  (splitNl source.toList).map (fun l => l ++ ['\n'])

/-- The loop body of tokenize_with_char_offsets (source lines 339-366),
accumulating the thokens list: tokens on line 0 (the encoding sentinel) or
with both columns 0 are copied verbatim, all others get their byte columns
re-measured in characters.  none models the TypeError Python would raise
if a convertible token arrived before the ENCODING token set byte_lines,
and the IndexError on an out-of-range line number. -/
def thokensOfAux (charLines : List (List Char)) (seen : Bool) (acc : List Thoken) :
    List Token → Option (List Thoken)
  | [] => some acc.reverse
  | t :: rest =>
    let seen1 := seen || t.type == TokType.encodingT
    if t.start.line = 0 ∨ (t.start.col = 0 ∧ t.endp.col = 0) then
      thokensOfAux charLines seen1
        (⟨t.type, t.string, t.start.line, t.start.col, t.endp.line, t.endp.col⟩ :: acc) rest
    else if seen1 = false then none
    else
      match charLines.get? (t.start.line - 1), charLines.get? (t.endp.line - 1) with
      | some ls, some le =>
        thokensOfAux charLines seen1
          (⟨t.type, t.string, t.start.line, charColOfByteCol ls t.start.col,
            t.endp.line, charColOfByteCol le t.endp.col⟩ :: acc) rest
      | _, _ => none

/-- The value the loop of tokenize_with_char_offsets accumulates in its
local thokens variable over the whole token source. -/
def thokensOf (source : String) (token_source : List Token) : Option (List Thoken) :=
  thokensOfAux (charLinesOf source) false [] token_source

/-- Embedding of tokenize_with_char_offsets (source lines 325-366).  The
function computes the thokens list but its body ends without a return
statement, so Python returns None: hence the result is none regardless of
the input. -/
def tokenize_with_char_offsets (source : String) (token_source : List Token) :
    Option (List Thoken) :=
  let _thokens := thokensOf source token_source
  none

/-! ### The tree model and the position corrector / end reconstructor -/

/-- Positional attributes of a tree node: the start position reported by
the parser (lineno, col_offset) and the end position assigned by
mark_text_ranges (absent until the reconstruction pass sets it, matching
the dynamically added end_lineno/end_col_offset attributes). -/
structure Attrs where
  lineno : Nat
  col_offset : Nat
  endPos : Option Pos := none
deriving DecidableEq, Repr

/-- Start position carried by the attributes. -/
def Attrs.start (a : Attrs) : Pos :=
  ⟨a.lineno, a.col_offset⟩

/- The syntax-tree fragment exercised by the claims: Module, the two
statement kinds Expr and Assign, and the expression kinds Call, BinOp,
Name, Num, Str, Attribute, Tuple and Dict.  Operator and context child
nodes (ast.Add, ast.Load, ...) carry neither position nor children, so
_mark_text_ranges_rec passes through them without effect; they are
represented by plain data fields rather than child nodes.  Dict keys and
values are kept pairwise, reflecting len(keys) == len(values).  Module is
the only kind here without lineno/col_offset in its _attributes.  Child
sequences use the mutually defined NodeList / NodePairList so that the
tree admits plain structural recursion. -/
mutual

inductive Node where
  | module (body : NodeList)
  | exprS (a : Attrs) (value : Node)
  | assignS (a : Attrs) (targets : NodeList) (value : Node)
  | callE (a : Attrs) (func : Node) (args : NodeList) (keywords : NodeList)
  | binOpE (a : Attrs) (left : Node) (op : String) (right : Node)
  | nameE (a : Attrs) (id : String)
  | numE (a : Attrs) (value : Int)
  | strE (a : Attrs) (value : String)
  | attrE (a : Attrs) (value : Node) (attr : String)
  | tupleE (a : Attrs) (elts : NodeList)
  | dictE (a : Attrs) (pairs : NodePairList)

inductive NodeList where
  | nil
  | cons (head : Node) (tail : NodeList)

inductive NodePairList where
  | pnil
  | pcons (key : Node) (value : Node) (tail : NodePairList)

end

/-- The underlying list of a NodeList. -/
def NodeList.toList : NodeList → List Node
  | .nil => []
  | .cons h t => h :: t.toList

/-- The underlying pair list of a NodePairList. -/
def NodePairList.toList : NodePairList → List (Node × Node)
  | .pnil => []
  | .pcons k v t => (k, v) :: t.toList

/-- Rebuild a NodeList from a plain list. -/
def NodeList.ofList : List Node → NodeList
  | [] => .nil
  | h :: t => .cons h (NodeList.ofList t)

/-- Rebuild a NodePairList from a plain pair list. -/
def NodePairList.ofList : List (Node × Node) → NodePairList
  | [] => .pnil
  | q :: t => .pcons q.1 q.2 (NodePairList.ofList t)

/- Number of nodes of a subtree: the structural measure used as fuel by
the fueled traversals below (each child's size is strictly below its
parent's). -/
mutual

def nsize : Node → Nat
  | .module body => nsizeL body + 1
  | .exprS _ v => nsize v + 1
  | .assignS _ ts v => nsizeL ts + nsize v + 1
  | .callE _ f args kws => nsize f + nsizeL args + nsizeL kws + 1
  | .binOpE _ l _ r => nsize l + nsize r + 1
  | .nameE _ _ => 1
  | .numE _ _ => 1
  | .strE _ _ => 1
  | .attrE _ v _ => nsize v + 1
  | .tupleE _ elts => nsizeL elts + 1
  | .dictE _ pairs => nsizeP pairs + 1

def nsizeL : NodeList → Nat
  | .nil => 0
  | .cons h t => nsize h + nsizeL t

def nsizeP : NodePairList → Nat
  | .pnil => 0
  | .pcons k v t => nsize k + nsize v + nsizeP t

end

/-- The node's positional attributes, when its kind has lineno/col_offset
in _attributes (all kinds except Module). -/
def Node.attrs? : Node → Option Attrs
  | .module _ => none
  | .exprS a _ => some a
  | .assignS a _ _ => some a
  | .callE a _ _ _ => some a
  | .binOpE a _ _ _ => some a
  | .nameE a _ => some a
  | .numE a _ => some a
  | .strE a _ => some a
  | .attrE a _ _ => some a
  | .tupleE a _ => some a
  | .dictE a _ => some a

/-- Start position of a positioned node. -/
def Node.startPos? (n : Node) : Option Pos :=
  n.attrs?.map Attrs.start

/-- End position of a node, if one has been assigned. -/
def Node.endPos? (n : Node) : Option Pos :=
  n.attrs?.bind Attrs.endPos

/-- Sort key used by _get_ordered_child_nodes for Call children:
(child.lineno, child.col_offset).  Python reads the attributes directly
(a positionless child there would be a fatal AttributeError; valid trees
never produce one), so the default is irrelevant on meaningful input. -/
def keyOf (n : Node) : Pos :=
  (n.startPos?).getD ⟨0, 0⟩

/-- Child nodes in field order: ast.iter_child_nodes with the positionless
operator/context pseudo-children omitted (Dict lists all keys before all
values there). -/
def Node.childNodes : Node → List Node
  | .module body => body.toList
  | .exprS _ v => [v]
  | .assignS _ ts v => ts.toList ++ [v]
  | .callE _ f args kws => f :: (args.toList ++ kws.toList)
  | .binOpE _ l _ r => [l, r]
  | .nameE _ _ => []
  | .numE _ _ => []
  | .strE _ _ => []
  | .attrE _ v _ => [v]
  | .tupleE _ elts => elts.toList
  | .dictE _ pairs => pairs.toList.map (fun q => q.1) ++ pairs.toList.map (fun q => q.2)

/-- Comparison used by the Call-children sort of _get_ordered_child_nodes
(source line 490). -/
def keyLe (x y : Node) : Prop :=
  posLe (keyOf x) (keyOf y) = true

instance : DecidableRel keyLe :=
  fun _ _ => inferInstanceAs (Decidable (_ = true))

/-- Same comparison lifted to index-tagged children; the tag models the
object identity through which Python's in-place mutation writes each
sorted child back into its original field slot. -/
def taggedKeyLe (x y : Nat × Node) : Prop :=
  posLe (keyOf x.2) (keyOf y.2) = true

instance : DecidableRel taggedKeyLe :=
  fun _ _ => inferInstanceAs (Decidable (_ = true))

/-- Embedding of _get_ordered_child_nodes (source lines 471-493): Dict
children interleave keys and values pairwise, Call children are the
callee, arguments and keyword values sorted by start position, everything
else keeps field order. -/
def Node.orderedChildren : Node → List Node
  | .dictE _ pairs => (pairs.toList.map (fun q => [q.1, q.2])).flatten
  | .callE _ f args kws => List.insertionSort keyLe (f :: (args.toList ++ kws.toList))
  | n => n.childNodes

/-- All nodes of a subtree (the node itself and, recursively, its
children), with an explicit fuel bound; fuel sizeOf n always suffices. -/
def allNodesF : Nat → Node → List Node
  | 0, n => [n]
  | fuel + 1, n => n :: ((n.childNodes).map (allNodesF fuel)).flatten

/-- All nodes of a subtree. -/
def allNodes (n : Node) : List Node :=
  allNodesF (nsize n) n

/-- Consecutive members have strictly increasing start keys. -/
def strictsB : List Node → Bool
  | [] => true
  | [_] => true
  | a :: b :: t => posLt (keyOf a) (keyOf b) && strictsB (b :: t)

/-- Well-formedness facts that hold for every tree the Python parser
produces and that the sibling invariant depends on: no Module node occurs
as a child (so every sibling is positioned), and the ordered children of
every node have strictly increasing start positions (distinct siblings
occupy disjoint, ordered source text). -/
def wfF : Nat → Node → Bool
  | 0, _ => true
  | fuel + 1, n =>
    (n.childNodes).all (fun c => c.attrs?.isSome) &&
    (strictsB n.orderedChildren &&
     (n.childNodes).all (wfF fuel))

/-- Well-formedness of a tree (see wfF). -/
def wfTree (n : Node) : Bool :=
  wfF (nsize n) n

/-- For every positioned node, every positioned child starts no earlier
than its parent — a property of every tree the parser produces (children
lie inside their parent's source text). -/
def childStartsOkF : Nat → Node → Bool
  | 0, _ => true
  | fuel + 1, n =>
    (match n.startPos? with
     | none => true
     | some s => (n.childNodes).all (fun c =>
         match c.startPos? with
         | none => true
         | some cs => posLe s cs)) &&
    (n.childNodes).all (childStartsOkF fuel)

/-- See childStartsOkF. -/
def childStartsOk (n : Node) : Bool :=
  childStartsOkF (nsize n) n

/-! ### Token window extraction and trimming -/

/-- Embedding of _extract_tokens (source lines 182-188): the tokens whose
start is at or after (lineno, col_offset), whose end is at or before
(end_lineno, end_col_offset), and whose text is nonempty. -/
def extract_tokens (tokens : List Token)
    (lineno col_offset end_lineno end_col_offset : Nat) : List Token :=
  tokens.filter (fun tok =>
    decide (tok.start.line ≥ lineno
      ∧ (tok.start.col ≥ col_offset ∨ tok.start.line > lineno)
      ∧ tok.endp.line ≤ end_lineno
      ∧ (tok.endp.col ≤ end_col_offset ∨ tok.endp.line < end_lineno)
      ∧ tok.string ≠ ("")))

/-- A Python loop of the shape `while p(tokens[-1]): del tokens[-1]`,
run on the reversed list: drops leading (originally trailing) elements
while p holds; none models the IndexError raised when the condition is
evaluated on an emptied list. -/
def stripRevWhile (p : Token → Bool) : List Token → Option (List Token)
  | [] => none
  | t :: rest => if p t then stripRevWhile p rest else some (t :: rest)

/-- Back-to-front trimming loop (see stripRevWhile). -/
def stripLastWhile (p : Token → Bool) (l : List Token) : Option (List Token) :=
  (stripRevWhile p l.reverse).map List.reverse

/-- Token types that end an expression (first membership test of
_strip_trailing_junk_from_expressions, source lines 226-227). -/
def exprKeepType (ty : TokType) : Bool :=
  decide (ty ∈ [TokType.rbraceT, TokType.rparT, TokType.rsqbT,
    TokType.nameT, TokType.numberT, TokType.stringT])

/-- Loop condition of _strip_trailing_junk_from_expressions (source lines
226-234): the trailing token is dropped when it is not a keeper type, not
an ellipsis, and not a closing bracket character — or when it is one of
the reserved words of kwList. -/
def exprJunk (t : Token) : Bool :=
  (!(exprKeepType t.type) && (!(t.type == TokType.ellipsisT) &&
    !(strIn t.string (")\x7d]")))) ||
  decide (t.string ∈ kwList)

/-- Loop condition of the statement branch of _set_real_end (source lines
281-282): trailing blank lines, comments, newline and indent markers, and
the literal text of a colon or a dangling else/elif/finally/except. -/
def stmtJunk (t : Token) : Bool :=
  decide (t.type ∈ [TokType.nlT, TokType.commentT, TokType.newlineT, TokType.indentT]) ||
  decide (t.string ∈ [(":"), ("else"), ("elif"), ("finally"), ("except")])

/-- Opening bracket characters. -/
def openerB (t : Token) : Bool :=
  strIn t.string ("(\x7b[")

/-- Closing bracket characters. -/
def closerB (t : Token) : Bool :=
  strIn t.string (")\x7d]")

/-- Embedding of _strip_trailing_extra_closers (source lines 237-251):
forward scan tracking bracket depth; truncate (exclusive) at a top-level
comma when remove_naked_comma is set, or at the first token that takes the
depth negative. -/
def stripExtraClosersGo (remove_naked_comma : Bool) : Int → List Token → List Token
  | _, [] => []
  | level, t :: rest =>
    let level1 := if openerB t then level + 1
      else if closerB t then level - 1 else level
    if level1 = 0 ∧ t.string = (",") ∧ remove_naked_comma then []
    else if level1 < 0 then []
    else t :: stripExtraClosersGo remove_naked_comma level1 rest

/-- See stripExtraClosersGo. -/
def strip_trailing_extra_closers (remove_naked_comma : Bool) (l : List Token) : List Token :=
  stripExtraClosersGo remove_naked_comma 0 l

/-- One step of _strip_unclosed_brackets at index i: update the level and
truncate at i (resetting the level) when the level would become
negative. -/
def suStep (i : Nat) (level : Int) (l : List Token) : List Token × Int :=
  match l.get? i with
  | none => (l, level)
  | some t =>
    let level1 := if openerB t then level - 1
      else if closerB t then level + 1 else level
    if level1 < 0 then (l.take i, 0) else (l, level1)

/-- Backward scan of _strip_unclosed_brackets from index i down to 0.
When the scan truncates at index i the kept prefix has length i, so the
remaining (smaller) indices stay valid — exactly the behaviour of the
Python loop, which keeps iterating its original range over the
shortened list. -/
def suGo : Nat → Int → List Token → List Token
  | 0, level, l => (suStep 0 level l).1
  | i + 1, level, l =>
    let s := suStep (i + 1) level l
    suGo i s.2 s.1

/-- Embedding of _strip_unclosed_brackets (source lines 253-263). -/
def strip_unclosed_brackets (l : List Token) : List Token :=
  match l with
  | [] => l
  | _ :: _ => suGo (l.length - 1) 0 l

/-- Statement kinds (isinstance(node, _ast.stmt)). -/
def Node.isStmt : Node → Bool
  | .exprS _ _ => true
  | .assignS _ _ _ => true
  | _ => false

/-- Tuple test used for the remove_naked_comma flag. -/
def Node.isTuple : Node → Bool
  | .tupleE _ _ => true
  | _ => false

/-- A Call with no positional arguments, no keywords (and, on Python 3,
no starargs/kwargs attributes): the condition of the close-paren peel in
_set_real_end (source lines 296-299). -/
def Node.isCallNoArgs : Node → Bool
  | .callE _ _ args kws => args.toList.isEmpty && kws.toList.isEmpty
  | _ => false

/-- Attribute test for the attribute-name peel. -/
def Node.isAttrE : Node → Bool
  | .attrE _ _ _ => true
  | _ => false

/-- Str test, used by fix_ast_problems. -/
def Node.isStrE : Node → Bool
  | .strE _ _ => true
  | _ => false

/-- Embedding of _set_real_end (source lines 265-309).  Returns the end
position assigned to the node — none when the Python code raises, in
which case _mark_text_ranges_rec overwrites the node's end with the
degenerate fallback — together with the token list as left for the
children: statements strip trailing blank/comment/colon/dangling-keyword
tokens; expressions strip extra closers, trailing junk and unclosed
brackets; the end is the end position of the last remaining token; a
zero-argument Call then peels its close-paren (assert ')' first) and an
Attribute peels its attribute name (assert NAME first), re-trimming after
either peel.  On an IndexError path the list state is the emptied list;
a failed assert leaves the trimmed list intact for the children.
The trimming stage is set_real_end_trim, the remainder set_real_end_peel. -/
def set_real_end_trim (n : Node) (tokens : List Token) : Option (List Token) :=
  if n.isStmt then stripLastWhile stmtJunk tokens
  else
    (stripLastWhile exprJunk (strip_trailing_extra_closers (!n.isTuple) tokens)).map
      strip_unclosed_brackets

/-- The peel stage of _set_real_end, reached with the trimmed nonempty
window l whose last token is t: the end markers are t's end; a
zero-argument Call asserts t is ')' and an Attribute asserts t is a NAME,
then both drop t and re-trim. -/
def set_real_end_peel (n : Node) (l : List Token) (t : Token) : Option Pos × List Token :=
  if n.isCallNoArgs then
    if t.string = (")") then
      match stripLastWhile exprJunk l.dropLast with
      | none => (none, [])
      | some l2 => (some t.endp, l2)
    else (none, l)
  else if n.isAttrE then
    if t.type = TokType.nameT then
      match stripLastWhile exprJunk l.dropLast with
      | none => (none, [])
      | some l2 => (some t.endp, l2)
    else (none, l)
  else (some t.endp, l)

/-- See set_real_end_trim / set_real_end_peel and the doc comment above. -/
def set_real_end (n : Node) (tokens : List Token) : Option Pos × List Token :=
  match set_real_end_trim n tokens with
  | none => (none, [])
  | some l =>
    match l.getLast? with
    | none => (none, l)
    | some t => set_real_end_peel n l t

/-- The slot-rebuild lookup used after a sorted Call-children sweep: the
processed child carrying tag i is written back to slot i (Python's
in-place mutation through object identity).  The default is never reached
on meaningful input because every tag of the sweep occurs exactly once. -/
def lookupTag (rm : List (Nat × Node)) (i : Nat) : Node :=
  ((rm.find? (fun q => q.1 == i)).map (fun q => q.2)).getD (.module .nil)

/-- The Call children in field order: [node.func] + node.args + keyword
values (source lines 478-488; starargs/kwargs do not exist on Python 3
Call nodes, so those hasattr branches are vacuous). -/
def callChildList (f : Node) (args kws : NodeList) : List Node :=
  f :: (args.toList ++ kws.toList)

/-- The Call children tagged with their field slots and sorted by start
position (children.sort(key=lambda x: (x.lineno, x.col_offset)), a stable
sort, source line 490). -/
def callSorted (f : Node) (args kws : NodeList) : List (Nat × Node) :=
  List.insertionSort taggedKeyLe (callChildList f args kws).enum

/-- Result of marking one subtree: the annotated subtree, the position
returned to the caller (the earliest start found, used as the next
sibling's horizon) and an instrumentation flag recording whether every
_set_real_end call in the subtree succeeded (false iff some node took the
degenerate except-fallback, observable in Python via the printed
traceback). -/
structure MarkResult where
  node : Node
  pos : Pos
  ok : Bool

/-- Prologue of _mark_text_ranges_rec for a positioned node (source lines
199-207): extract the token window between the node's start and the
horizon, compute the real end, fall back to the one-character degenerate
range on failure.  Yields (end position, token list for the children,
success flag). -/
def markStart (a : Attrs) (n : Node) (tokens : List Token) (p : Pos) :
    Pos × List Token × Bool :=
  let w := extract_tokens tokens a.lineno a.col_offset p.line p.col
  let se := set_real_end n w
  (se.1.getD ⟨a.lineno, a.col_offset + 1⟩, se.2, se.1.isSome)

/-- Right-to-left marking sweep over a child list (the reversed(children)
loop of _mark_text_ranges_rec): the rightmost child is processed first
with the incoming horizon, each earlier child receives the position
returned by its right neighbour. -/
def markFold (mark : Node → List Token → Pos → MarkResult) (tokens : List Token)
    (cs : List Node) (p : Pos) : List Node × Pos × Bool :=
  cs.foldr (fun c acc =>
    let r := mark c tokens acc.2.1
    (r.node :: acc.1, r.pos, r.ok && acc.2.2)) ([], p, true)

/-- markFold over index-tagged children (used for the sorted Call
children; tags model the object identities the in-place mutation writes
through). -/
def markFoldTagged (mark : Node → List Token → Pos → MarkResult) (tokens : List Token)
    (tcs : List (Nat × Node)) (p : Pos) : List (Nat × Node) × Pos × Bool :=
  tcs.foldr (fun c acc =>
    let r := mark c.2 tokens acc.2.1
    ((c.1, r.node) :: acc.1, r.pos, r.ok && acc.2.2)) ([], p, true)

/-- markFold over Dict key/value pairs: the interleaved child order is
key_i, value_i, so the reversed sweep visits value_i before key_i within
each pair, later pairs first. -/
def markFoldPairs (mark : Node → List Token → Pos → MarkResult) (tokens : List Token)
    (ps : List (Node × Node)) (p : Pos) : List (Node × Node) × Pos × Bool :=
  ps.foldr (fun kv acc =>
    let rv := mark kv.2 tokens acc.2.1
    let rk := mark kv.1 tokens rv.pos
    ((rk.node, rv.node) :: acc.1, rk.pos, rk.ok && (rv.ok && acc.2.2))) ([], p, true)

/-- Embedding of _mark_text_ranges_rec (source lines 192-222), with an
explicit fuel argument (sizeOf the node always suffices; the fuel-0
branch is unreachable then).  A positioned node first receives its end
markers via markStart, then its ordered children are marked right to
left over the trimmed token list, and the node's own start is returned
as the new horizon; Module passes tokens and horizon through its body.
Call children are sorted by start position and the marked children are
written back to their original fields through their tags. -/
def markNodeF : Nat → Node → List Token → Pos → MarkResult
  | 0, n, _, p => ⟨n, p, false⟩
  | fuel + 1, n, tokens, p =>
    match n with
    | .module body =>
      let r := markFold (markNodeF fuel) tokens body.toList p
      ⟨.module (NodeList.ofList r.1), r.2.1, r.2.2⟩
    | .exprS a v =>
      let pr := markStart a n tokens p
      let rv := markNodeF fuel v pr.2.1 p
      ⟨.exprS { a with endPos := some pr.1 } rv.node, a.start, pr.2.2 && rv.ok⟩
    | .assignS a ts v =>
      let pr := markStart a n tokens p
      let rv := markNodeF fuel v pr.2.1 p
      let rt := markFold (markNodeF fuel) pr.2.1 ts.toList rv.pos
      ⟨.assignS { a with endPos := some pr.1 } (NodeList.ofList rt.1) rv.node, a.start,
        pr.2.2 && (rv.ok && rt.2.2)⟩
    | .callE a f args kws =>
      let pr := markStart a n tokens p
      let rm := markFoldTagged (markNodeF fuel) pr.2.1 (callSorted f args kws) p
      ⟨.callE { a with endPos := some pr.1 } (lookupTag rm.1 0)
          (NodeList.ofList ((List.range args.toList.length).map
            (fun i => lookupTag rm.1 (1 + i))))
          (NodeList.ofList ((List.range kws.toList.length).map
            (fun i => lookupTag rm.1 (1 + args.toList.length + i)))),
        a.start, pr.2.2 && rm.2.2⟩
    | .binOpE a l op r =>
      let pr := markStart a n tokens p
      let rr := markNodeF fuel r pr.2.1 p
      let rl := markNodeF fuel l pr.2.1 rr.pos
      ⟨.binOpE { a with endPos := some pr.1 } rl.node op rr.node, a.start,
        pr.2.2 && (rr.ok && rl.ok)⟩
    | .nameE a s =>
      let pr := markStart a n tokens p
      ⟨.nameE { a with endPos := some pr.1 } s, a.start, pr.2.2⟩
    | .numE a v =>
      let pr := markStart a n tokens p
      ⟨.numE { a with endPos := some pr.1 } v, a.start, pr.2.2⟩
    | .strE a s =>
      let pr := markStart a n tokens p
      ⟨.strE { a with endPos := some pr.1 } s, a.start, pr.2.2⟩
    | .attrE a v s =>
      let pr := markStart a n tokens p
      let rv := markNodeF fuel v pr.2.1 p
      ⟨.attrE { a with endPos := some pr.1 } rv.node s, a.start, pr.2.2 && rv.ok⟩
    | .tupleE a elts =>
      let pr := markStart a n tokens p
      let rt := markFold (markNodeF fuel) pr.2.1 elts.toList p
      ⟨.tupleE { a with endPos := some pr.1 } (NodeList.ofList rt.1), a.start,
        pr.2.2 && rt.2.2⟩
    | .dictE a pairs =>
      let pr := markStart a n tokens p
      let rp := markFoldPairs (markNodeF fuel) pr.2.1 pairs.toList p
      ⟨.dictE { a with endPos := some pr.1 } (NodePairList.ofList rp.1), a.start,
        pr.2.2 && rp.2.2⟩

/-- The end-position reconstruction pass on one subtree. -/
def markNode (n : Node) (tokens : List Token) (p : Pos) : MarkResult :=
  markNodeF (nsize n) n tokens p

/-! ### The position corrector (fix_ast_problems) -/

/-- Byte-to-character conversion of a node's col_offset against its source
line (fix_ast_problems, source lines 450-454): the byte column is
re-measured as a character count of the decoded prefix.  none models the
IndexError on an out-of-range line number. -/
def fixCol (srcLines : List String) (a : Attrs) : Option Attrs :=
  match srcLines.get? (a.lineno - 1) with
  | none => none
  | some line => some { a with col_offset := charColOfByteCol line.toList a.col_offset }

/-- Left-to-right traversal of a child list by the corrector, threading
the queue of pending string tokens. -/
def fixFold (fx : Node → List Token → Option (Node × List Token)) :
    List Node → List Token → Option (List Node × List Token)
  | [], st => some ([], st)
  | c :: rest, st =>
    match fx c st with
    | none => none
    | some (c1, st1) =>
      match fixFold fx rest st1 with
      | none => none
      | some (rest1, st2) => some (c1 :: rest1, st2)

/-- fixFold over index-tagged children (for the sorted Call children). -/
def fixFoldTagged (fx : Node → List Token → Option (Node × List Token)) :
    List (Nat × Node) → List Token → Option (List (Nat × Node) × List Token)
  | [], st => some ([], st)
  | c :: rest, st =>
    match fx c.2 st with
    | none => none
    | some (c1, st1) =>
      match fixFoldTagged fx rest st1 with
      | none => none
      | some (rest1, st2) => some ((c.1, c1) :: rest1, st2)

/-- fixFold over Dict key/value pairs in interleaved order. -/
def fixFoldPairs (fx : Node → List Token → Option (Node × List Token)) :
    List (Node × Node) → List Token → Option (List (Node × Node) × List Token)
  | [], st => some ([], st)
  | kv :: rest, st =>
    match fx kv.1 st with
    | none => none
    | some (k1, st1) =>
      match fx kv.2 st1 with
      | none => none
      | some (v1, st2) =>
        match fixFoldPairs fx rest st2 with
        | none => none
        | some (rest1, st3) => some ((k1, v1) :: rest1, st3)

/-- Embedding of the fix_node recursion of fix_ast_problems (source lines
403-454): children are corrected first (in _get_ordered_child_nodes
order, threading the queue of string tokens left to right), then the node
itself: a Str adopts the start of the next pending string token; an Expr
or Attribute whose value is a Str adopts its (corrected) child's start;
a BinOp / Call / Attribute / Subscript whose reported start lies after
its left / func / value child's corrected start adopts that child's
start; every other positioned node has its byte col_offset converted to
characters.  none models the fatal errors Python would propagate (string
token queue exhausted, or a position on a nonexistent line). -/
def fixNodeF : Nat → List String → Node → List Token → Option (Node × List Token)
  | 0, _, n, st => some (n, st)
  | fuel + 1, srcLines, n, st =>
    match n with
    | .module body => do
      let r ← fixFold (fixNodeF fuel srcLines) body.toList st
      return (.module (NodeList.ofList r.1), r.2)
    | .exprS a v => do
      let (v1, st1) ← fixNodeF fuel srcLines v st
      if v1.isStrE then
        let vs ← v1.startPos?
        return (.exprS { a with lineno := vs.line, col_offset := vs.col } v1, st1)
      else
        let a1 ← fixCol srcLines a
        return (.exprS a1 v1, st1)
    | .assignS a ts v => do
      let (ts1, st1) ← fixFold (fixNodeF fuel srcLines) ts.toList st
      let (v1, st2) ← fixNodeF fuel srcLines v st1
      let a1 ← fixCol srcLines a
      return (.assignS a1 (NodeList.ofList ts1) v1, st2)
    | .callE a f args kws => do
      let r ← fixFoldTagged (fixNodeF fuel srcLines) (callSorted f args kws) st
      let f1 := lookupTag r.1 0
      let args1 := NodeList.ofList
        ((List.range args.toList.length).map (fun i => lookupTag r.1 (1 + i)))
      let kws1 := NodeList.ofList
        ((List.range kws.toList.length).map
          (fun i => lookupTag r.1 (1 + args.toList.length + i)))
      let fs ← f1.startPos?
      if compare_node_positions a.start fs > 0 then
        return (.callE { a with lineno := fs.line, col_offset := fs.col } f1 args1 kws1, r.2)
      else
        let a1 ← fixCol srcLines a
        return (.callE a1 f1 args1 kws1, r.2)
    | .binOpE a l op r => do
      let (l1, st1) ← fixNodeF fuel srcLines l st
      let (r1, st2) ← fixNodeF fuel srcLines r st1
      let ls ← l1.startPos?
      if compare_node_positions a.start ls > 0 then
        return (.binOpE { a with lineno := ls.line, col_offset := ls.col } l1 op r1, st2)
      else
        let a1 ← fixCol srcLines a
        return (.binOpE a1 l1 op r1, st2)
    | .nameE a s => do
      let a1 ← fixCol srcLines a
      return (.nameE a1 s, st)
    | .numE a v => do
      let a1 ← fixCol srcLines a
      return (.numE a1 v, st)
    | .strE a s => do
      match st with
      | [] => none
      | tk :: st1 =>
        return (.strE { a with lineno := tk.start.line, col_offset := tk.start.col } s, st1)
    | .attrE a v s => do
      let (v1, st1) ← fixNodeF fuel srcLines v st
      if v1.isStrE then
        let vs ← v1.startPos?
        return (.attrE { a with lineno := vs.line, col_offset := vs.col } v1 s, st1)
      else
        let vs ← v1.startPos?
        if compare_node_positions a.start vs > 0 then
          return (.attrE { a with lineno := vs.line, col_offset := vs.col } v1 s, st1)
        else
          let a1 ← fixCol srcLines a
          return (.attrE a1 v1 s, st1)
    | .tupleE a elts => do
      let (elts1, st1) ← fixFold (fixNodeF fuel srcLines) elts.toList st
      let a1 ← fixCol srcLines a
      return (.tupleE a1 (NodeList.ofList elts1), st1)
    | .dictE a pairs => do
      let (pairs1, st1) ← fixFoldPairs (fixNodeF fuel srcLines) pairs.toList st
      let a1 ← fixCol srcLines a
      return (.dictE a1 (NodePairList.ofList pairs1), st1)

/-- Embedding of fix_ast_problems (source lines 385-457): the queue of
string-typed tokens is collected from the token stream, then fix_node
corrects the whole tree bottom-up. -/
def fix_ast_problems (tree : Node) (srcLines : List String) (tokens : List Token) :
    Option Node := do
  let string_tokens := tokens.filter (fun tok => tok.type == TokType.stringT)
  let r ← fixNodeF (nsize tree) srcLines tree string_tokens
  return r.1

/-- Embedding of mark_text_ranges (source lines 174-322): the token list
produced by the (external) tokenizer and the keepends-split source lines
are inputs; fix_ast_problems corrects all start positions, then the
recursive sweep assigns end positions with the end of the source text as
the initial horizon.  none models the fatal errors mark_text_ranges does
not catch (a corrector failure, or indexing source_lines[-1] of an empty
source). -/
def mark_text_ranges (node : Node) (srcLines : List String) (all_tokens : List Token) :
    Option Node := do
  let fixed ← fix_ast_problems node srcLines all_tokens
  let lastLine ← srcLines.getLast?
  return (markNode fixed all_tokens ⟨srcLines.length, lastLine.length⟩).node

/-! ### Token-stream well-formedness predicates

The spec's data model guarantees that token positions are monotonically
non-decreasing across the sequence and that every token starts no later
than it ends; these decidable predicates state those facts about a token
list and serve as the formal residue of "syntactically valid source" in
the universal theorems. -/

/-- Every token starts no later than it ends. -/
def tokStartLeEnd (toks : List Token) : Bool :=
  toks.all (fun t => posLe t.start t.endp)

/-- Consecutive tokens have non-decreasing end positions. -/
def endsChainB : List Token → Bool
  | [] => true
  | [_] => true
  | a :: b :: t => posLe a.endp b.endp && endsChainB (b :: t)

/-! ### Concrete scenarios

The trees and token lists below transcribe, in order, exactly what
CPython's ast.parse and tokenize.tokenize (both external collaborators of
this core) produce for the one-line sources of the spec's scenario
properties. -/

/-- ast.parse("f()\n"): Module[Expr(Call(Name f))]. -/
def tree5 : Node :=
  .module (.cons (.exprS ⟨1, 0, none⟩
    (.callE ⟨1, 0, none⟩ (.nameE ⟨1, 0, none⟩ ("f")) .nil .nil)) .nil)

/-- tokenize.tokenize of b"f()\n". -/
def toks5 : List Token :=
  [⟨.encodingT, "utf-8", ⟨0, 0⟩, ⟨0, 0⟩⟩,
   ⟨.nameT, "f", ⟨1, 0⟩, ⟨1, 1⟩⟩,
   ⟨.opT, "(", ⟨1, 1⟩, ⟨1, 2⟩⟩,
   ⟨.opT, ")", ⟨1, 2⟩, ⟨1, 3⟩⟩,
   ⟨.newlineT, "\n", ⟨1, 3⟩, ⟨1, 4⟩⟩,
   ⟨.endmarkerT, "", ⟨2, 0⟩, ⟨2, 0⟩⟩]

/-- ast.parse("x = 1 + 2\n"): Module[Assign([Name x], BinOp(Num 1, Add, Num 2))]. -/
def tree6 : Node :=
  .module (.cons (.assignS ⟨1, 0, none⟩ (.cons (.nameE ⟨1, 0, none⟩ ("x")) .nil)
    (.binOpE ⟨1, 4, none⟩ (.numE ⟨1, 4, none⟩ 1) ("+") (.numE ⟨1, 8, none⟩ 2))) .nil)

/-- tokenize.tokenize of b"x = 1 + 2\n". -/
def toks6 : List Token :=
  [⟨.encodingT, "utf-8", ⟨0, 0⟩, ⟨0, 0⟩⟩,
   ⟨.nameT, "x", ⟨1, 0⟩, ⟨1, 1⟩⟩,
   ⟨.opT, "=", ⟨1, 2⟩, ⟨1, 3⟩⟩,
   ⟨.numberT, "1", ⟨1, 4⟩, ⟨1, 5⟩⟩,
   ⟨.opT, "+", ⟨1, 6⟩, ⟨1, 7⟩⟩,
   ⟨.numberT, "2", ⟨1, 8⟩, ⟨1, 9⟩⟩,
   ⟨.newlineT, "\n", ⟨1, 9⟩, ⟨1, 10⟩⟩,
   ⟨.endmarkerT, "", ⟨2, 0⟩, ⟨2, 0⟩⟩]

/-- ast.parse("s = 'ab'\n"): Module[Assign([Name s], Str)]. -/
def tree7 : Node :=
  .module (.cons (.assignS ⟨1, 0, none⟩ (.cons (.nameE ⟨1, 0, none⟩ ("s")) .nil)
    (.strE ⟨1, 4, none⟩ ("'ab'"))) .nil)

/-- tokenize.tokenize of b"s = 'ab'\n". -/
def toks7 : List Token :=
  [⟨.encodingT, "utf-8", ⟨0, 0⟩, ⟨0, 0⟩⟩,
   ⟨.nameT, "s", ⟨1, 0⟩, ⟨1, 1⟩⟩,
   ⟨.opT, "=", ⟨1, 2⟩, ⟨1, 3⟩⟩,
   ⟨.stringT, "'ab'", ⟨1, 4⟩, ⟨1, 8⟩⟩,
   ⟨.newlineT, "\n", ⟨1, 8⟩, ⟨1, 9⟩⟩,
   ⟨.endmarkerT, "", ⟨2, 0⟩, ⟨2, 0⟩⟩]

/-- The source "ä = 1\n" for the byte-offset conversion scenario. -/
def src9 : String :=
  "ä = 1\n"

/-- tokenize.tokenize of "ä = 1\n".encode("utf-8"): ä occupies two bytes,
so the raw column offsets of every following token are byte-based. -/
def toks9 : List Token :=
  [⟨.encodingT, "utf-8", ⟨0, 0⟩, ⟨0, 0⟩⟩,
   ⟨.nameT, "ä", ⟨1, 0⟩, ⟨1, 2⟩⟩,
   ⟨.opT, "=", ⟨1, 3⟩, ⟨1, 4⟩⟩,
   ⟨.numberT, "1", ⟨1, 5⟩, ⟨1, 6⟩⟩,
   ⟨.newlineT, "\n", ⟨1, 6⟩, ⟨1, 7⟩⟩,
   ⟨.endmarkerT, "", ⟨2, 0⟩, ⟨2, 0⟩⟩]

/-- The sibling non-overlap relation between two (already marked)
adjacent ordered siblings: the earlier one's assigned end never exceeds
the later one's start. -/
def sibRel (c1 c2 : Node) : Prop :=
  ∀ e, c1.endPos? = some e → ∀ s, c2.startPos? = some s → posLe e s = true

/-! ## Theorems -/

/-! ### Basic facts about the position order -/

theorem posLe_iff (a b : Pos) :
    posLe a b = true ↔ (a.line < b.line ∨ (a.line = b.line ∧ a.col ≤ b.col)) := by
  simp [posLe]

theorem posLt_iff (a b : Pos) :
    posLt a b = true ↔ (a.line < b.line ∨ (a.line = b.line ∧ a.col < b.col)) := by
  simp [posLt]

theorem posLe_refl (a : Pos) : posLe a a = true := by
  simp [posLe]

theorem posLe_trans {a b c : Pos} (h1 : posLe a b = true) (h2 : posLe b c = true) :
    posLe a c = true := by
  simp only [posLe_iff] at *
  omega

theorem posLt_le {a b : Pos} (h : posLt a b = true) : posLe a b = true := by
  simp only [posLe_iff, posLt_iff] at *
  omega

theorem posLt_le_trans {a b c : Pos} (h1 : posLt a b = true) (h2 : posLe b c = true) :
    posLt a c = true := by
  simp only [posLe_iff, posLt_iff] at *
  omega

theorem posLe_lt_trans {a b c : Pos} (h1 : posLe a b = true) (h2 : posLt b c = true) :
    posLt a c = true := by
  simp only [posLe_iff, posLt_iff] at *
  omega

/-! ### Settled claims: concrete scenarios and the two code bugs -/

/-- C10: compare_node_positions is claimed to implement the lexicographic
order on (lineno, col_offset), returning a negative value whenever the
first position is strictly smaller.  The code contradicts this: its
fourth branch (source line 466) compares n2.col_offset with itself, so on
a same-line pair whose first column is smaller it returns 0 instead of a
negative value.  Positions (1,0) against (1,5) witness the divergence;
the other three branches behave as claimed. -/
theorem claim_C10_compare_negative_branch_dead :
    compare_node_positions ⟨1, 0⟩ ⟨1, 5⟩ = 0 ∧
    posLt ⟨1, 0⟩ ⟨1, 5⟩ = true ∧
    compare_node_positions ⟨1, 5⟩ ⟨1, 0⟩ = 1 ∧
    compare_node_positions ⟨1, 5⟩ ⟨1, 5⟩ = 0 ∧
    compare_node_positions ⟨1, 0⟩ ⟨2, 0⟩ = -1 := by
  refine ⟨rfl, by decide, rfl, rfl, rfl⟩

/-- C9: tokenize_with_char_offsets is claimed to return the ordered
sequence of tokens with character-based columns.  The loop does compute
exactly that sequence (thokensOf: for the two-byte letter ä the byte
columns 2,3,4,5,6,7 become character columns 1,2,3,4,5,6, and the
encoding sentinel and the zero-width-column end marker are copied
verbatim), but the function body has no return statement, so Python
returns None: the computed list is discarded. -/
theorem claim_C9_tokenize_returns_none :
    tokenize_with_char_offsets src9 toks9 = none ∧
    thokensOf src9 toks9 = some
      [⟨.encodingT, "utf-8", 0, 0, 0, 0⟩,
       ⟨.nameT, "ä", 1, 0, 1, 1⟩,
       ⟨.opT, "=", 1, 2, 1, 3⟩,
       ⟨.numberT, "1", 1, 4, 1, 5⟩,
       ⟨.newlineT, "\n", 1, 5, 1, 6⟩,
       ⟨.endmarkerT, "", 2, 0, 2, 0⟩] := by
  exact ⟨rfl, by rfl⟩

/-- C5: for the source "f()\n", mark_text_ranges assigns the Call node
the range line 1, columns 0 to 3, and the callee Name node the range
line 1, columns 0 to 1 — the zero-argument call peels its trailing
close-paren after setting its own end, so the callee's token window
stops before the parentheses. -/
theorem claim_C5_call_scenario :
    mark_text_ranges tree5 [("f()\n")] toks5 = some
      (.module (.cons (.exprS ⟨1, 0, some ⟨1, 3⟩⟩
        (.callE ⟨1, 0, some ⟨1, 3⟩⟩ (.nameE ⟨1, 0, some ⟨1, 1⟩⟩ ("f")) .nil .nil)) .nil)) := by
  rfl

/-- C6: for the source "x = 1 + 2\n", mark_text_ranges assigns the BinOp
node the range line 1, columns 4 to 9, its left operand columns 4 to 5
and its right operand columns 8 to 9 (the enclosing Assign spans columns
0 to 9 and the target Name columns 0 to 1). -/
theorem claim_C6_binop_scenario :
    mark_text_ranges tree6 [("x = 1 + 2\n")] toks6 = some
      (.module (.cons (.assignS ⟨1, 0, some ⟨1, 9⟩⟩
        (.cons (.nameE ⟨1, 0, some ⟨1, 1⟩⟩ ("x")) .nil)
        (.binOpE ⟨1, 4, some ⟨1, 9⟩⟩ (.numE ⟨1, 4, some ⟨1, 5⟩⟩ 1) ("+")
          (.numE ⟨1, 8, some ⟨1, 9⟩⟩ 2))) .nil)) := by
  rfl

/-! ### Infrastructure: the trimming stages only shorten the token window -/

theorem mem_of_getLast? {α : Type} {l : List α} {a : α} (h : l.getLast? = some a) :
    a ∈ l := by
  rw [List.getLast?_eq_some_iff] at h
  obtain ⟨ys, rfl⟩ := h
  simp

theorem stripRevWhile_sublist (p : Token → Bool) :
    ∀ {l m : List Token}, stripRevWhile p l = some m → m.Sublist l := by
  intro l
  induction l with
  | nil => intro m h; simp [stripRevWhile] at h
  | cons t rest ih =>
    intro m h
    rw [show stripRevWhile p (t :: rest) =
        (if p t then stripRevWhile p rest else some (t :: rest)) from rfl] at h
    split at h
    · exact (ih h).trans (List.sublist_cons_self t rest)
    · simp only [Option.some.injEq] at h
      subst h
      exact List.Sublist.refl _

theorem stripLastWhile_sublist {p : Token → Bool} {l m : List Token}
    (h : stripLastWhile p l = some m) : m.Sublist l := by
  unfold stripLastWhile at h
  cases hr : stripRevWhile p l.reverse with
  | none => rw [hr] at h; simp at h
  | some m2 =>
    rw [hr] at h
    simp only [Option.map_some', Option.some.injEq] at h
    subst h
    have hs := (stripRevWhile_sublist p hr).reverse
    rwa [List.reverse_reverse] at hs

theorem stripExtraClosersGo_sublist (b : Bool) :
    ∀ (level : Int) (l : List Token), (stripExtraClosersGo b level l).Sublist l := by
  intro level l
  induction l generalizing level with
  | nil => simp [stripExtraClosersGo]
  | cons t rest ih =>
    simp only [stripExtraClosersGo]
    split_ifs <;>
      first
        | exact List.nil_sublist _
        | exact List.Sublist.cons₂ t (ih _)

theorem suStep_sublist (i : Nat) (level : Int) (l : List Token) :
    (suStep i level l).1.Sublist l := by
  unfold suStep
  cases l.get? i with
  | none => exact List.Sublist.refl _
  | some t =>
    simp only
    split_ifs <;>
      first
        | exact List.take_sublist _ _
        | exact List.Sublist.refl _

theorem suGo_sublist : ∀ (i : Nat) (level : Int) (l : List Token),
    (suGo i level l).Sublist l := by
  intro i
  induction i with
  | zero => intro level l; exact suStep_sublist 0 level l
  | succ i ih =>
    intro level l
    simp only [suGo]
    exact (ih _ _).trans (suStep_sublist (i + 1) level l)

theorem strip_unclosed_brackets_sublist (l : List Token) :
    (strip_unclosed_brackets l).Sublist l := by
  unfold strip_unclosed_brackets
  split
  · exact List.Sublist.refl _
  · exact suGo_sublist _ _ _

theorem set_real_end_trim_sublist {n : Node} {w l : List Token}
    (h : set_real_end_trim n w = some l) : l.Sublist w := by
  unfold set_real_end_trim at h
  split at h
  · exact stripLastWhile_sublist h
  · cases hj : stripLastWhile exprJunk (strip_trailing_extra_closers (!n.isTuple) w) with
    | none => rw [hj] at h; simp at h
    | some l2 =>
      rw [hj] at h
      simp only [Option.map_some', Option.some.injEq] at h
      subst h
      exact ((strip_unclosed_brackets_sublist l2).trans
        (stripLastWhile_sublist hj)).trans (stripExtraClosersGo_sublist _ _ _)

theorem set_real_end_peel_snd_sublist (n : Node) (l : List Token) (t : Token) :
    (set_real_end_peel n l t).2.Sublist l := by
  unfold set_real_end_peel
  split
  · split
    · cases hj : stripLastWhile exprJunk l.dropLast with
      | none => simp [hj]
      | some l2 =>
        simp only [hj]
        exact (stripLastWhile_sublist hj).trans (List.dropLast_sublist l)
    · exact List.Sublist.refl _
  · split
    · split
      · cases hj : stripLastWhile exprJunk l.dropLast with
        | none => simp [hj]
        | some l2 =>
          simp only [hj]
          exact (stripLastWhile_sublist hj).trans (List.dropLast_sublist l)
      · exact List.Sublist.refl _
    · exact List.Sublist.refl _

theorem set_real_end_peel_fst {n : Node} {l : List Token} {t : Token} {e : Pos}
    (h : (set_real_end_peel n l t).1 = some e) : e = t.endp := by
  unfold set_real_end_peel at h
  split at h
  · split at h
    · cases hj : stripLastWhile exprJunk l.dropLast with
      | none => rw [hj] at h; simp at h
      | some l2 => rw [hj] at h; simp at h; exact h.symm
    · simp at h
  · split at h
    · split at h
      · cases hj : stripLastWhile exprJunk l.dropLast with
        | none => rw [hj] at h; simp at h
        | some l2 => rw [hj] at h; simp at h; exact h.symm
      · simp at h
    · simp at h; exact h.symm

theorem set_real_end_snd_sublist (n : Node) (w : List Token) :
    (set_real_end n w).2.Sublist w := by
  unfold set_real_end
  cases htr : set_real_end_trim n w with
  | none => simp only [htr]; exact List.nil_sublist _
  | some l =>
    simp only [htr]
    cases hg : l.getLast? with
    | none => simp only [hg]; exact set_real_end_trim_sublist htr
    | some t =>
      simp only [hg]
      exact (set_real_end_peel_snd_sublist n l t).trans (set_real_end_trim_sublist htr)

theorem set_real_end_fst_some {n : Node} {w : List Token} {e : Pos}
    (h : (set_real_end n w).1 = some e) :
    ∃ l t, set_real_end_trim n w = some l ∧ l.getLast? = some t ∧ e = t.endp ∧
      (set_real_end n w).2.Sublist l := by
  unfold set_real_end at h ⊢
  cases htr : set_real_end_trim n w with
  | none => simp only [htr] at h; simp at h
  | some l =>
    simp only [htr] at h ⊢
    cases hg : l.getLast? with
    | none => simp only [hg] at h; simp at h
    | some t =>
      simp only [hg] at h ⊢
      exact ⟨l, t, rfl, hg, set_real_end_peel_fst h, set_real_end_peel_snd_sublist n l t⟩

/-! ### Infrastructure: the extracted window and its bounds -/

theorem extract_tokens_sublist (tokens : List Token) (l c el ec : Nat) :
    (extract_tokens tokens l c el ec).Sublist tokens :=
  List.filter_sublist _

theorem mem_extract_tokens {t : Token} {tokens : List Token} {l c el ec : Nat}
    (h : t ∈ extract_tokens tokens l c el ec) :
    t ∈ tokens ∧ posLe ⟨l, c⟩ t.start = true ∧ posLe t.endp ⟨el, ec⟩ = true := by
  unfold extract_tokens at h
  rw [List.mem_filter, decide_eq_true_iff] at h
  obtain ⟨h1, ha, hb, hc, hd, _⟩ := h
  refine ⟨h1, ?_, ?_⟩
  · simp only [posLe_iff]; omega
  · simp only [posLe_iff]; omega

theorem pairwise_le_getLast {l : List Token} {t : Token}
    (hp : List.Pairwise (fun a b => posLe a.endp b.endp = true) l)
    (hg : l.getLast? = some t) :
    ∀ x ∈ l, posLe x.endp t.endp = true := by
  rw [List.getLast?_eq_some_iff] at hg
  obtain ⟨ys, rfl⟩ := hg
  intro x hx
  rw [List.pairwise_append] at hp
  rcases List.mem_append.mp hx with hy | hs
  · exact hp.2.2 x hy t (by simp)
  · simp at hs
    subst hs
    exact posLe_refl _

theorem endsChainB_pairwise : ∀ {l : List Token}, endsChainB l = true →
    List.Pairwise (fun a b => posLe a.endp b.endp = true) l := by
  intro l
  induction l with
  | nil => intro _; exact .nil
  | cons a rest ih =>
    cases rest with
    | nil => intro _; simp
    | cons b t =>
      intro h
      simp only [endsChainB, Bool.and_eq_true] at h
      have hp := ih h.2
      cases hp with
      | cons hb hpt =>
        refine List.Pairwise.cons ?_ (List.Pairwise.cons hb hpt)
        intro x hx
        rcases List.mem_cons.mp hx with rfl | hx
        · exact h.1
        · exact posLe_trans h.1 (hb x hx)

theorem tokStartLeEnd_of_sublist {l₁ l₂ : List Token} (hs : l₁.Sublist l₂)
    (h : tokStartLeEnd l₂ = true) : tokStartLeEnd l₁ = true := by
  rw [tokStartLeEnd, List.all_eq_true] at h ⊢
  intro x hx
  exact h x (hs.mem hx)

/-! ### Infrastructure: tree sizes, list conversions and allNodes -/

theorem nlistToList_ofList : ∀ l : List Node, (NodeList.ofList l).toList = l
  | [] => rfl
  | x :: rest => by simp [NodeList.ofList, NodeList.toList, nlistToList_ofList rest]

theorem npairToList_ofList : ∀ l : List (Node × Node),
    (NodePairList.ofList l).toList = l
  | [] => rfl
  | kv :: rest => by simp [NodePairList.ofList, NodePairList.toList, npairToList_ofList rest]

theorem nsize_pos (n : Node) : 1 ≤ nsize n := by
  cases n <;> simp [nsize]

theorem nsize_le_of_mem_toList : ∀ (l : NodeList) (c : Node),
    c ∈ l.toList → nsize c ≤ nsizeL l
  | .nil, c => by
    intro hc
    simp [NodeList.toList] at hc
  | .cons h t, c => by
    intro hc
    rcases List.mem_cons.mp hc with rfl | hc
    · simp [nsizeL]
    · have := nsize_le_of_mem_toList t c hc
      simp [nsizeL]
      omega

theorem nsize_le_of_mem_ptoList : ∀ (l : NodePairList) (k v : Node),
    (k, v) ∈ l.toList → nsize k + nsize v ≤ nsizeP l
  | .pnil, k, v => by
    intro hc
    simp [NodePairList.toList] at hc
  | .pcons k0 v0 t, k, v => by
    intro hc
    rcases List.mem_cons.mp hc with h | hc
    · simp only [Prod.mk.injEq] at h
      obtain ⟨rfl, rfl⟩ := h
      simp [nsizeP]
    · have := nsize_le_of_mem_ptoList t k v hc
      simp [nsizeP]
      omega

theorem nsize_child_lt : ∀ {n c : Node}, c ∈ n.childNodes → nsize c < nsize n := by
  intro n c h
  cases n with
  | module body =>
    simp only [Node.childNodes] at h
    have := nsize_le_of_mem_toList _ _ h
    simp [nsize]; omega
  | exprS a v =>
    simp only [Node.childNodes, List.mem_singleton] at h
    subst h; simp [nsize]
  | assignS a ts v =>
    simp only [Node.childNodes, List.mem_append, List.mem_singleton] at h
    rcases h with h | rfl
    · have := nsize_le_of_mem_toList _ _ h
      simp [nsize]; omega
    · simp [nsize]; omega
  | callE a f args kws =>
    simp only [Node.childNodes, List.mem_cons, List.mem_append] at h
    rcases h with rfl | h | h
    · simp [nsize]; omega
    · have := nsize_le_of_mem_toList _ _ h
      simp [nsize]; omega
    · have := nsize_le_of_mem_toList _ _ h
      simp [nsize]; omega
  | binOpE a l op r =>
    simp only [Node.childNodes, List.mem_cons, List.not_mem_nil, or_false] at h
    rcases h with rfl | rfl
    · simp [nsize]; omega
    · simp [nsize]; omega
  | nameE a s => simp [Node.childNodes] at h
  | numE a v => simp [Node.childNodes] at h
  | strE a s => simp [Node.childNodes] at h
  | attrE a v s =>
    simp only [Node.childNodes, List.mem_singleton] at h
    subst h; simp [nsize]
  | tupleE a elts =>
    simp only [Node.childNodes] at h
    have := nsize_le_of_mem_toList _ _ h
    simp [nsize]; omega
  | dictE a pairs =>
    simp only [Node.childNodes, List.mem_append, List.mem_map] at h
    rcases h with ⟨q, hq, rfl⟩ | ⟨q, hq, rfl⟩
    · have := nsize_le_of_mem_ptoList pairs q.1 q.2 (by simpa using hq)
      simp [nsize]; omega
    · have := nsize_le_of_mem_ptoList pairs q.1 q.2 (by simpa using hq)
      simp [nsize]; omega

theorem interleave_perm (l : List (Node × Node)) :
    ((l.map (fun q => [q.1, q.2])).flatten).Perm
      (l.map (fun q => q.1) ++ l.map (fun q => q.2)) := by
  induction l with
  | nil => simp
  | cons q rest ih =>
    simp only [List.map_cons, List.flatten_cons, List.cons_append, List.nil_append]
    exact List.Perm.cons q.1 ((ih.cons q.2).trans List.perm_middle.symm)

theorem orderedChildren_perm (n : Node) : n.orderedChildren.Perm n.childNodes := by
  cases n with
  | dictE a pairs =>
    simp only [Node.orderedChildren, Node.childNodes]
    exact interleave_perm pairs.toList
  | callE a f args kws =>
    simp only [Node.orderedChildren, Node.childNodes]
    exact List.perm_insertionSort _ _
  | module body => exact List.Perm.refl _
  | exprS a v => exact List.Perm.refl _
  | assignS a ts v => exact List.Perm.refl _
  | binOpE a l op r => exact List.Perm.refl _
  | nameE a s => exact List.Perm.refl _
  | numE a v => exact List.Perm.refl _
  | strE a s => exact List.Perm.refl _
  | attrE a v s => exact List.Perm.refl _
  | tupleE a elts => exact List.Perm.refl _

theorem nsize_ordered_lt {n c : Node} (h : c ∈ n.orderedChildren) : nsize c < nsize n :=
  nsize_child_lt ((orderedChildren_perm n).mem_iff.mp h)

theorem allNodesF_congr : ∀ (fuel₁ : Nat), ∀ {fuel₂ : Nat} {n : Node},
    nsize n ≤ fuel₁ → nsize n ≤ fuel₂ → allNodesF fuel₁ n = allNodesF fuel₂ n := by
  intro fuel₁
  induction fuel₁ with
  | zero =>
    intro fuel₂ n h1 _
    have := nsize_pos n
    omega
  | succ fuel ih =>
    intro fuel₂ n h1 h2
    have hpos := nsize_pos n
    obtain ⟨k, rfl⟩ : ∃ k, fuel₂ = k + 1 := ⟨fuel₂ - 1, by omega⟩
    simp only [allNodesF]
    congr 1
    congr 1
    apply List.map_congr_left
    intro c hc
    have hlt := nsize_child_lt hc
    exact ih (by omega) (by omega)

theorem allNodes_eq (n : Node) :
    allNodes n = n :: (n.childNodes.map allNodes).flatten := by
  unfold allNodes
  have hpos := nsize_pos n
  obtain ⟨k, hk⟩ : ∃ k, nsize n = k + 1 := ⟨nsize n - 1, by omega⟩
  rw [hk]
  simp only [allNodesF]
  congr 1
  congr 1
  apply List.map_congr_left
  intro c hc
  have hlt := nsize_child_lt hc
  exact allNodesF_congr k (by omega) (by omega)

theorem mem_allNodes_iff {m n : Node} :
    m ∈ allNodes n ↔ m = n ∨ ∃ c ∈ n.childNodes, m ∈ allNodes c := by
  conv_lhs => rw [allNodes_eq]
  simp [List.mem_flatten]

theorem self_mem_allNodes (n : Node) : n ∈ allNodes n := by
  rw [mem_allNodes_iff]
  exact Or.inl rfl

/-! ### Infrastructure: unfolding equations and membership for the fold sweeps -/

theorem markFold_nil (mark : Node → List Token → Pos → MarkResult)
    (tokens : List Token) (p : Pos) : markFold mark tokens [] p = ([], p, true) :=
  rfl

theorem markFold_cons (mark : Node → List Token → Pos → MarkResult)
    (tokens : List Token) (c : Node) (cs : List Node) (p : Pos) :
    markFold mark tokens (c :: cs) p =
      ((mark c tokens (markFold mark tokens cs p).2.1).node :: (markFold mark tokens cs p).1,
       (mark c tokens (markFold mark tokens cs p).2.1).pos,
       (mark c tokens (markFold mark tokens cs p).2.1).ok && (markFold mark tokens cs p).2.2) :=
  rfl

theorem markFoldTagged_nil (mark : Node → List Token → Pos → MarkResult)
    (tokens : List Token) (p : Pos) : markFoldTagged mark tokens [] p = ([], p, true) :=
  rfl

theorem markFoldTagged_cons (mark : Node → List Token → Pos → MarkResult)
    (tokens : List Token) (c : Nat × Node) (cs : List (Nat × Node)) (p : Pos) :
    markFoldTagged mark tokens (c :: cs) p =
      ((c.1, (mark c.2 tokens (markFoldTagged mark tokens cs p).2.1).node)
          :: (markFoldTagged mark tokens cs p).1,
       (mark c.2 tokens (markFoldTagged mark tokens cs p).2.1).pos,
       (mark c.2 tokens (markFoldTagged mark tokens cs p).2.1).ok &&
         (markFoldTagged mark tokens cs p).2.2) :=
  rfl

theorem markFoldPairs_nil (mark : Node → List Token → Pos → MarkResult)
    (tokens : List Token) (p : Pos) : markFoldPairs mark tokens [] p = ([], p, true) :=
  rfl

theorem markFoldPairs_cons (mark : Node → List Token → Pos → MarkResult)
    (tokens : List Token) (kv : Node × Node) (ps : List (Node × Node)) (p : Pos) :
    markFoldPairs mark tokens (kv :: ps) p =
      (((mark kv.1 tokens
            (mark kv.2 tokens (markFoldPairs mark tokens ps p).2.1).pos).node,
         (mark kv.2 tokens (markFoldPairs mark tokens ps p).2.1).node)
          :: (markFoldPairs mark tokens ps p).1,
       (mark kv.1 tokens (mark kv.2 tokens (markFoldPairs mark tokens ps p).2.1).pos).pos,
       (mark kv.1 tokens (mark kv.2 tokens (markFoldPairs mark tokens ps p).2.1).pos).ok &&
         ((mark kv.2 tokens (markFoldPairs mark tokens ps p).2.1).ok &&
          (markFoldPairs mark tokens ps p).2.2)) :=
  rfl

theorem markFold_mem {mark : Node → List Token → Pos → MarkResult} {tokens : List Token} :
    ∀ {cs : List Node} {p : Pos} {x : Node}, x ∈ (markFold mark tokens cs p).1 →
      ∃ c ∈ cs, ∃ h : Pos, x = (mark c tokens h).node ∧
        ((markFold mark tokens cs p).2.2 = true → (mark c tokens h).ok = true) := by
  intro cs
  induction cs with
  | nil => intro p x hx; simp [markFold_nil] at hx
  | cons c rest ih =>
    intro p x hx
    rw [markFold_cons] at hx
    rcases List.mem_cons.mp hx with rfl | hx
    · refine ⟨c, by simp, (markFold mark tokens rest p).2.1, rfl, ?_⟩
      rw [markFold_cons]
      simp only [Bool.and_eq_true]
      exact fun h => h.1
    · obtain ⟨c2, hc2, hpos, hx2, hok⟩ := ih hx
      refine ⟨c2, by simp [hc2], hpos, hx2, ?_⟩
      rw [markFold_cons]
      simp only [Bool.and_eq_true]
      exact fun h => hok h.2

theorem markFoldTagged_mem {mark : Node → List Token → Pos → MarkResult}
    {tokens : List Token} :
    ∀ {cs : List (Nat × Node)} {p : Pos} {q : Nat × Node},
      q ∈ (markFoldTagged mark tokens cs p).1 →
      ∃ c, (q.1, c) ∈ cs ∧ ∃ h : Pos, q.2 = (mark c tokens h).node ∧
        ((markFoldTagged mark tokens cs p).2.2 = true → (mark c tokens h).ok = true) := by
  intro cs
  induction cs with
  | nil => intro p q hq; simp [markFoldTagged_nil] at hq
  | cons c rest ih =>
    intro p q hq
    rw [markFoldTagged_cons] at hq
    rcases List.mem_cons.mp hq with rfl | hq
    · refine ⟨c.2, by simp, (markFoldTagged mark tokens rest p).2.1, rfl, ?_⟩
      rw [markFoldTagged_cons]
      simp only [Bool.and_eq_true]
      exact fun h => h.1
    · obtain ⟨c2, hc2, hpos, hx2, hok⟩ := ih hq
      refine ⟨c2, by simp [hc2], hpos, hx2, ?_⟩
      rw [markFoldTagged_cons]
      simp only [Bool.and_eq_true]
      exact fun h => hok h.2

theorem markFoldPairs_mem {mark : Node → List Token → Pos → MarkResult}
    {tokens : List Token} :
    ∀ {ps : List (Node × Node)} {p : Pos} {q : Node × Node},
      q ∈ (markFoldPairs mark tokens ps p).1 →
      ∃ kv ∈ ps, ∃ hk hv : Pos, q.1 = (mark kv.1 tokens hk).node ∧
        q.2 = (mark kv.2 tokens hv).node ∧
        ((markFoldPairs mark tokens ps p).2.2 = true →
          (mark kv.1 tokens hk).ok = true ∧ (mark kv.2 tokens hv).ok = true) := by
  intro ps
  induction ps with
  | nil => intro p q hq; simp [markFoldPairs_nil] at hq
  | cons kv rest ih =>
    intro p q hq
    rw [markFoldPairs_cons] at hq
    rcases List.mem_cons.mp hq with rfl | hq
    · refine ⟨kv, by simp, _, _, rfl, rfl, ?_⟩
      rw [markFoldPairs_cons]
      simp only [Bool.and_eq_true]
      exact fun h => ⟨h.1, h.2.1⟩
    · obtain ⟨kv2, hkv2, hk, hv, h1, h2, hok⟩ := ih hq
      refine ⟨kv2, by simp [hkv2], hk, hv, h1, h2, ?_⟩
      rw [markFoldPairs_cons]
      simp only [Bool.and_eq_true]
      exact fun h => hok h.2.2

/-! ### Infrastructure: the per-node prologue markStart -/

theorem markStart_snd_sublist (a : Attrs) (n : Node) (tokens : List Token) (p : Pos) :
    (markStart a n tokens p).2.1.Sublist tokens := by
  simp only [markStart]
  exact (set_real_end_snd_sublist _ _).trans (extract_tokens_sublist _ _ _ _ _)

theorem markStart_end_of_ok {a : Attrs} {n : Node} {tokens : List Token} {p : Pos}
    (h : (markStart a n tokens p).2.2 = true) :
    ∃ t ∈ extract_tokens tokens a.lineno a.col_offset p.line p.col,
      (markStart a n tokens p).1 = t.endp := by
  simp only [markStart] at h ⊢
  rw [Option.isSome_iff_exists] at h
  obtain ⟨e, he⟩ := h
  obtain ⟨l, t, htr, hg, rfl, _⟩ := set_real_end_fst_some he
  refine ⟨t, ?_, by rw [he]; rfl⟩
  exact (set_real_end_trim_sublist htr).mem (mem_of_getLast? hg)

theorem markStart_end_of_fallback {a : Attrs} {n : Node} {tokens : List Token} {p : Pos}
    (h : (markStart a n tokens p).2.2 = false) :
    (markStart a n tokens p).1 = ⟨a.lineno, a.col_offset + 1⟩ := by
  simp only [markStart] at h ⊢
  cases hse : (set_real_end n (extract_tokens tokens a.lineno a.col_offset p.line p.col)).1 with
  | none => rfl
  | some e => rw [hse] at h; simp at h

theorem markStart_end_le_horizon {a : Attrs} {n : Node} {tokens : List Token} {p : Pos}
    (h : (markStart a n tokens p).2.2 = true) :
    posLe (markStart a n tokens p).1 p = true := by
  obtain ⟨t, ht, he⟩ := markStart_end_of_ok h
  rw [he]
  have := (mem_extract_tokens ht).2.2
  exact this

theorem markStart_end_ge_start (a : Attrs) (n : Node) (tokens : List Token) (p : Pos)
    (htok : tokStartLeEnd tokens = true) :
    posLe a.start (markStart a n tokens p).1 = true := by
  cases hok : (markStart a n tokens p).2.2 with
  | false =>
    rw [markStart_end_of_fallback hok]
    simp [Attrs.start, posLe_iff]
  | true =>
    obtain ⟨t, ht, he⟩ := markStart_end_of_ok hok
    rw [he]
    obtain ⟨htm, hs, _⟩ := mem_extract_tokens ht
    rw [tokStartLeEnd, List.all_eq_true] at htok
    exact posLe_trans hs (htok t htm)

/-! ### Helper lemmas for the Call-children rebuild -/

theorem lookupTag_cases (rm : List (Nat × Node)) (i : Nat) :
    lookupTag rm i = .module .nil ∨ ∃ q ∈ rm, lookupTag rm i = q.2 := by
  unfold lookupTag
  cases hf : rm.find? (fun q => q.1 == i) with
  | none => exact Or.inl rfl
  | some q => exact Or.inr ⟨q, List.mem_of_find?_eq_some hf, rfl⟩

theorem mem_sorted_snd {children : List Node} {q : Nat × Node}
    (h : q ∈ List.insertionSort taggedKeyLe children.enum) : q.2 ∈ children := by
  have h1 : q ∈ children.enum := (List.perm_insertionSort taggedKeyLe _).mem_iff.mp h
  have h2 : q.2 ∈ children.enum.map Prod.snd := List.mem_map_of_mem Prod.snd h1
  rwa [List.enum_map_snd] at h2

theorem mem_callSorted_snd {f : Node} {args kws : NodeList} {q : Nat × Node}
    (h : q ∈ callSorted f args kws) : q.2 ∈ callChildList f args kws :=
  mem_sorted_snd h

/-! ### Unfolding equations for markNodeF (all definitional) -/

theorem markNodeF_zero (n : Node) (tokens : List Token) (p : Pos) :
    markNodeF 0 n tokens p = ⟨n, p, false⟩ :=
  rfl

theorem markNodeF_module (fuel : Nat) (body : NodeList) (tokens : List Token) (p : Pos) :
    markNodeF (fuel + 1) (.module body) tokens p =
      ⟨.module (NodeList.ofList (markFold (markNodeF fuel) tokens body.toList p).1),
       (markFold (markNodeF fuel) tokens body.toList p).2.1,
       (markFold (markNodeF fuel) tokens body.toList p).2.2⟩ :=
  rfl

theorem markNodeF_exprS (fuel : Nat) (a : Attrs) (v : Node) (tokens : List Token) (p : Pos) :
    markNodeF (fuel + 1) (.exprS a v) tokens p =
      ⟨.exprS { a with endPos := some (markStart a (.exprS a v) tokens p).1 }
        (markNodeF fuel v (markStart a (.exprS a v) tokens p).2.1 p).node,
       a.start,
       (markStart a (.exprS a v) tokens p).2.2 &&
         (markNodeF fuel v (markStart a (.exprS a v) tokens p).2.1 p).ok⟩ :=
  rfl

theorem markNodeF_assignS (fuel : Nat) (a : Attrs) (ts : NodeList) (v : Node)
    (tokens : List Token) (p : Pos) :
    markNodeF (fuel + 1) (.assignS a ts v) tokens p =
      ⟨.assignS { a with endPos := some (markStart a (.assignS a ts v) tokens p).1 }
        (NodeList.ofList (markFold (markNodeF fuel)
          (markStart a (.assignS a ts v) tokens p).2.1 ts.toList
          (markNodeF fuel v (markStart a (.assignS a ts v) tokens p).2.1 p).pos).1)
        (markNodeF fuel v (markStart a (.assignS a ts v) tokens p).2.1 p).node,
       a.start,
       (markStart a (.assignS a ts v) tokens p).2.2 &&
         ((markNodeF fuel v (markStart a (.assignS a ts v) tokens p).2.1 p).ok &&
          (markFold (markNodeF fuel) (markStart a (.assignS a ts v) tokens p).2.1 ts.toList
            (markNodeF fuel v (markStart a (.assignS a ts v) tokens p).2.1 p).pos).2.2)⟩ :=
  rfl

theorem markNodeF_callE (fuel : Nat) (a : Attrs) (f : Node) (args kws : NodeList)
    (tokens : List Token) (p : Pos) :
    markNodeF (fuel + 1) (.callE a f args kws) tokens p =
      ⟨.callE { a with endPos := some (markStart a (.callE a f args kws) tokens p).1 }
        (lookupTag (markFoldTagged (markNodeF fuel)
          (markStart a (.callE a f args kws) tokens p).2.1 (callSorted f args kws) p).1 0)
        (NodeList.ofList ((List.range args.toList.length).map (fun i =>
          lookupTag (markFoldTagged (markNodeF fuel)
            (markStart a (.callE a f args kws) tokens p).2.1 (callSorted f args kws) p).1
            (1 + i))))
        (NodeList.ofList ((List.range kws.toList.length).map (fun i =>
          lookupTag (markFoldTagged (markNodeF fuel)
            (markStart a (.callE a f args kws) tokens p).2.1 (callSorted f args kws) p).1
            (1 + args.toList.length + i)))),
       a.start,
       (markStart a (.callE a f args kws) tokens p).2.2 &&
         (markFoldTagged (markNodeF fuel)
           (markStart a (.callE a f args kws) tokens p).2.1 (callSorted f args kws) p).2.2⟩ :=
  rfl

theorem markNodeF_binOpE (fuel : Nat) (a : Attrs) (l : Node) (op : String) (r : Node)
    (tokens : List Token) (p : Pos) :
    markNodeF (fuel + 1) (.binOpE a l op r) tokens p =
      ⟨.binOpE { a with endPos := some (markStart a (.binOpE a l op r) tokens p).1 }
        (markNodeF fuel l (markStart a (.binOpE a l op r) tokens p).2.1
          (markNodeF fuel r (markStart a (.binOpE a l op r) tokens p).2.1 p).pos).node
        op
        (markNodeF fuel r (markStart a (.binOpE a l op r) tokens p).2.1 p).node,
       a.start,
       (markStart a (.binOpE a l op r) tokens p).2.2 &&
         ((markNodeF fuel r (markStart a (.binOpE a l op r) tokens p).2.1 p).ok &&
          (markNodeF fuel l (markStart a (.binOpE a l op r) tokens p).2.1
            (markNodeF fuel r (markStart a (.binOpE a l op r) tokens p).2.1 p).pos).ok)⟩ :=
  rfl

theorem markNodeF_nameE (fuel : Nat) (a : Attrs) (s : String)
    (tokens : List Token) (p : Pos) :
    markNodeF (fuel + 1) (.nameE a s) tokens p =
      ⟨.nameE { a with endPos := some (markStart a (.nameE a s) tokens p).1 } s,
       a.start, (markStart a (.nameE a s) tokens p).2.2⟩ :=
  rfl

theorem markNodeF_numE (fuel : Nat) (a : Attrs) (v : Int)
    (tokens : List Token) (p : Pos) :
    markNodeF (fuel + 1) (.numE a v) tokens p =
      ⟨.numE { a with endPos := some (markStart a (.numE a v) tokens p).1 } v,
       a.start, (markStart a (.numE a v) tokens p).2.2⟩ :=
  rfl

theorem markNodeF_strE (fuel : Nat) (a : Attrs) (s : String)
    (tokens : List Token) (p : Pos) :
    markNodeF (fuel + 1) (.strE a s) tokens p =
      ⟨.strE { a with endPos := some (markStart a (.strE a s) tokens p).1 } s,
       a.start, (markStart a (.strE a s) tokens p).2.2⟩ :=
  rfl

theorem markNodeF_attrE (fuel : Nat) (a : Attrs) (v : Node) (s : String)
    (tokens : List Token) (p : Pos) :
    markNodeF (fuel + 1) (.attrE a v s) tokens p =
      ⟨.attrE { a with endPos := some (markStart a (.attrE a v s) tokens p).1 }
        (markNodeF fuel v (markStart a (.attrE a v s) tokens p).2.1 p).node s,
       a.start,
       (markStart a (.attrE a v s) tokens p).2.2 &&
         (markNodeF fuel v (markStart a (.attrE a v s) tokens p).2.1 p).ok⟩ :=
  rfl

theorem markNodeF_tupleE (fuel : Nat) (a : Attrs) (elts : NodeList)
    (tokens : List Token) (p : Pos) :
    markNodeF (fuel + 1) (.tupleE a elts) tokens p =
      ⟨.tupleE { a with endPos := some (markStart a (.tupleE a elts) tokens p).1 }
        (NodeList.ofList (markFold (markNodeF fuel)
          (markStart a (.tupleE a elts) tokens p).2.1 elts.toList p).1),
       a.start,
       (markStart a (.tupleE a elts) tokens p).2.2 &&
         (markFold (markNodeF fuel)
           (markStart a (.tupleE a elts) tokens p).2.1 elts.toList p).2.2⟩ :=
  rfl

theorem markNodeF_dictE (fuel : Nat) (a : Attrs) (pairs : NodePairList)
    (tokens : List Token) (p : Pos) :
    markNodeF (fuel + 1) (.dictE a pairs) tokens p =
      ⟨.dictE { a with endPos := some (markStart a (.dictE a pairs) tokens p).1 }
        (NodePairList.ofList (markFoldPairs (markNodeF fuel)
          (markStart a (.dictE a pairs) tokens p).2.1 pairs.toList p).1),
       a.start,
       (markStart a (.dictE a pairs) tokens p).2.2 &&
         (markFoldPairs (markNodeF fuel)
           (markStart a (.dictE a pairs) tokens p).2.1 pairs.toList p).2.2⟩ :=
  rfl

/-! ### C3 development -/

theorem endGeF : ∀ (fuel : Nat) (n : Node) (tokens : List Token) (p : Pos),
    nsize n ≤ fuel → tokStartLeEnd tokens = true →
    ∀ m ∈ allNodes (markNodeF fuel n tokens p).node, ∀ a, m.attrs? = some a →
      ∀ e, a.endPos = some e → posLe a.start e = true := by
  intro fuel
  induction fuel with
  | zero =>
    intro n tokens p hsz _
    have := nsize_pos n
    omega
  | succ fuel ih =>
    intro n tokens p hsz htok m hm a ha e he
    cases n with
    | module body =>
      rw [markNodeF_module] at hm
      rw [mem_allNodes_iff] at hm
      rcases hm with rfl | ⟨c, hc, hm⟩
      · simp [Node.attrs?] at ha
      · simp only [Node.childNodes, nlistToList_ofList] at hc
        obtain ⟨c0, hc0, hp, rfl, -⟩ := markFold_mem hc
        have hs : nsize c0 ≤ fuel := by
          have := nsize_le_of_mem_toList body c0 hc0
          simp only [nsize] at hsz
          omega
        exact ih c0 tokens hp hs htok m hm a ha e he
    | exprS a0 v =>
      rw [markNodeF_exprS] at hm
      rw [mem_allNodes_iff] at hm
      rcases hm with rfl | ⟨c, hc, hm⟩
      · simp only [Node.attrs?, Option.some.injEq] at ha
        subst ha
        simp only [Option.some.injEq] at he
        subst he
        exact markStart_end_ge_start a0 (.exprS a0 v) tokens p htok
      · simp only [Node.childNodes, List.mem_singleton] at hc
        subst hc
        have hs : nsize v ≤ fuel := by simp only [nsize] at hsz; omega
        have htok2 := tokStartLeEnd_of_sublist
          (markStart_snd_sublist a0 (.exprS a0 v) tokens p) htok
        exact ih v _ p hs htok2 m hm a ha e he
    | assignS a0 ts v =>
      rw [markNodeF_assignS] at hm
      rw [mem_allNodes_iff] at hm
      have htok2 := tokStartLeEnd_of_sublist
        (markStart_snd_sublist a0 (.assignS a0 ts v) tokens p) htok
      rcases hm with rfl | ⟨c, hc, hm⟩
      · simp only [Node.attrs?, Option.some.injEq] at ha
        subst ha
        simp only [Option.some.injEq] at he
        subst he
        exact markStart_end_ge_start a0 (.assignS a0 ts v) tokens p htok
      · simp only [Node.childNodes, nlistToList_ofList, List.mem_append,
          List.mem_singleton] at hc
        rcases hc with hc | rfl
        · obtain ⟨c0, hc0, hp, rfl, -⟩ := markFold_mem hc
          have hs : nsize c0 ≤ fuel := by
            have := nsize_le_of_mem_toList ts c0 hc0
            simp only [nsize] at hsz
            omega
          exact ih c0 _ hp hs htok2 m hm a ha e he
        · have hs : nsize v ≤ fuel := by simp only [nsize] at hsz; omega
          exact ih v _ p hs htok2 m hm a ha e he
    | callE a0 f args kws =>
      rw [markNodeF_callE] at hm
      rw [mem_allNodes_iff] at hm
      have htok2 := tokStartLeEnd_of_sublist
        (markStart_snd_sublist a0 (.callE a0 f args kws) tokens p) htok
      rcases hm with rfl | ⟨c, hc, hm⟩
      · simp only [Node.attrs?, Option.some.injEq] at ha
        subst ha
        simp only [Option.some.injEq] at he
        subst he
        exact markStart_end_ge_start a0 (.callE a0 f args kws) tokens p htok
      · simp only [Node.childNodes, nlistToList_ofList, List.mem_cons,
          List.mem_append, List.mem_map, List.mem_range] at hc
        have hcl : ∃ j, c = lookupTag (markFoldTagged (markNodeF fuel)
            (markStart a0 (.callE a0 f args kws) tokens p).2.1
            (callSorted f args kws) p).1 j := by
          rcases hc with rfl | ⟨i, _, rfl⟩ | ⟨i, _, rfl⟩
          · exact ⟨0, rfl⟩
          · exact ⟨1 + i, rfl⟩
          · exact ⟨1 + args.toList.length + i, rfl⟩
        obtain ⟨j, rfl⟩ := hcl
        rcases lookupTag_cases _ j with hdef | ⟨q, hq, heq⟩
        · rw [hdef] at hm
          rw [mem_allNodes_iff] at hm
          rcases hm with rfl | ⟨c2, hc2, -⟩
          · simp [Node.attrs?] at ha
          · simp [Node.childNodes, NodeList.toList] at hc2
        · rw [heq] at hm
          obtain ⟨c2, hc2, hp, hq2, -⟩ := markFoldTagged_mem hq
          rw [hq2] at hm
          have hmem : c2 ∈ callChildList f args kws := mem_callSorted_snd hc2
          have hs : nsize c2 ≤ fuel := by
            simp only [callChildList, List.mem_cons, List.mem_append] at hmem
            simp only [nsize] at hsz
            rcases hmem with rfl | hmem | hmem
            · omega
            · have := nsize_le_of_mem_toList args c2 hmem
              omega
            · have := nsize_le_of_mem_toList kws c2 hmem
              omega
          exact ih c2 _ hp hs htok2 m hm a ha e he
    | binOpE a0 l op r =>
      rw [markNodeF_binOpE] at hm
      rw [mem_allNodes_iff] at hm
      have htok2 := tokStartLeEnd_of_sublist
        (markStart_snd_sublist a0 (.binOpE a0 l op r) tokens p) htok
      rcases hm with rfl | ⟨c, hc, hm⟩
      · simp only [Node.attrs?, Option.some.injEq] at ha
        subst ha
        simp only [Option.some.injEq] at he
        subst he
        exact markStart_end_ge_start a0 (.binOpE a0 l op r) tokens p htok
      · simp only [Node.childNodes, List.mem_cons, List.not_mem_nil, or_false] at hc
        rcases hc with rfl | rfl
        · have hs : nsize l ≤ fuel := by simp only [nsize] at hsz; omega
          exact ih l _ _ hs htok2 m hm a ha e he
        · have hs : nsize r ≤ fuel := by simp only [nsize] at hsz; omega
          exact ih r _ p hs htok2 m hm a ha e he
    | nameE a0 s =>
      rw [markNodeF_nameE] at hm
      rw [mem_allNodes_iff] at hm
      rcases hm with rfl | ⟨c, hc, -⟩
      · simp only [Node.attrs?, Option.some.injEq] at ha
        subst ha
        simp only [Option.some.injEq] at he
        subst he
        exact markStart_end_ge_start a0 (.nameE a0 s) tokens p htok
      · simp [Node.childNodes] at hc
    | numE a0 v =>
      rw [markNodeF_numE] at hm
      rw [mem_allNodes_iff] at hm
      rcases hm with rfl | ⟨c, hc, -⟩
      · simp only [Node.attrs?, Option.some.injEq] at ha
        subst ha
        simp only [Option.some.injEq] at he
        subst he
        exact markStart_end_ge_start a0 (.numE a0 v) tokens p htok
      · simp [Node.childNodes] at hc
    | strE a0 s =>
      rw [markNodeF_strE] at hm
      rw [mem_allNodes_iff] at hm
      rcases hm with rfl | ⟨c, hc, -⟩
      · simp only [Node.attrs?, Option.some.injEq] at ha
        subst ha
        simp only [Option.some.injEq] at he
        subst he
        exact markStart_end_ge_start a0 (.strE a0 s) tokens p htok
      · simp [Node.childNodes] at hc
    | attrE a0 v s =>
      rw [markNodeF_attrE] at hm
      rw [mem_allNodes_iff] at hm
      have htok2 := tokStartLeEnd_of_sublist
        (markStart_snd_sublist a0 (.attrE a0 v s) tokens p) htok
      rcases hm with rfl | ⟨c, hc, hm⟩
      · simp only [Node.attrs?, Option.some.injEq] at ha
        subst ha
        simp only [Option.some.injEq] at he
        subst he
        exact markStart_end_ge_start a0 (.attrE a0 v s) tokens p htok
      · simp only [Node.childNodes, List.mem_singleton] at hc
        subst hc
        have hs : nsize v ≤ fuel := by simp only [nsize] at hsz; omega
        exact ih v _ p hs htok2 m hm a ha e he
    | tupleE a0 elts =>
      rw [markNodeF_tupleE] at hm
      rw [mem_allNodes_iff] at hm
      have htok2 := tokStartLeEnd_of_sublist
        (markStart_snd_sublist a0 (.tupleE a0 elts) tokens p) htok
      rcases hm with rfl | ⟨c, hc, hm⟩
      · simp only [Node.attrs?, Option.some.injEq] at ha
        subst ha
        simp only [Option.some.injEq] at he
        subst he
        exact markStart_end_ge_start a0 (.tupleE a0 elts) tokens p htok
      · simp only [Node.childNodes, nlistToList_ofList] at hc
        obtain ⟨c0, hc0, hp, rfl, -⟩ := markFold_mem hc
        have hs : nsize c0 ≤ fuel := by
          have := nsize_le_of_mem_toList elts c0 hc0
          simp only [nsize] at hsz
          omega
        exact ih c0 _ hp hs htok2 m hm a ha e he
    | dictE a0 pairs =>
      rw [markNodeF_dictE] at hm
      rw [mem_allNodes_iff] at hm
      have htok2 := tokStartLeEnd_of_sublist
        (markStart_snd_sublist a0 (.dictE a0 pairs) tokens p) htok
      rcases hm with rfl | ⟨c, hc, hm⟩
      · simp only [Node.attrs?, Option.some.injEq] at ha
        subst ha
        simp only [Option.some.injEq] at he
        subst he
        exact markStart_end_ge_start a0 (.dictE a0 pairs) tokens p htok
      · simp only [Node.childNodes, npairToList_ofList, List.mem_append,
          List.mem_map] at hc
        rcases hc with ⟨q, hq, rfl⟩ | ⟨q, hq, rfl⟩
        · obtain ⟨kv, hkv, hk, hv, h1, h2, -⟩ := markFoldPairs_mem hq
          rw [h1] at hm
          have hs : nsize kv.1 ≤ fuel := by
            have := nsize_le_of_mem_ptoList pairs kv.1 kv.2 (by simpa using hkv)
            simp only [nsize] at hsz
            omega
          exact ih kv.1 _ hk hs htok2 m hm a ha e he
        · obtain ⟨kv, hkv, hk, hv, h1, h2, -⟩ := markFoldPairs_mem hq
          rw [h2] at hm
          have hs : nsize kv.2 ≤ fuel := by
            have := nsize_le_of_mem_ptoList pairs kv.1 kv.2 (by simpa using hkv)
            simp only [nsize] at hsz
            omega
          exact ih kv.2 _ hv hs htok2 m hm a ha e he

/-- For every positioned node, the root of the marked subtree carries the
end position computed by markStart (the real end, or the degenerate
fallback). -/
theorem markNodeF_root_endPos (fuel : Nat) {n : Node} {a : Attrs} (ha : n.attrs? = some a)
    (tokens : List Token) (p : Pos) :
    (markNodeF (fuel + 1) n tokens p).node.endPos? = some (markStart a n tokens p).1 := by
  cases n with
  | module body => simp [Node.attrs?] at ha
  | exprS a0 v =>
    simp only [Node.attrs?, Option.some.injEq] at ha
    subst ha
    rw [markNodeF_exprS]
    simp [Node.endPos?, Node.attrs?]
  | assignS a0 ts v =>
    simp only [Node.attrs?, Option.some.injEq] at ha
    subst ha
    rw [markNodeF_assignS]
    simp [Node.endPos?, Node.attrs?]
  | callE a0 f args kws =>
    simp only [Node.attrs?, Option.some.injEq] at ha
    subst ha
    rw [markNodeF_callE]
    simp [Node.endPos?, Node.attrs?]
  | binOpE a0 l op r =>
    simp only [Node.attrs?, Option.some.injEq] at ha
    subst ha
    rw [markNodeF_binOpE]
    simp [Node.endPos?, Node.attrs?]
  | nameE a0 s =>
    simp only [Node.attrs?, Option.some.injEq] at ha
    subst ha
    rw [markNodeF_nameE]
    simp [Node.endPos?, Node.attrs?]
  | numE a0 v =>
    simp only [Node.attrs?, Option.some.injEq] at ha
    subst ha
    rw [markNodeF_numE]
    simp [Node.endPos?, Node.attrs?]
  | strE a0 s =>
    simp only [Node.attrs?, Option.some.injEq] at ha
    subst ha
    rw [markNodeF_strE]
    simp [Node.endPos?, Node.attrs?]
  | attrE a0 v s =>
    simp only [Node.attrs?, Option.some.injEq] at ha
    subst ha
    rw [markNodeF_attrE]
    simp [Node.endPos?, Node.attrs?]
  | tupleE a0 elts =>
    simp only [Node.attrs?, Option.some.injEq] at ha
    subst ha
    rw [markNodeF_tupleE]
    simp [Node.endPos?, Node.attrs?]
  | dictE a0 pairs =>
    simp only [Node.attrs?, Option.some.injEq] at ha
    subst ha
    rw [markNodeF_dictE]
    simp [Node.endPos?, Node.attrs?]

/-- Marking never changes a node's start position. -/
theorem markNodeF_node_startPos (fuel : Nat) (n : Node) (tokens : List Token) (p : Pos) :
    (markNodeF fuel n tokens p).node.startPos? = n.startPos? := by
  cases fuel with
  | zero => rfl
  | succ fuel => cases n <;> rfl

/-- Marking never changes which kind of node (positioned or not) sits at
the root. -/
theorem markNodeF_node_attrsIsSome (fuel : Nat) (n : Node) (tokens : List Token) (p : Pos) :
    (markNodeF fuel n tokens p).node.attrs?.isSome = n.attrs?.isSome := by
  cases fuel with
  | zero => rfl
  | succ fuel => cases n <;> rfl

/-- A positioned node returns its own start as the next horizon. -/
theorem markNodeF_pos_of_attrs (fuel : Nat) {n : Node} {a : Attrs} (ha : n.attrs? = some a)
    (tokens : List Token) (p : Pos) :
    (markNodeF (fuel + 1) n tokens p).pos = a.start := by
  cases n <;> simp only [Node.attrs?, Option.some.injEq] at ha <;> try subst ha
  case module => cases ha
  all_goals rfl

/-- Every positioned node of a marked tree carries an assigned end. -/
theorem allAssignedF : ∀ (fuel : Nat) (n : Node) (tokens : List Token) (p : Pos),
    nsize n ≤ fuel →
    ∀ m ∈ allNodes (markNodeF fuel n tokens p).node, m.attrs?.isSome = true →
      m.endPos?.isSome = true := by
  intro fuel
  induction fuel with
  | zero =>
    intro n tokens p hsz
    have := nsize_pos n
    omega
  | succ fuel ih =>
    intro n tokens p hsz m hm hpos
    cases n with
    | module body =>
      rw [markNodeF_module] at hm
      rw [mem_allNodes_iff] at hm
      rcases hm with rfl | ⟨c, hc, hm⟩
      · simp [Node.attrs?] at hpos
      · simp only [Node.childNodes, nlistToList_ofList] at hc
        obtain ⟨c0, hc0, hp, rfl, -⟩ := markFold_mem hc
        have hs : nsize c0 ≤ fuel := by
          have := nsize_le_of_mem_toList body c0 hc0
          simp only [nsize] at hsz
          omega
        exact ih c0 tokens hp hs m hm hpos
    | exprS a0 v =>
      rw [markNodeF_exprS] at hm
      rw [mem_allNodes_iff] at hm
      rcases hm with rfl | ⟨c, hc, hm⟩
      · simp [Node.endPos?, Node.attrs?]
      · simp only [Node.childNodes, List.mem_singleton] at hc
        subst hc
        have hs : nsize v ≤ fuel := by simp only [nsize] at hsz; omega
        exact ih v _ p hs m hm hpos
    | assignS a0 ts v =>
      rw [markNodeF_assignS] at hm
      rw [mem_allNodes_iff] at hm
      rcases hm with rfl | ⟨c, hc, hm⟩
      · simp [Node.endPos?, Node.attrs?]
      · simp only [Node.childNodes, nlistToList_ofList, List.mem_append,
          List.mem_singleton] at hc
        rcases hc with hc | rfl
        · obtain ⟨c0, hc0, hp, rfl, -⟩ := markFold_mem hc
          have hs : nsize c0 ≤ fuel := by
            have := nsize_le_of_mem_toList ts c0 hc0
            simp only [nsize] at hsz
            omega
          exact ih c0 _ hp hs m hm hpos
        · have hs : nsize v ≤ fuel := by simp only [nsize] at hsz; omega
          exact ih v _ p hs m hm hpos
    | callE a0 f args kws =>
      rw [markNodeF_callE] at hm
      rw [mem_allNodes_iff] at hm
      rcases hm with rfl | ⟨c, hc, hm⟩
      · simp [Node.endPos?, Node.attrs?]
      · simp only [Node.childNodes, nlistToList_ofList, List.mem_cons,
          List.mem_append, List.mem_map, List.mem_range] at hc
        have hcl : ∃ j, c = lookupTag (markFoldTagged (markNodeF fuel)
            (markStart a0 (.callE a0 f args kws) tokens p).2.1
            (callSorted f args kws) p).1 j := by
          rcases hc with rfl | ⟨i, _, rfl⟩ | ⟨i, _, rfl⟩
          · exact ⟨0, rfl⟩
          · exact ⟨1 + i, rfl⟩
          · exact ⟨1 + args.toList.length + i, rfl⟩
        obtain ⟨j, rfl⟩ := hcl
        rcases lookupTag_cases _ j with hdef | ⟨q, hq, heq⟩
        · rw [hdef] at hm
          rw [mem_allNodes_iff] at hm
          rcases hm with rfl | ⟨c2, hc2, -⟩
          · simp [Node.attrs?] at hpos
          · simp [Node.childNodes, NodeList.toList] at hc2
        · rw [heq] at hm
          obtain ⟨c2, hc2, hp, hq2, -⟩ := markFoldTagged_mem hq
          rw [hq2] at hm
          have hmem : c2 ∈ callChildList f args kws := mem_callSorted_snd hc2
          have hs : nsize c2 ≤ fuel := by
            simp only [callChildList, List.mem_cons, List.mem_append] at hmem
            simp only [nsize] at hsz
            rcases hmem with rfl | hmem | hmem
            · omega
            · have := nsize_le_of_mem_toList args c2 hmem
              omega
            · have := nsize_le_of_mem_toList kws c2 hmem
              omega
          exact ih c2 _ hp hs m hm hpos
    | binOpE a0 l op r =>
      rw [markNodeF_binOpE] at hm
      rw [mem_allNodes_iff] at hm
      rcases hm with rfl | ⟨c, hc, hm⟩
      · simp [Node.endPos?, Node.attrs?]
      · simp only [Node.childNodes, List.mem_cons, List.not_mem_nil, or_false] at hc
        rcases hc with rfl | rfl
        · have hs : nsize l ≤ fuel := by simp only [nsize] at hsz; omega
          exact ih l _ _ hs m hm hpos
        · have hs : nsize r ≤ fuel := by simp only [nsize] at hsz; omega
          exact ih r _ p hs m hm hpos
    | nameE a0 s =>
      rw [markNodeF_nameE] at hm
      rw [mem_allNodes_iff] at hm
      rcases hm with rfl | ⟨c, hc, -⟩
      · simp [Node.endPos?, Node.attrs?]
      · simp [Node.childNodes] at hc
    | numE a0 v =>
      rw [markNodeF_numE] at hm
      rw [mem_allNodes_iff] at hm
      rcases hm with rfl | ⟨c, hc, -⟩
      · simp [Node.endPos?, Node.attrs?]
      · simp [Node.childNodes] at hc
    | strE a0 s =>
      rw [markNodeF_strE] at hm
      rw [mem_allNodes_iff] at hm
      rcases hm with rfl | ⟨c, hc, -⟩
      · simp [Node.endPos?, Node.attrs?]
      · simp [Node.childNodes] at hc
    | attrE a0 v s =>
      rw [markNodeF_attrE] at hm
      rw [mem_allNodes_iff] at hm
      rcases hm with rfl | ⟨c, hc, hm⟩
      · simp [Node.endPos?, Node.attrs?]
      · simp only [Node.childNodes, List.mem_singleton] at hc
        subst hc
        have hs : nsize v ≤ fuel := by simp only [nsize] at hsz; omega
        exact ih v _ p hs m hm hpos
    | tupleE a0 elts =>
      rw [markNodeF_tupleE] at hm
      rw [mem_allNodes_iff] at hm
      rcases hm with rfl | ⟨c, hc, hm⟩
      · simp [Node.endPos?, Node.attrs?]
      · simp only [Node.childNodes, nlistToList_ofList] at hc
        obtain ⟨c0, hc0, hp, rfl, -⟩ := markFold_mem hc
        have hs : nsize c0 ≤ fuel := by
          have := nsize_le_of_mem_toList elts c0 hc0
          simp only [nsize] at hsz
          omega
        exact ih c0 _ hp hs m hm hpos
    | dictE a0 pairs =>
      rw [markNodeF_dictE] at hm
      rw [mem_allNodes_iff] at hm
      rcases hm with rfl | ⟨c, hc, hm⟩
      · simp [Node.endPos?, Node.attrs?]
      · simp only [Node.childNodes, npairToList_ofList, List.mem_append,
          List.mem_map] at hc
        rcases hc with ⟨q, hq, rfl⟩ | ⟨q, hq, rfl⟩
        · obtain ⟨kv, hkv, hk, hv, h1, h2, -⟩ := markFoldPairs_mem hq
          rw [h1] at hm
          have hs : nsize kv.1 ≤ fuel := by
            have := nsize_le_of_mem_ptoList pairs kv.1 kv.2 (by simpa using hkv)
            simp only [nsize] at hsz
            omega
          exact ih kv.1 _ hk hs m hm hpos
        · obtain ⟨kv, hkv, hk, hv, h1, h2, -⟩ := markFoldPairs_mem hq
          rw [h2] at hm
          have hs : nsize kv.2 ≤ fuel := by
            have := nsize_le_of_mem_ptoList pairs kv.1 kv.2 (by simpa using hkv)
            simp only [nsize] at hsz
            omega
          exact ih kv.2 _ hv hs m hm hpos

/-- C3: after the end-position reconstruction, every positioned node of the
tree ends at or after its start in the lexicographic (line, column) order,
whether its end came from the last token of its trimmed window or from the
degenerate fallback; the only assumption is the tokenizer guarantee that
each token starts no later than it ends. -/
theorem claim_C3_end_ge_start (n : Node) (tokens : List Token) (p : Pos)
    (htok : tokStartLeEnd tokens = true) :
    ∀ m ∈ allNodes (markNode n tokens p).node, ∀ a, m.attrs? = some a →
      ∀ e, a.endPos = some e → posLe a.start e = true :=
  endGeF (nsize n) n tokens p (Nat.le_refl _) htok

/-- Witness for C3 at the concrete x = 1 + 2 scenario. -/
theorem claim_C3_witness :
    tokStartLeEnd toks6 = true ∧
    (∀ m ∈ allNodes (markNode tree6 toks6 ⟨1, 10⟩).node, ∀ a, m.attrs? = some a →
      ∀ e, a.endPos = some e → posLe a.start e = true) :=
  ⟨by rfl, claim_C3_end_ge_start tree6 toks6 ⟨1, 10⟩ (by rfl)⟩

/-- C4: the end-position reconstruction is total.  Whenever _set_real_end
raises on a node's token window (an internal inconsistency such as an
empty window — modelled by the none result), that node receives the
degenerate range from (lineno, col_offset) to (lineno, col_offset + 1),
and the pass still assigns an end position to every positioned node of
the tree: it never aborts. -/
theorem claim_C4_fallback_total (n : Node) (a : Attrs) (tokens : List Token) (p : Pos)
    (ha : n.attrs? = some a)
    (hfail : (set_real_end n
      (extract_tokens tokens a.lineno a.col_offset p.line p.col)).1 = none) :
    (markNode n tokens p).node.endPos? = some ⟨a.lineno, a.col_offset + 1⟩ ∧
    ∀ m ∈ allNodes (markNode n tokens p).node, m.attrs?.isSome = true →
      m.endPos?.isSome = true := by
  constructor
  · have hpos := nsize_pos n
    obtain ⟨k, hk⟩ : ∃ k, nsize n = k + 1 := ⟨nsize n - 1, by omega⟩
    unfold markNode
    rw [hk, markNodeF_root_endPos k ha]
    have hfb : (markStart a n tokens p).2.2 = false := by
      simp only [markStart]
      rw [hfail]
      rfl
    rw [markStart_end_of_fallback hfb]
  · exact allAssignedF (nsize n) n tokens p (Nat.le_refl _)

/-- Witness for C4: a Name node whose token window is empty (no tokens at
all) falls back to the one-character range and the pass completes. -/
theorem claim_C4_witness :
    (Node.nameE ⟨1, 0, none⟩ ("x")).attrs? = some ⟨1, 0, none⟩ ∧
    (set_real_end (.nameE ⟨1, 0, none⟩ ("x"))
      (extract_tokens [] 1 0 1 5)).1 = none ∧
    (markNode (.nameE ⟨1, 0, none⟩ ("x")) [] ⟨1, 5⟩).node.endPos? = some ⟨1, 1⟩ ∧
    (∀ m ∈ allNodes (markNode (.nameE ⟨1, 0, none⟩ ("x")) [] ⟨1, 5⟩).node,
      m.attrs?.isSome = true → m.endPos?.isSome = true) := by
  refine ⟨by rfl, by rfl, ?_⟩
  exact claim_C4_fallback_total (.nameE ⟨1, 0, none⟩ ("x")) ⟨1, 0, none⟩ [] ⟨1, 5⟩
    (by rfl) (by rfl)

/-! ### C7 development -/

theorem set_last_append : ∀ (mid : List (List Char)) (y v : List Char),
    (mid ++ [y]).set mid.length v = mid ++ [v] := by
  intro mid y v
  induction mid with
  | nil => rfl
  | cons m t ih => simpa [List.set] using ih

/-- C7: extract_text_range refines the spec's extraction contract — it
slices the first covered line at the start column and the last covered
line at the end column and concatenates, also when the range sits on a
single line (where the two slicing steps hit the same line). -/
theorem claim_C7_extract_refines_spec (source : List Char) (tr : TextRange)
    (h1 : 1 ≤ tr.lineno) (h2 : tr.lineno ≤ tr.end_lineno)
    (h3 : tr.end_lineno ≤ (splitlinesKeep source).length) :
    extract_text_range source tr = extract_text_spec source tr := by
  obtain ⟨a, ca, b, cb⟩ := tr
  simp only at h1 h2 h3
  unfold extract_text_range extract_text_spec
  simp only
  rw [if_pos ⟨h1, h2, h3⟩]
  generalize hL : splitlinesKeep source = L at h3 ⊢
  have harith : b - (a - 1) = (b - a) + 1 := by omega
  rw [harith]
  have hlen : ((L.drop (a - 1)).take ((b - a) + 1)).length = (b - a) + 1 := by
    rw [List.length_take, List.length_drop]
    omega
  by_cases hab : a = b
  · subst hab
    rw [if_pos rfl]
    have hk0 : a - a = 0 := by omega
    rw [hk0] at hlen ⊢
    obtain ⟨x, hx⟩ := List.length_eq_one.mp hlen
    have hx0 : L.get? (a - 1) = some x := by
      have : ((L.drop (a - 1)).take (0 + 1)).get? 0 = some x := by rw [hx]; rfl
      rwa [List.get?_take (by omega), List.get?_drop, Nat.add_zero] at this
    rw [hx, hx0]
    simp [List.drop_take]
  · rw [if_neg hab]
    have hk1 : 1 ≤ b - a := by omega
    have hbpos : 1 ≤ b := le_trans h1 h2
    have ha1 : a - 1 < L.length := by omega
    have hb1 : b - 1 < L.length := lt_of_lt_of_le (Nat.sub_lt hbpos Nat.one_pos) h3
    have hdrop : L.drop (a - 1) = L[a - 1] :: L.drop a := by
      have hh := List.drop_eq_getElem_cons ha1
      rwa [show a - 1 + 1 = a from by omega] at hh
    have hmidlast : (L.drop a).take (b - a) =
        (L.drop a).take (b - a - 1) ++ [L[b - 1]] := by
      have : b - a = (b - a - 1) + 1 := by omega
      rw [this, List.take_succ, List.getElem?_drop]
      have hidx : a + (b - a - 1) = b - 1 := by omega
      rw [hidx, List.getElem?_eq_getElem hb1]
      rfl
    have hlines : (L.drop (a - 1)).take ((b - a) + 1) =
        L[a - 1] :: ((L.drop a).take (b - a - 1) ++ [L[b - 1]]) := by
      rw [hdrop, List.take_succ_cons, hmidlast]
    rw [hlines]
    have hmlen : ((L.drop a).take (b - a - 1)).length = b - a - 1 := by
      rw [List.length_take, List.length_drop]
      omega
    have hgl : (L[a - 1] :: ((L.drop a).take (b - a - 1) ++ [L[b - 1]])).getLast? =
        some L[b - 1] := by
      rw [show L[a - 1] :: ((L.drop a).take (b - a - 1) ++ [L[b - 1]]) =
        (L[a - 1] :: (L.drop a).take (b - a - 1)) ++ [L[b - 1]] from by simp,
        List.getLast?_concat]
    have hlenidx : (L[a - 1] :: ((L.drop a).take (b - a - 1) ++ [L[b - 1]])).length - 1 =
        ((L.drop a).take (b - a - 1)).length + 1 := by
      simp [hmlen]
    rw [hgl, hlenidx]
    simp only [Option.getD_some]
    rw [show ∀ (X : List Char) (t : List (List Char)) (i : Nat) (v : List Char),
        (X :: t).set (i + 1) v = X :: t.set i v from fun X t i v => rfl]
    rw [set_last_append]
    have hget1 : L.get? (a - 1) = some L[a - 1] := by
      rw [List.get?_eq_getElem?, List.getElem?_eq_getElem ha1]
    have hget2 : L.get? (b - 1) = some L[b - 1] := by
      rw [List.get?_eq_getElem?, List.getElem?_eq_getElem hb1]
    rw [hget1, hget2]
    have hmid : b - 1 - a = b - a - 1 := by omega
    rw [hmid]
    simp

/-- Witness for C7 at the string-literal scenario s = 'ab': the Str node's
reconstructed range is (1,4)-(1,8) (claim_C5/C6-style pipeline over toks7
assigns it), and extracting that range returns the literal including its
quotes. -/
theorem claim_C7_witness :
    extract_text_range (("s = 'ab'\n").toList) ⟨1, 4, 1, 8⟩ =
      extract_text_spec (("s = 'ab'\n").toList) ⟨1, 4, 1, 8⟩ ∧
    extract_text_range (("s = 'ab'\n").toList) ⟨1, 4, 1, 8⟩ = some (("'ab'").toList) :=
  ⟨claim_C7_extract_refines_spec (("s = 'ab'\n").toList) ⟨1, 4, 1, 8⟩
    (by decide) (by decide) (by decide), by rfl⟩

/-! ### Infrastructure for the sibling invariant -/

theorem keyOf_of_attrs {n : Node} {a : Attrs} (ha : n.attrs? = some a) :
    keyOf n = a.start := by
  unfold keyOf Node.startPos?
  rw [ha]
  rfl

theorem posLt_succ_le {x b : Pos} (h : posLt x b = true) :
    posLe ⟨x.line, x.col + 1⟩ b = true := by
  simp only [posLt_iff] at h
  simp only [posLe_iff]
  omega

theorem posLe_total (a b : Pos) : posLe a b = true ∨ posLe b a = true := by
  simp only [posLe_iff]
  omega

instance : IsTrans Node keyLe :=
  ⟨fun _ _ _ h1 h2 => posLe_trans h1 h2⟩

instance : IsTotal Node keyLe :=
  ⟨fun a b => posLe_total (keyOf a) (keyOf b)⟩

theorem all_congrB {α : Type} {l : List α} {f g : α → Bool}
    (h : ∀ x ∈ l, f x = g x) : l.all f = l.all g := by
  induction l with
  | nil => rfl
  | cons a t ih =>
    have ha := h a (List.mem_cons_self a t)
    have ht := ih fun x hx => h x (List.mem_cons_of_mem a hx)
    simp only [List.all_cons, ha, ht]

theorem strictsB_chain : ∀ l : List Node, strictsB l = true ↔
    List.Chain' (fun x y => posLt (keyOf x) (keyOf y) = true) l := by
  intro l
  match l with
  | [] => simp [strictsB]
  | [x] => simp [strictsB]
  | a :: b :: t =>
    rw [List.chain'_cons, ← strictsB_chain (b :: t)]
    simp [strictsB]

theorem wfF_congr : ∀ (fuel₁ : Nat), ∀ {fuel₂ : Nat} {n : Node},
    nsize n ≤ fuel₁ → nsize n ≤ fuel₂ → wfF fuel₁ n = wfF fuel₂ n := by
  intro fuel₁
  induction fuel₁ with
  | zero =>
    intro fuel₂ n h1 _
    have := nsize_pos n
    omega
  | succ fuel ih =>
    intro fuel₂ n h1 h2
    have hpos := nsize_pos n
    obtain ⟨k, rfl⟩ : ∃ k, fuel₂ = k + 1 := ⟨fuel₂ - 1, by omega⟩
    simp only [wfF]
    congr 1
    congr 1
    apply all_congrB
    intro c hc
    have hlt := nsize_child_lt hc
    exact ih (by omega) (by omega)

theorem wfTree_eq (n : Node) :
    wfTree n = ((n.childNodes).all (fun c => c.attrs?.isSome) &&
      (strictsB n.orderedChildren && (n.childNodes).all wfTree)) := by
  unfold wfTree
  have hpos := nsize_pos n
  obtain ⟨k, hk⟩ : ∃ k, nsize n = k + 1 := ⟨nsize n - 1, by omega⟩
  rw [hk]
  simp only [wfF]
  congr 1
  congr 1
  apply all_congrB
  intro c hc
  have hlt := nsize_child_lt hc
  exact wfF_congr k (by omega) (by omega)

theorem wfTree_child {n c : Node} (h : wfTree n = true) (hc : c ∈ n.childNodes) :
    wfTree c = true := by
  rw [wfTree_eq] at h
  simp only [Bool.and_eq_true, List.all_eq_true] at h
  exact h.2.2 c hc

theorem wfTree_positioned {n c : Node} (h : wfTree n = true) (hc : c ∈ n.childNodes) :
    c.attrs?.isSome = true := by
  rw [wfTree_eq] at h
  simp only [Bool.and_eq_true, List.all_eq_true] at h
  exact h.1 c hc

theorem wfTree_stricts {n : Node} (h : wfTree n = true) :
    strictsB n.orderedChildren = true := by
  rw [wfTree_eq] at h
  simp only [Bool.and_eq_true] at h
  exact h.2.1

/-- A positioned node's marked root satisfies: its assigned end is either
bounded by the incoming horizon or the degenerate fallback. -/
theorem markNodeF_root_end_cases (fuel : Nat) {n : Node} {a : Attrs}
    (ha : n.attrs? = some a) (tokens : List Token) (p : Pos) {e : Pos}
    (he : (markNodeF (fuel + 1) n tokens p).node.endPos? = some e) :
    posLe e p = true ∨ e = ⟨a.lineno, a.col_offset + 1⟩ := by
  rw [markNodeF_root_endPos fuel ha] at he
  rw [Option.some.injEq] at he
  subst he
  cases hok : (markStart a n tokens p).2.2 with
  | true => exact Or.inl (markStart_end_le_horizon hok)
  | false => exact Or.inr (markStart_end_of_fallback hok)

theorem markFold_map_startPos (mark : Node → List Token → Pos → MarkResult)
    (tokens : List Token) :
    ∀ (cs : List Node) (p : Pos),
    (∀ c ∈ cs, ∀ toks h, (mark c toks h).node.startPos? = c.startPos?) →
    (markFold mark tokens cs p).1.map Node.startPos? = cs.map Node.startPos? := by
  intro cs
  induction cs with
  | nil => intro p _; rfl
  | cons c rest ih =>
    intro p hs
    rw [markFold_cons]
    simp only [List.map_cons]
    rw [hs c (by simp) tokens _, ih p (fun x hx => hs x (by simp [hx]))]

theorem markFold_chain (mark : Node → List Token → Pos → MarkResult)
    (tokens : List Token) :
    ∀ (cs : List Node) (p : Pos),
    (∀ c ∈ cs, c.attrs?.isSome = true) →
    List.Chain' (fun x y => posLt (keyOf x) (keyOf y) = true) cs →
    (∀ c ∈ cs, ∀ toks h, (mark c toks h).node.startPos? = c.startPos?) →
    (∀ c ∈ cs, ∀ toks h a, c.attrs? = some a → (mark c toks h).pos = a.start) →
    (∀ c ∈ cs, ∀ toks h a, c.attrs? = some a → ∀ e,
      (mark c toks h).node.endPos? = some e →
      posLe e h = true ∨ e = ⟨a.lineno, a.col_offset + 1⟩) →
    List.Chain' sibRel (markFold mark tokens cs p).1 := by
  intro cs
  induction cs with
  | nil => intro p _ _ _ _ _; simp [markFold_nil]
  | cons c1 rest ih =>
    intro p hall hstrict hstart hpos hend
    have hstrictTail := (List.chain'_cons'.mp hstrict).2
    rw [markFold_cons, List.chain'_cons']
    refine ⟨?_, ih p (fun x hx => hall x (by simp [hx])) hstrictTail
      (fun x hx => hstart x (by simp [hx])) (fun x hx => hpos x (by simp [hx]))
      (fun x hx => hend x (by simp [hx]))⟩
    intro b hb
    cases rest with
    | nil => simp [markFold_nil] at hb
    | cons c2 rest2 =>
      rw [markFold_cons] at hb
      simp only [List.head?_cons, Option.mem_def, Option.some.injEq] at hb
      subst hb
      intro e he s hs
      obtain ⟨a1, ha1⟩ := Option.isSome_iff_exists.mp (hall c1 (by simp))
      obtain ⟨a2, ha2⟩ := Option.isSome_iff_exists.mp (hall c2 (by simp))
      rw [hstart c2 (by simp) tokens ((markFold mark tokens rest2 p).2.1)] at hs
      unfold Node.startPos? at hs
      rw [ha2] at hs
      simp only [Option.map_some', Option.some.injEq] at hs
      subst hs
      have hh : (markFold mark tokens (c2 :: rest2) p).2.1 = a2.start := by
        rw [markFold_cons]
        exact hpos c2 (by simp) tokens ((markFold mark tokens rest2 p).2.1) a2 ha2
      rw [hh] at he
      rcases hend c1 (by simp) tokens a2.start a1 ha1 e he with hle | hfb
      · exact hle
      · have hlt : posLt (keyOf c1) (keyOf c2) = true := (List.chain'_cons.mp hstrict).1
        rw [keyOf_of_attrs ha1, keyOf_of_attrs ha2] at hlt
        subst hfb
        exact posLt_succ_le hlt

theorem markFold_append (mark : Node → List Token → Pos → MarkResult)
    (tokens : List Token) :
    ∀ (l1 l2 : List Node) (p : Pos),
    (markFold mark tokens (l1 ++ l2) p).1 =
      (markFold mark tokens l1 (markFold mark tokens l2 p).2.1).1 ++
        (markFold mark tokens l2 p).1 ∧
    (markFold mark tokens (l1 ++ l2) p).2.1 =
      (markFold mark tokens l1 (markFold mark tokens l2 p).2.1).2.1 ∧
    (markFold mark tokens (l1 ++ l2) p).2.2 =
      ((markFold mark tokens l1 (markFold mark tokens l2 p).2.1).2.2 &&
        (markFold mark tokens l2 p).2.2) := by
  intro l1
  induction l1 with
  | nil =>
    intro l2 p
    simp [markFold_nil]
  | cons c t ih =>
    intro l2 p
    obtain ⟨h1, h2, h3⟩ := ih l2 p
    rw [List.cons_append, markFold_cons, markFold_cons, h1, h2, h3]
    refine ⟨rfl, rfl, ?_⟩
    rw [Bool.and_assoc]

theorem markFoldTagged_eq (mark : Node → List Token → Pos → MarkResult)
    (tokens : List Token) :
    ∀ (tcs : List (Nat × Node)) (p : Pos),
    (markFoldTagged mark tokens tcs p).1.map Prod.fst = tcs.map Prod.fst ∧
    (markFoldTagged mark tokens tcs p).1.map Prod.snd =
      (markFold mark tokens (tcs.map Prod.snd) p).1 ∧
    (markFoldTagged mark tokens tcs p).2.1 =
      (markFold mark tokens (tcs.map Prod.snd) p).2.1 ∧
    (markFoldTagged mark tokens tcs p).2.2 =
      (markFold mark tokens (tcs.map Prod.snd) p).2.2 := by
  intro tcs
  induction tcs with
  | nil => intro p; simp [markFoldTagged_nil, markFold_nil]
  | cons c t ih =>
    intro p
    obtain ⟨h1, h2, h3, h4⟩ := ih p
    rw [markFoldTagged_cons]
    simp only [List.map_cons]
    rw [markFold_cons]
    refine ⟨?_, ?_, ?_, ?_⟩
    · simp [h1]
    · simp [h2, h3]
    · simp [h3]
    · simp [h3, h4]

theorem markFoldPairs_eq (mark : Node → List Token → Pos → MarkResult)
    (tokens : List Token) :
    ∀ (ps : List (Node × Node)) (p : Pos),
    ((markFoldPairs mark tokens ps p).1.map (fun q => [q.1, q.2])).flatten =
      (markFold mark tokens ((ps.map (fun q => [q.1, q.2])).flatten) p).1 ∧
    (markFoldPairs mark tokens ps p).2.1 =
      (markFold mark tokens ((ps.map (fun q => [q.1, q.2])).flatten) p).2.1 ∧
    (markFoldPairs mark tokens ps p).2.2 =
      (markFold mark tokens ((ps.map (fun q => [q.1, q.2])).flatten) p).2.2 := by
  intro ps
  induction ps with
  | nil => intro p; simp [markFoldPairs_nil, markFold_nil]
  | cons kv t ih =>
    intro p
    obtain ⟨h1, h2, h3⟩ := ih p
    rw [markFoldPairs_cons]
    simp only [List.map_cons, List.flatten_cons, List.cons_append, List.nil_append]
    rw [markFold_cons, markFold_cons]
    refine ⟨?_, ?_, ?_⟩
    · simp [h1, h2, h3]
    · simp [h2, h3]
    · simp [h2, h3]

theorem orderedInsert_map_snd (x : Nat × Node) : ∀ l : List (Nat × Node),
    (List.orderedInsert taggedKeyLe x l).map Prod.snd =
      List.orderedInsert keyLe x.2 (l.map Prod.snd) := by
  intro l
  induction l with
  | nil => rfl
  | cons y t ih =>
    simp only [List.orderedInsert, List.map_cons]
    by_cases h : taggedKeyLe x y
    · rw [if_pos h, if_pos (show keyLe x.2 y.2 from h)]
      rfl
    · rw [if_neg h, if_neg (show ¬keyLe x.2 y.2 from h)]
      simp only [List.map_cons]
      rw [ih]

theorem insertionSort_map_snd : ∀ l : List (Nat × Node),
    (List.insertionSort taggedKeyLe l).map Prod.snd =
      List.insertionSort keyLe (l.map Prod.snd) := by
  intro l
  induction l with
  | nil => rfl
  | cons x t ih =>
    simp only [List.insertionSort, List.map_cons]
    rw [orderedInsert_map_snd, ih]

theorem callSorted_map_snd (f : Node) (args kws : NodeList) :
    (callSorted f args kws).map Prod.snd =
      List.insertionSort keyLe (callChildList f args kws) := by
  unfold callSorted
  rw [insertionSort_map_snd, List.enum_map_snd]

theorem find?_of_nodup {rm : List (Nat × Node)} {i : Nat} {x : Node}
    (hnd : (rm.map Prod.fst).Nodup) (hmem : (i, x) ∈ rm) :
    rm.find? (fun q => q.1 == i) = some (i, x) := by
  induction rm with
  | nil => simp at hmem
  | cons q t ih =>
    rcases List.mem_cons.mp hmem with rfl | hmem2
    · simp [List.find?]
    · have hq : ¬(q.1 == i) = true := by
        intro hqi
        rw [beq_iff_eq] at hqi
        have : i ∈ t.map Prod.fst := by
          exact List.mem_map_of_mem Prod.fst hmem2
        simp only [List.map_cons, List.nodup_cons] at hnd
        exact hnd.1 (hqi ▸ this)
      rw [List.find?]
      simp only [hq]
      exact ih (by simp only [List.map_cons, List.nodup_cons] at hnd; exact hnd.2) hmem2

theorem lookupTag_of_nodup {rm : List (Nat × Node)} {i : Nat} {x : Node}
    (hnd : (rm.map Prod.fst).Nodup) (hmem : (i, x) ∈ rm) :
    lookupTag rm i = x := by
  unfold lookupTag
  rw [find?_of_nodup hnd hmem]
  rfl

theorem posLt_le_asymm {a b : Pos} (h1 : posLt a b = true) (h2 : posLe b a = true) :
    False := by
  simp only [posLt_iff] at h1
  simp only [posLe_iff] at h2
  omega

instance : IsTrans Node (fun x y => posLt (keyOf x) (keyOf y) = true) :=
  ⟨fun _ _ _ h1 h2 => posLt_le_trans h1 (posLt_le h2)⟩

theorem sorted_perm_strict_unique :
    ∀ (l2 l1 : List Node), l1.Perm l2 → List.Pairwise keyLe l1 →
      List.Chain' (fun x y => posLt (keyOf x) (keyOf y) = true) l2 → l1 = l2 := by
  intro l2
  induction l2 with
  | nil =>
    intro l1 hp _ _
    exact hp.eq_nil
  | cons x t ih =>
    intro l1 hp hpw hch
    cases l1 with
    | nil => exact absurd hp.symm (by simp)
    | cons y s =>
      have hyx : y = x := by
        by_contra hne
        have hy2 : y ∈ x :: t := hp.mem_iff.mp (by simp)
        have hyt : y ∈ t := by
          rcases List.mem_cons.mp hy2 with rfl | h
          · exact absurd rfl hne
          · exact h
        have hx1 : x ∈ y :: s := hp.mem_iff.mpr (by simp)
        have hxs : x ∈ s := by
          rcases List.mem_cons.mp hx1 with rfl | h
          · exact absurd rfl (fun hh => hne hh.symm)
          · exact h
        have hxy_lt : posLt (keyOf x) (keyOf y) = true := by
          have := List.chain'_iff_pairwise.mp hch
          exact (List.pairwise_cons.mp this).1 y hyt
        have hyx_le : keyLe y x := (List.pairwise_cons.mp hpw).1 x hxs
        exact posLt_le_asymm hxy_lt hyx_le
      subst hyx
      have hst : s.Perm t := hp.cons_inv
      have := ih s hst (List.pairwise_cons.mp hpw).2 (List.Chain'.tail hch)
      rw [this]

/-! ### C1 development: the sibling non-overlap invariant -/

theorem markFold_chain_of_wf {fuel : Nat} {cs : List Node}
    (hsz : ∀ c ∈ cs, nsize c ≤ fuel)
    (hall : ∀ c ∈ cs, c.attrs?.isSome = true)
    (hstrict : List.Chain' (fun x y => posLt (keyOf x) (keyOf y) = true) cs)
    (tokens : List Token) (p : Pos) :
    List.Chain' sibRel (markFold (markNodeF fuel) tokens cs p).1 := by
  apply markFold_chain (markNodeF fuel) tokens cs p hall hstrict
  · intro c _ toks h
    exact markNodeF_node_startPos fuel c toks h
  · intro c hcm toks h a ha
    have h1 : 1 ≤ fuel := le_trans (nsize_pos c) (hsz c hcm)
    obtain ⟨k, rfl⟩ : ∃ k, fuel = k + 1 := ⟨fuel - 1, by omega⟩
    exact markNodeF_pos_of_attrs k ha toks h
  · intro c hcm toks h a ha e he
    have h1 : 1 ≤ fuel := le_trans (nsize_pos c) (hsz c hcm)
    obtain ⟨k, rfl⟩ : ∃ k, fuel = k + 1 := ⟨fuel - 1, by omega⟩
    exact markNodeF_root_end_cases k ha toks h he

theorem chain'_keys_of_startPos_eq {l1 l2 : List Node}
    (h : l1.map Node.startPos? = l2.map Node.startPos?)
    (hc : List.Chain' (fun x y => posLt (keyOf x) (keyOf y) = true) l2) :
    List.Chain' (fun x y => posLt (keyOf x) (keyOf y) = true) l1 := by
  have h2 : l1.map keyOf = l2.map keyOf := by
    have h3 := congrArg (List.map (fun o : Option Pos => o.getD ⟨0, 0⟩)) h
    simpa [List.map_map, Function.comp_def, keyOf] using h3
  have hc2 : List.Chain' (fun u v : Pos => posLt u v = true) (l2.map keyOf) :=
    (List.chain'_map keyOf).mpr hc
  rw [← h2] at hc2
  exact (List.chain'_map keyOf).mp hc2

theorem range_map_split (g : Nat → Node) (x y : Nat) :
    (List.range (x + y + 1)).map g =
      g 0 :: ((List.range x).map (fun i => g (1 + i)) ++
        (List.range y).map (fun i => g (1 + x + i))) := by
  have h1 : x + y + 1 = 1 + x + y := by omega
  have hr1 : List.range 1 = [0] := rfl
  rw [h1, List.range_add, List.range_add, hr1]
  simp [Function.comp_def]

theorem insertionSort_lookup_split (rm : List (Nat × Node)) (x y : Nat) :
    List.insertionSort keyLe
      (lookupTag rm 0 ::
        ((NodeList.ofList ((List.range x).map (fun i => lookupTag rm (1 + i)))).toList ++
         (NodeList.ofList ((List.range y).map
           (fun i => lookupTag rm (1 + x + i)))).toList)) =
    List.insertionSort keyLe ((List.range (x + y + 1)).map (lookupTag rm)) := by
  rw [nlistToList_ofList, nlistToList_ofList, range_map_split]

/-- Rebuilding the Call children by tag lookup and re-sorting yields exactly
the sorted marked children list, so the sibling chain carries over. -/
theorem rebuild_sorted_chain (rm1 : List (Nat × Node)) (N : Nat)
    (htags : (rm1.map Prod.fst).Perm (List.range N))
    (hchainS : List.Chain' (fun x y => posLt (keyOf x) (keyOf y) = true)
      (rm1.map Prod.snd))
    (hsib : List.Chain' sibRel (rm1.map Prod.snd)) :
    List.Chain' sibRel (List.insertionSort keyLe ((List.range N).map (lookupTag rm1))) := by
  have hnd : (rm1.map Prod.fst).Nodup := htags.nodup_iff.mpr (List.nodup_range N)
  have h2 : (rm1.map Prod.fst).map (lookupTag rm1) = rm1.map Prod.snd := by
    rw [List.map_map]
    apply List.map_congr_left
    intro q hq
    show lookupTag rm1 q.1 = q.2
    exact lookupTag_of_nodup hnd (by rwa [Prod.mk.eta])
  have hperm : ((List.range N).map (lookupTag rm1)).Perm (rm1.map Prod.snd) := by
    have h1 := (htags.symm).map (lookupTag rm1)
    rwa [h2] at h1
  have hfinal := sorted_perm_strict_unique (rm1.map Prod.snd)
    (List.insertionSort keyLe ((List.range N).map (lookupTag rm1)))
    ((List.perm_insertionSort keyLe _).trans hperm)
    (List.sorted_insertionSort keyLe _)
    hchainS
  rw [hfinal]
  exact hsib

theorem ordered_child_size_le {n : Node} {fuel : Nat} (hsz : nsize n ≤ fuel + 1) :
    ∀ c ∈ n.orderedChildren, nsize c ≤ fuel := by
  intro c hcm
  have := nsize_ordered_lt hcm
  omega

theorem ordered_child_positioned {n : Node} (hwf : wfTree n = true) :
    ∀ c ∈ n.orderedChildren, c.attrs?.isSome = true := by
  intro c hcm
  exact wfTree_positioned hwf ((orderedChildren_perm n).mem_iff.mp hcm)

theorem ordered_child_chain {n : Node} (hwf : wfTree n = true) :
    List.Chain' (fun x y => posLt (keyOf x) (keyOf y) = true) n.orderedChildren :=
  (strictsB_chain _).mp (wfTree_stricts hwf)

/-- The sibling chain of the root's own (re-ordered) children right after
the root has been marked, for every node kind. -/
theorem root_chain (fuel : Nat) (n : Node) (tokens : List Token) (p : Pos)
    (hsz : nsize n ≤ fuel + 1) (hwf : wfTree n = true) :
    List.Chain' sibRel ((markNodeF (fuel + 1) n tokens p).node.orderedChildren) := by
  cases n with
  | module body =>
    have h0 : (markNodeF (fuel + 1) (.module body) tokens p).node.orderedChildren =
        (NodeList.ofList (markFold (markNodeF fuel) tokens body.toList p).1).toList := rfl
    rw [h0, nlistToList_ofList]
    exact markFold_chain_of_wf (ordered_child_size_le hsz)
      (ordered_child_positioned hwf) (ordered_child_chain hwf) tokens p
  | exprS a0 v =>
    show List.Chain' sibRel
      [(markNodeF fuel v (markStart a0 (.exprS a0 v) tokens p).2.1 p).node]
    exact List.chain'_singleton _
  | assignS a0 ts v =>
    have h0 : (markNodeF (fuel + 1) (.assignS a0 ts v) tokens p).node.orderedChildren =
        (NodeList.ofList (markFold (markNodeF fuel)
          (markStart a0 (.assignS a0 ts v) tokens p).2.1 ts.toList
          (markNodeF fuel v (markStart a0 (.assignS a0 ts v) tokens p).2.1 p).pos).1).toList
        ++ [(markNodeF fuel v (markStart a0 (.assignS a0 ts v) tokens p).2.1 p).node] := rfl
    rw [h0, nlistToList_ofList]
    have h1 : (markFold (markNodeF fuel)
        (markStart a0 (.assignS a0 ts v) tokens p).2.1 (ts.toList ++ [v]) p).1 =
        (markFold (markNodeF fuel)
          (markStart a0 (.assignS a0 ts v) tokens p).2.1 ts.toList
          (markNodeF fuel v (markStart a0 (.assignS a0 ts v) tokens p).2.1 p).pos).1
        ++ [(markNodeF fuel v (markStart a0 (.assignS a0 ts v) tokens p).2.1 p).node] :=
      (markFold_append (markNodeF fuel)
        (markStart a0 (.assignS a0 ts v) tokens p).2.1 ts.toList [v] p).1
    rw [← h1]
    exact markFold_chain_of_wf (ordered_child_size_le hsz)
      (ordered_child_positioned hwf) (ordered_child_chain hwf) _ p
  | callE a0 f args kws =>
    have h0 : (markNodeF (fuel + 1) (.callE a0 f args kws) tokens p).node.orderedChildren =
        List.insertionSort keyLe
          (lookupTag (markFoldTagged (markNodeF fuel)
              (markStart a0 (.callE a0 f args kws) tokens p).2.1
              (callSorted f args kws) p).1 0 ::
            ((NodeList.ofList ((List.range args.toList.length).map
                (fun i => lookupTag (markFoldTagged (markNodeF fuel)
                  (markStart a0 (.callE a0 f args kws) tokens p).2.1
                  (callSorted f args kws) p).1 (1 + i)))).toList ++
             (NodeList.ofList ((List.range kws.toList.length).map
                (fun i => lookupTag (markFoldTagged (markNodeF fuel)
                  (markStart a0 (.callE a0 f args kws) tokens p).2.1
                  (callSorted f args kws) p).1
                  (1 + args.toList.length + i)))).toList)) := rfl
    rw [h0, insertionSort_lookup_split]
    have hfst := (markFoldTagged_eq (markNodeF fuel)
      (markStart a0 (.callE a0 f args kws) tokens p).2.1 (callSorted f args kws) p).1
    have hsnd := (markFoldTagged_eq (markNodeF fuel)
      (markStart a0 (.callE a0 f args kws) tokens p).2.1 (callSorted f args kws) p).2.1
    rw [callSorted_map_snd] at hsnd
    have htags : (((markFoldTagged (markNodeF fuel)
        (markStart a0 (.callE a0 f args kws) tokens p).2.1
        (callSorted f args kws) p).1.map Prod.fst)).Perm
        (List.range (args.toList.length + kws.toList.length + 1)) := by
      rw [hfst]
      have hp : (callSorted f args kws).Perm (callChildList f args kws).enum :=
        List.perm_insertionSort taggedKeyLe _
      have hp2 := hp.map Prod.fst
      rw [List.enum_map_fst] at hp2
      have hlen : (callChildList f args kws).length =
          args.toList.length + kws.toList.length + 1 := by
        simp [callChildList]
      rwa [hlen] at hp2
    have hszc : ∀ c ∈ List.insertionSort keyLe (callChildList f args kws),
        nsize c ≤ fuel := by
      intro c hcm
      have h1 : c ∈ (Node.callE a0 f args kws).orderedChildren := hcm
      have := nsize_ordered_lt h1
      omega
    have hallc : ∀ c ∈ List.insertionSort keyLe (callChildList f args kws),
        c.attrs?.isSome = true := by
      intro c hcm
      exact ordered_child_positioned hwf c hcm
    have hstrictc := ordered_child_chain hwf
    have hchainS : List.Chain' (fun x y => posLt (keyOf x) (keyOf y) = true)
        ((markFoldTagged (markNodeF fuel)
          (markStart a0 (.callE a0 f args kws) tokens p).2.1
          (callSorted f args kws) p).1.map Prod.snd) := by
      rw [hsnd]
      exact chain'_keys_of_startPos_eq
        (markFold_map_startPos (markNodeF fuel)
          (markStart a0 (.callE a0 f args kws) tokens p).2.1
          (List.insertionSort keyLe (callChildList f args kws)) p
          (fun c _ toks h => markNodeF_node_startPos fuel c toks h)) hstrictc
    have hsibS : List.Chain' sibRel
        ((markFoldTagged (markNodeF fuel)
          (markStart a0 (.callE a0 f args kws) tokens p).2.1
          (callSorted f args kws) p).1.map Prod.snd) := by
      rw [hsnd]
      exact markFold_chain_of_wf hszc hallc hstrictc
        (markStart a0 (.callE a0 f args kws) tokens p).2.1 p
    exact rebuild_sorted_chain _ _ htags hchainS hsibS
  | binOpE a0 l op r =>
    show List.Chain' sibRel (markFold (markNodeF fuel)
      (markStart a0 (.binOpE a0 l op r) tokens p).2.1 [l, r] p).1
    exact markFold_chain_of_wf (ordered_child_size_le hsz)
      (ordered_child_positioned hwf) (ordered_child_chain hwf) _ p
  | nameE a0 s =>
    show List.Chain' sibRel ([] : List Node)
    exact List.chain'_nil
  | numE a0 v =>
    show List.Chain' sibRel ([] : List Node)
    exact List.chain'_nil
  | strE a0 s =>
    show List.Chain' sibRel ([] : List Node)
    exact List.chain'_nil
  | attrE a0 v s =>
    show List.Chain' sibRel
      [(markNodeF fuel v (markStart a0 (.attrE a0 v s) tokens p).2.1 p).node]
    exact List.chain'_singleton _
  | tupleE a0 elts =>
    have h0 : (markNodeF (fuel + 1) (.tupleE a0 elts) tokens p).node.orderedChildren =
        (NodeList.ofList (markFold (markNodeF fuel)
          (markStart a0 (.tupleE a0 elts) tokens p).2.1 elts.toList p).1).toList := rfl
    rw [h0, nlistToList_ofList]
    exact markFold_chain_of_wf (ordered_child_size_le hsz)
      (ordered_child_positioned hwf) (ordered_child_chain hwf) _ p
  | dictE a0 pairs =>
    have h0 : (markNodeF (fuel + 1) (.dictE a0 pairs) tokens p).node.orderedChildren =
        ((NodePairList.ofList (markFoldPairs (markNodeF fuel)
          (markStart a0 (.dictE a0 pairs) tokens p).2.1 pairs.toList p).1).toList.map
          (fun q => [q.1, q.2])).flatten := rfl
    rw [h0, npairToList_ofList]
    rw [(markFoldPairs_eq (markNodeF fuel)
      (markStart a0 (.dictE a0 pairs) tokens p).2.1 pairs.toList p).1]
    exact markFold_chain_of_wf (ordered_child_size_le hsz)
      (ordered_child_positioned hwf) (ordered_child_chain hwf) _ p

/-- Main induction for C1: in the marked tree of a well-formed input, every
node's re-ordered children form a sibRel chain. -/
theorem sibsOkF : ∀ (fuel : Nat) (n : Node) (tokens : List Token) (p : Pos),
    nsize n ≤ fuel → wfTree n = true →
    ∀ m ∈ allNodes (markNodeF fuel n tokens p).node,
      List.Chain' sibRel m.orderedChildren := by
  intro fuel
  induction fuel with
  | zero =>
    intro n tokens p hsz
    have := nsize_pos n
    omega
  | succ fuel ih =>
    intro n tokens p hsz hwf m hm
    rw [mem_allNodes_iff] at hm
    rcases hm with rfl | ⟨c, hc, hm⟩
    · exact root_chain fuel n tokens p hsz hwf
    · cases n with
      | module body =>
        rw [markNodeF_module] at hc
        simp only [Node.childNodes, nlistToList_ofList] at hc
        obtain ⟨c0, hc0, hp, rfl, -⟩ := markFold_mem hc
        have hcn : c0 ∈ (Node.module body).childNodes := hc0
        have hs : nsize c0 ≤ fuel := by
          have := nsize_child_lt hcn
          omega
        exact ih c0 tokens hp hs (wfTree_child hwf hcn) m hm
      | exprS a0 v =>
        rw [markNodeF_exprS] at hc
        simp only [Node.childNodes, List.mem_singleton] at hc
        subst hc
        have hcn : v ∈ (Node.exprS a0 v).childNodes := by
          show v ∈ [v]
          simp
        have hs : nsize v ≤ fuel := by
          have := nsize_child_lt hcn
          omega
        exact ih v _ p hs (wfTree_child hwf hcn) m hm
      | assignS a0 ts v =>
        rw [markNodeF_assignS] at hc
        simp only [Node.childNodes, nlistToList_ofList, List.mem_append,
          List.mem_singleton] at hc
        rcases hc with hc | rfl
        · obtain ⟨c0, hc0, hp, rfl, -⟩ := markFold_mem hc
          have hcn : c0 ∈ (Node.assignS a0 ts v).childNodes := by
            show c0 ∈ ts.toList ++ [v]
            exact List.mem_append_left _ hc0
          have hs : nsize c0 ≤ fuel := by
            have := nsize_child_lt hcn
            omega
          exact ih c0 _ hp hs (wfTree_child hwf hcn) m hm
        · have hcn : v ∈ (Node.assignS a0 ts v).childNodes := by
            show v ∈ ts.toList ++ [v]
            simp
          have hs : nsize v ≤ fuel := by
            have := nsize_child_lt hcn
            omega
          exact ih v _ p hs (wfTree_child hwf hcn) m hm
      | callE a0 f args kws =>
        rw [markNodeF_callE] at hc
        simp only [Node.childNodes, nlistToList_ofList, List.mem_cons,
          List.mem_append, List.mem_map, List.mem_range] at hc
        have hcl : ∃ j, c = lookupTag (markFoldTagged (markNodeF fuel)
            (markStart a0 (.callE a0 f args kws) tokens p).2.1
            (callSorted f args kws) p).1 j := by
          rcases hc with rfl | ⟨i, _, rfl⟩ | ⟨i, _, rfl⟩
          · exact ⟨0, rfl⟩
          · exact ⟨1 + i, rfl⟩
          · exact ⟨1 + args.toList.length + i, rfl⟩
        obtain ⟨j, rfl⟩ := hcl
        rcases lookupTag_cases _ j with hdef | ⟨q, hq, heq⟩
        · rw [hdef] at hm
          rw [mem_allNodes_iff] at hm
          rcases hm with rfl | ⟨c2, hc2, -⟩
          · exact List.chain'_nil
          · simp [Node.childNodes, NodeList.toList] at hc2
        · rw [heq] at hm
          obtain ⟨c2, hc2, hp, hq2, -⟩ := markFoldTagged_mem hq
          rw [hq2] at hm
          have hmem : c2 ∈ callChildList f args kws := mem_callSorted_snd hc2
          have hcn : c2 ∈ (Node.callE a0 f args kws).childNodes := hmem
          have hs : nsize c2 ≤ fuel := by
            have := nsize_child_lt hcn
            omega
          exact ih c2 _ hp hs (wfTree_child hwf hcn) m hm
      | binOpE a0 l op r =>
        rw [markNodeF_binOpE] at hc
        simp only [Node.childNodes, List.mem_cons, List.not_mem_nil, or_false] at hc
        rcases hc with rfl | rfl
        · have hcn : l ∈ (Node.binOpE a0 l op r).childNodes := by
            show l ∈ [l, r]
            simp
          have hs : nsize l ≤ fuel := by
            have := nsize_child_lt hcn
            omega
          exact ih l _ _ hs (wfTree_child hwf hcn) m hm
        · have hcn : r ∈ (Node.binOpE a0 l op r).childNodes := by
            show r ∈ [l, r]
            simp
          have hs : nsize r ≤ fuel := by
            have := nsize_child_lt hcn
            omega
          exact ih r _ p hs (wfTree_child hwf hcn) m hm
      | nameE a0 s =>
        rw [markNodeF_nameE] at hc
        simp [Node.childNodes] at hc
      | numE a0 v =>
        rw [markNodeF_numE] at hc
        simp [Node.childNodes] at hc
      | strE a0 s =>
        rw [markNodeF_strE] at hc
        simp [Node.childNodes] at hc
      | attrE a0 v s =>
        rw [markNodeF_attrE] at hc
        simp only [Node.childNodes, List.mem_singleton] at hc
        subst hc
        have hcn : v ∈ (Node.attrE a0 v s).childNodes := by
          show v ∈ [v]
          simp
        have hs : nsize v ≤ fuel := by
          have := nsize_child_lt hcn
          omega
        exact ih v _ p hs (wfTree_child hwf hcn) m hm
      | tupleE a0 elts =>
        rw [markNodeF_tupleE] at hc
        simp only [Node.childNodes, nlistToList_ofList] at hc
        obtain ⟨c0, hc0, hp, rfl, -⟩ := markFold_mem hc
        have hcn : c0 ∈ (Node.tupleE a0 elts).childNodes := hc0
        have hs : nsize c0 ≤ fuel := by
          have := nsize_child_lt hcn
          omega
        exact ih c0 _ hp hs (wfTree_child hwf hcn) m hm
      | dictE a0 pairs =>
        rw [markNodeF_dictE] at hc
        simp only [Node.childNodes, npairToList_ofList, List.mem_append,
          List.mem_map] at hc
        rcases hc with ⟨q, hq, rfl⟩ | ⟨q, hq, rfl⟩
        · obtain ⟨kv, hkv, hk, hv, h1, h2, -⟩ := markFoldPairs_mem hq
          rw [h1] at hm
          have hcn : kv.1 ∈ (Node.dictE a0 pairs).childNodes := by
            show kv.1 ∈ pairs.toList.map (fun q => q.1) ++ pairs.toList.map (fun q => q.2)
            exact List.mem_append_left _ (List.mem_map_of_mem _ hkv)
          have hs : nsize kv.1 ≤ fuel := by
            have := nsize_child_lt hcn
            omega
          exact ih kv.1 _ hk hs (wfTree_child hwf hcn) m hm
        · obtain ⟨kv, hkv, hk, hv, h1, h2, -⟩ := markFoldPairs_mem hq
          rw [h2] at hm
          have hcn : kv.2 ∈ (Node.dictE a0 pairs).childNodes := by
            show kv.2 ∈ pairs.toList.map (fun q => q.1) ++ pairs.toList.map (fun q => q.2)
            exact List.mem_append_right _ (List.mem_map_of_mem _ hkv)
          have hs : nsize kv.2 ≤ fuel := by
            have := nsize_child_lt hcn
            omega
          exact ih kv.2 _ hv hs (wfTree_child hwf hcn) m hm

/-- C1: for every well-formed tree (wfTree: every child node carries
position attributes and the ordered siblings of every node have strictly
increasing start positions — the formal residue of "syntactically valid")
and for any token stream and horizon, after the end-position reconstruction
every pair of adjacent siblings at the same level, taken in the order
produced by _get_ordered_child_nodes, satisfies the central invariant: the
earlier sibling's assigned end position never exceeds the later sibling's
start position, lexicographically on (line, column). -/
theorem claim_C1_sibling_ranges_ordered (n : Node) (tokens : List Token) (p : Pos)
    (hwf : wfTree n = true) :
    ∀ m ∈ allNodes (markNode n tokens p).node, List.Chain' sibRel m.orderedChildren :=
  sibsOkF (nsize n) n tokens p (Nat.le_refl _) hwf

/-- Witness for C1 at the concrete x = 1 + 2 scenario. -/
theorem claim_C1_witness :
    wfTree tree6 = true ∧
    ∀ m ∈ allNodes (markNode tree6 toks6 ⟨1, 10⟩).node,
      List.Chain' sibRel m.orderedChildren :=
  ⟨by rfl, claim_C1_sibling_ranges_ordered tree6 toks6 ⟨1, 10⟩ (by rfl)⟩

/-! ### C2 development: parent/child range containment -/

/-- When _set_real_end succeeds and the incoming stream has non-decreasing
token ends, every token left for the children ends no later than the end
assigned to the node (the children's windows are sub-windows of the
node's trimmed window, whose last token provides the node's end). -/
theorem markStart_window_ends_le {a : Attrs} {n : Node} {tokens : List Token} {p : Pos}
    (hpw : List.Pairwise (fun t1 t2 => posLe t1.endp t2.endp = true) tokens)
    (hok : (markStart a n tokens p).2.2 = true) :
    ∀ x ∈ (markStart a n tokens p).2.1,
      posLe x.endp (markStart a n tokens p).1 = true := by
  simp only [markStart] at hok ⊢
  rw [Option.isSome_iff_exists] at hok
  obtain ⟨e, he⟩ := hok
  obtain ⟨l, t, htr, hg, het, hsub⟩ := set_real_end_fst_some he
  intro x hx
  rw [he, Option.getD_some, het]
  have hpl : List.Pairwise (fun t1 t2 => posLe t1.endp t2.endp = true) l :=
    List.Pairwise.sublist ((set_real_end_trim_sublist htr).trans
      (extract_tokens_sublist tokens a.lineno a.col_offset p.line p.col)) hpw
  exact pairwise_le_getLast hpl hg x (hsub.mem hx)

theorem childStartsOkF_congr : ∀ (fuel₁ : Nat), ∀ {fuel₂ : Nat} {n : Node},
    nsize n ≤ fuel₁ → nsize n ≤ fuel₂ →
    childStartsOkF fuel₁ n = childStartsOkF fuel₂ n := by
  intro fuel₁
  induction fuel₁ with
  | zero =>
    intro fuel₂ n h1 _
    have := nsize_pos n
    omega
  | succ fuel ih =>
    intro fuel₂ n h1 h2
    have hpos := nsize_pos n
    obtain ⟨k, rfl⟩ : ∃ k, fuel₂ = k + 1 := ⟨fuel₂ - 1, by omega⟩
    simp only [childStartsOkF]
    congr 1
    apply all_congrB
    intro c hc
    have hlt := nsize_child_lt hc
    exact ih (by omega) (by omega)

theorem childStartsOk_eq (n : Node) :
    childStartsOk n = ((match n.startPos? with
       | none => true
       | some s => (n.childNodes).all (fun c =>
           match c.startPos? with
           | none => true
           | some cs => posLe s cs)) &&
      (n.childNodes).all childStartsOk) := by
  unfold childStartsOk
  have hpos := nsize_pos n
  obtain ⟨k, hk⟩ : ∃ k, nsize n = k + 1 := ⟨nsize n - 1, by omega⟩
  rw [hk]
  simp only [childStartsOkF]
  congr 1
  apply all_congrB
  intro c hc
  have hlt := nsize_child_lt hc
  exact childStartsOkF_congr k (by omega) (by omega)

theorem childStartsOk_child {n c : Node} (h : childStartsOk n = true)
    (hc : c ∈ n.childNodes) : childStartsOk c = true := by
  rw [childStartsOk_eq] at h
  simp only [Bool.and_eq_true, List.all_eq_true] at h
  exact h.2 c hc

theorem childStartsOk_root {n c : Node} (h : childStartsOk n = true)
    (hc : c ∈ n.childNodes) {s cs : Pos} (hs : n.startPos? = some s)
    (hcs : c.startPos? = some cs) : posLe s cs = true := by
  rw [childStartsOk_eq] at h
  simp only [Bool.and_eq_true] at h
  have h1 := h.1
  simp only [hs] at h1
  rw [List.all_eq_true] at h1
  have h2 := h1 c hc
  simp only [hcs] at h2
  exact h2

/-- Token provenance of the assigned ends: in a fully successful run,
every end position assigned anywhere in the marked subtree is the end
position of some token of the incoming token list. -/
theorem endTokF : ∀ (fuel : Nat) (n : Node) (tokens : List Token) (p : Pos),
    nsize n ≤ fuel → (markNodeF fuel n tokens p).ok = true →
    ∀ m ∈ allNodes (markNodeF fuel n tokens p).node, ∀ e, m.endPos? = some e →
      ∃ t ∈ tokens, e = t.endp := by
  intro fuel
  induction fuel with
  | zero =>
    intro n tokens p hsz
    have := nsize_pos n
    omega
  | succ fuel ih =>
    intro n tokens p hsz hok m hm e he
    cases n with
    | module body =>
      simp only [markNodeF_module] at hok
      rw [markNodeF_module] at hm
      rw [mem_allNodes_iff] at hm
      rcases hm with rfl | ⟨c, hc, hm⟩
      · simp [Node.endPos?, Node.attrs?] at he
      · simp only [Node.childNodes, nlistToList_ofList] at hc
        obtain ⟨c0, hc0, hp, rfl, hokc⟩ := markFold_mem hc
        have hs : nsize c0 ≤ fuel := by
          have := nsize_le_of_mem_toList body c0 hc0
          simp only [nsize] at hsz
          omega
        exact ih c0 tokens hp hs (hokc hok) m hm e he
    | exprS a0 v =>
      simp only [markNodeF_exprS, Bool.and_eq_true] at hok
      rw [markNodeF_exprS] at hm
      rw [mem_allNodes_iff] at hm
      rcases hm with rfl | ⟨c, hc, hm⟩
      · simp [Node.endPos?, Node.attrs?] at he
        obtain ⟨t, ht, hte⟩ := markStart_end_of_ok hok.1
        exact ⟨t, (mem_extract_tokens ht).1, by rw [← he, hte]⟩
      · simp only [Node.childNodes, List.mem_singleton] at hc
        subst hc
        have hs : nsize v ≤ fuel := by simp only [nsize] at hsz; omega
        obtain ⟨t, ht, hte⟩ := ih v _ p hs hok.2 m hm e he
        exact ⟨t, (markStart_snd_sublist a0 (.exprS a0 v) tokens p).mem ht, hte⟩
    | assignS a0 ts v =>
      simp only [markNodeF_assignS, Bool.and_eq_true] at hok
      rw [markNodeF_assignS] at hm
      rw [mem_allNodes_iff] at hm
      rcases hm with rfl | ⟨c, hc, hm⟩
      · simp [Node.endPos?, Node.attrs?] at he
        obtain ⟨t, ht, hte⟩ := markStart_end_of_ok hok.1
        exact ⟨t, (mem_extract_tokens ht).1, by rw [← he, hte]⟩
      · simp only [Node.childNodes, nlistToList_ofList, List.mem_append,
          List.mem_singleton] at hc
        rcases hc with hc | rfl
        · obtain ⟨c0, hc0, hp, rfl, hokc⟩ := markFold_mem hc
          have hs : nsize c0 ≤ fuel := by
            have := nsize_le_of_mem_toList ts c0 hc0
            simp only [nsize] at hsz
            omega
          obtain ⟨t, ht, hte⟩ := ih c0 _ hp hs (hokc hok.2.2) m hm e he
          exact ⟨t, (markStart_snd_sublist a0 (.assignS a0 ts v) tokens p).mem ht, hte⟩
        · have hs : nsize v ≤ fuel := by simp only [nsize] at hsz; omega
          obtain ⟨t, ht, hte⟩ := ih v _ p hs hok.2.1 m hm e he
          exact ⟨t, (markStart_snd_sublist a0 (.assignS a0 ts v) tokens p).mem ht, hte⟩
    | callE a0 f args kws =>
      simp only [markNodeF_callE, Bool.and_eq_true] at hok
      rw [markNodeF_callE] at hm
      rw [mem_allNodes_iff] at hm
      rcases hm with rfl | ⟨c, hc, hm⟩
      · simp [Node.endPos?, Node.attrs?] at he
        obtain ⟨t, ht, hte⟩ := markStart_end_of_ok hok.1
        exact ⟨t, (mem_extract_tokens ht).1, by rw [← he, hte]⟩
      · simp only [Node.childNodes, nlistToList_ofList, List.mem_cons,
          List.mem_append, List.mem_map, List.mem_range] at hc
        have hcl : ∃ j, c = lookupTag (markFoldTagged (markNodeF fuel)
            (markStart a0 (.callE a0 f args kws) tokens p).2.1
            (callSorted f args kws) p).1 j := by
          rcases hc with rfl | ⟨i, _, rfl⟩ | ⟨i, _, rfl⟩
          · exact ⟨0, rfl⟩
          · exact ⟨1 + i, rfl⟩
          · exact ⟨1 + args.toList.length + i, rfl⟩
        obtain ⟨j, rfl⟩ := hcl
        rcases lookupTag_cases _ j with hdef | ⟨q, hq, heq⟩
        · rw [hdef] at hm
          rw [mem_allNodes_iff] at hm
          rcases hm with rfl | ⟨c2, hc2, -⟩
          · simp [Node.endPos?, Node.attrs?] at he
          · simp [Node.childNodes, NodeList.toList] at hc2
        · rw [heq] at hm
          obtain ⟨c2, hc2, hp, hq2, hokc⟩ := markFoldTagged_mem hq
          rw [hq2] at hm
          have hmem : c2 ∈ callChildList f args kws := mem_callSorted_snd hc2
          have hs : nsize c2 ≤ fuel := by
            simp only [callChildList, List.mem_cons, List.mem_append] at hmem
            simp only [nsize] at hsz
            rcases hmem with rfl | hmem | hmem
            · omega
            · have := nsize_le_of_mem_toList args c2 hmem
              omega
            · have := nsize_le_of_mem_toList kws c2 hmem
              omega
          obtain ⟨t, ht, hte⟩ := ih c2 _ hp hs (hokc hok.2) m hm e he
          exact ⟨t, (markStart_snd_sublist a0 (.callE a0 f args kws) tokens p).mem ht, hte⟩
    | binOpE a0 l op r =>
      simp only [markNodeF_binOpE, Bool.and_eq_true] at hok
      rw [markNodeF_binOpE] at hm
      rw [mem_allNodes_iff] at hm
      rcases hm with rfl | ⟨c, hc, hm⟩
      · simp [Node.endPos?, Node.attrs?] at he
        obtain ⟨t, ht, hte⟩ := markStart_end_of_ok hok.1
        exact ⟨t, (mem_extract_tokens ht).1, by rw [← he, hte]⟩
      · simp only [Node.childNodes, List.mem_cons, List.not_mem_nil, or_false] at hc
        rcases hc with rfl | rfl
        · have hs : nsize l ≤ fuel := by simp only [nsize] at hsz; omega
          obtain ⟨t, ht, hte⟩ := ih l _ _ hs hok.2.2 m hm e he
          exact ⟨t, (markStart_snd_sublist a0 (.binOpE a0 l op r) tokens p).mem ht, hte⟩
        · have hs : nsize r ≤ fuel := by simp only [nsize] at hsz; omega
          obtain ⟨t, ht, hte⟩ := ih r _ p hs hok.2.1 m hm e he
          exact ⟨t, (markStart_snd_sublist a0 (.binOpE a0 l op r) tokens p).mem ht, hte⟩
    | nameE a0 s =>
      simp only [markNodeF_nameE] at hok
      rw [markNodeF_nameE] at hm
      rw [mem_allNodes_iff] at hm
      rcases hm with rfl | ⟨c, hc, -⟩
      · simp [Node.endPos?, Node.attrs?] at he
        obtain ⟨t, ht, hte⟩ := markStart_end_of_ok hok
        exact ⟨t, (mem_extract_tokens ht).1, by rw [← he, hte]⟩
      · simp [Node.childNodes] at hc
    | numE a0 v =>
      simp only [markNodeF_numE] at hok
      rw [markNodeF_numE] at hm
      rw [mem_allNodes_iff] at hm
      rcases hm with rfl | ⟨c, hc, -⟩
      · simp [Node.endPos?, Node.attrs?] at he
        obtain ⟨t, ht, hte⟩ := markStart_end_of_ok hok
        exact ⟨t, (mem_extract_tokens ht).1, by rw [← he, hte]⟩
      · simp [Node.childNodes] at hc
    | strE a0 s =>
      simp only [markNodeF_strE] at hok
      rw [markNodeF_strE] at hm
      rw [mem_allNodes_iff] at hm
      rcases hm with rfl | ⟨c, hc, -⟩
      · simp [Node.endPos?, Node.attrs?] at he
        obtain ⟨t, ht, hte⟩ := markStart_end_of_ok hok
        exact ⟨t, (mem_extract_tokens ht).1, by rw [← he, hte]⟩
      · simp [Node.childNodes] at hc
    | attrE a0 v s =>
      simp only [markNodeF_attrE, Bool.and_eq_true] at hok
      rw [markNodeF_attrE] at hm
      rw [mem_allNodes_iff] at hm
      rcases hm with rfl | ⟨c, hc, hm⟩
      · simp [Node.endPos?, Node.attrs?] at he
        obtain ⟨t, ht, hte⟩ := markStart_end_of_ok hok.1
        exact ⟨t, (mem_extract_tokens ht).1, by rw [← he, hte]⟩
      · simp only [Node.childNodes, List.mem_singleton] at hc
        subst hc
        have hs : nsize v ≤ fuel := by simp only [nsize] at hsz; omega
        obtain ⟨t, ht, hte⟩ := ih v _ p hs hok.2 m hm e he
        exact ⟨t, (markStart_snd_sublist a0 (.attrE a0 v s) tokens p).mem ht, hte⟩
    | tupleE a0 elts =>
      simp only [markNodeF_tupleE, Bool.and_eq_true] at hok
      rw [markNodeF_tupleE] at hm
      rw [mem_allNodes_iff] at hm
      rcases hm with rfl | ⟨c, hc, hm⟩
      · simp [Node.endPos?, Node.attrs?] at he
        obtain ⟨t, ht, hte⟩ := markStart_end_of_ok hok.1
        exact ⟨t, (mem_extract_tokens ht).1, by rw [← he, hte]⟩
      · simp only [Node.childNodes, nlistToList_ofList] at hc
        obtain ⟨c0, hc0, hp, rfl, hokc⟩ := markFold_mem hc
        have hs : nsize c0 ≤ fuel := by
          have := nsize_le_of_mem_toList elts c0 hc0
          simp only [nsize] at hsz
          omega
        obtain ⟨t, ht, hte⟩ := ih c0 _ hp hs (hokc hok.2) m hm e he
        exact ⟨t, (markStart_snd_sublist a0 (.tupleE a0 elts) tokens p).mem ht, hte⟩
    | dictE a0 pairs =>
      simp only [markNodeF_dictE, Bool.and_eq_true] at hok
      rw [markNodeF_dictE] at hm
      rw [mem_allNodes_iff] at hm
      rcases hm with rfl | ⟨c, hc, hm⟩
      · simp [Node.endPos?, Node.attrs?] at he
        obtain ⟨t, ht, hte⟩ := markStart_end_of_ok hok.1
        exact ⟨t, (mem_extract_tokens ht).1, by rw [← he, hte]⟩
      · simp only [Node.childNodes, npairToList_ofList, List.mem_append,
          List.mem_map] at hc
        rcases hc with ⟨q, hq, rfl⟩ | ⟨q, hq, rfl⟩
        · obtain ⟨kv, hkv, hk, hv, h1, h2, hokc⟩ := markFoldPairs_mem hq
          rw [h1] at hm
          have hs : nsize kv.1 ≤ fuel := by
            have := nsize_le_of_mem_ptoList pairs kv.1 kv.2 (by simpa using hkv)
            simp only [nsize] at hsz
            omega
          obtain ⟨t, ht, hte⟩ := ih kv.1 _ hk hs (hokc hok.2).1 m hm e he
          exact ⟨t, (markStart_snd_sublist a0 (.dictE a0 pairs) tokens p).mem ht, hte⟩
        · obtain ⟨kv, hkv, hk, hv, h1, h2, hokc⟩ := markFoldPairs_mem hq
          rw [h2] at hm
          have hs : nsize kv.2 ≤ fuel := by
            have := nsize_le_of_mem_ptoList pairs kv.1 kv.2 (by simpa using hkv)
            simp only [nsize] at hsz
            omega
          obtain ⟨t, ht, hte⟩ := ih kv.2 _ hv hs (hokc hok.2).2 m hm e he
          exact ⟨t, (markStart_snd_sublist a0 (.dictE a0 pairs) tokens p).mem ht, hte⟩

/-- Main induction for C2: in a fully successful run over a token stream
with non-decreasing token ends, on a tree whose positioned children start
no earlier than their parents, every parent/child pair of the marked tree
satisfies range containment (parent.start <= child.start and
child.end <= parent.end, both lexicographic and non-strict). -/
theorem containsF : ∀ (fuel : Nat) (n : Node) (tokens : List Token) (p : Pos),
    nsize n ≤ fuel →
    List.Pairwise (fun t1 t2 => posLe t1.endp t2.endp = true) tokens →
    childStartsOk n = true →
    (markNodeF fuel n tokens p).ok = true →
    ∀ m ∈ allNodes (markNodeF fuel n tokens p).node, ∀ c ∈ m.childNodes,
      (∀ s, m.startPos? = some s → ∀ cs, c.startPos? = some cs →
        posLe s cs = true) ∧
      (∀ e, m.endPos? = some e → ∀ ce, c.endPos? = some ce →
        posLe ce e = true) := by
  intro fuel
  induction fuel with
  | zero =>
    intro n tokens p hsz
    have := nsize_pos n
    omega
  | succ fuel ih =>
    intro n tokens p hsz hpw hcso hok m hm c hcm
    cases n with
    | module body =>
      simp only [markNodeF_module] at hok
      rw [markNodeF_module] at hm
      rw [mem_allNodes_iff] at hm
      rcases hm with rfl | ⟨c1, hc1, hm⟩
      · constructor
        · intro s hs'
          simp [Node.startPos?, Node.attrs?] at hs'
        · intro e he
          simp [Node.endPos?, Node.attrs?] at he
      · simp only [Node.childNodes, nlistToList_ofList] at hc1
        obtain ⟨c0, hc0, hp2, rfl, hokc⟩ := markFold_mem hc1
        have hcn : c0 ∈ (Node.module body).childNodes := hc0
        have hs : nsize c0 ≤ fuel := by
          have := nsize_child_lt hcn
          omega
        exact ih c0 tokens hp2 hs hpw (childStartsOk_child hcso hcn) (hokc hok) m hm c hcm
    | exprS a0 v =>
      simp only [markNodeF_exprS, Bool.and_eq_true] at hok
      rw [markNodeF_exprS] at hm
      rw [mem_allNodes_iff] at hm
      have hcn : v ∈ (Node.exprS a0 v).childNodes := by
        show v ∈ [v]
        simp
      have hs : nsize v ≤ fuel := by
        have := nsize_child_lt hcn
        omega
      rcases hm with rfl | ⟨c1, hc1, hm⟩
      · simp only [Node.childNodes, List.mem_singleton] at hcm
        subst hcm
        constructor
        · intro s hs' cs hcs
          simp [Node.startPos?, Node.attrs?, Attrs.start] at hs'
          rw [markNodeF_node_startPos] at hcs
          subst hs'
          exact childStartsOk_root hcso hcn rfl hcs
        · intro e he ce hce
          simp [Node.endPos?, Node.attrs?] at he
          obtain ⟨t, ht, hte⟩ :=
            endTokF fuel v _ p hs hok.2 _ (self_mem_allNodes _) ce hce
          subst hte
          rw [← he]
          exact markStart_window_ends_le hpw hok.1 t ht
      · simp only [Node.childNodes, List.mem_singleton] at hc1
        subst hc1
        exact ih v _ p hs
          (List.Pairwise.sublist (markStart_snd_sublist a0 (.exprS a0 v) tokens p) hpw)
          (childStartsOk_child hcso hcn) hok.2 m hm c hcm
    | assignS a0 ts v =>
      simp only [markNodeF_assignS, Bool.and_eq_true] at hok
      rw [markNodeF_assignS] at hm
      rw [mem_allNodes_iff] at hm
      have hvn : v ∈ (Node.assignS a0 ts v).childNodes := by
        show v ∈ ts.toList ++ [v]
        simp
      have hvs : nsize v ≤ fuel := by
        have := nsize_child_lt hvn
        omega
      have hpw2 := List.Pairwise.sublist
        (markStart_snd_sublist a0 (.assignS a0 ts v) tokens p) hpw
      rcases hm with rfl | ⟨c1, hc1, hm⟩
      · simp only [Node.childNodes, nlistToList_ofList, List.mem_append,
          List.mem_singleton] at hcm
        rcases hcm with hcm | rfl
        · obtain ⟨c0, hc0, hp2, rfl, hokc⟩ := markFold_mem hcm
          have hcn : c0 ∈ (Node.assignS a0 ts v).childNodes := by
            show c0 ∈ ts.toList ++ [v]
            exact List.mem_append_left _ hc0
          have hs : nsize c0 ≤ fuel := by
            have := nsize_child_lt hcn
            omega
          constructor
          · intro s hs' cs hcs
            simp [Node.startPos?, Node.attrs?, Attrs.start] at hs'
            rw [markNodeF_node_startPos] at hcs
            subst hs'
            exact childStartsOk_root hcso hcn rfl hcs
          · intro e he ce hce
            simp [Node.endPos?, Node.attrs?] at he
            obtain ⟨t, ht, hte⟩ :=
              endTokF fuel c0 _ _ hs (hokc hok.2.2) _ (self_mem_allNodes _) ce hce
            subst hte
            rw [← he]
            exact markStart_window_ends_le hpw hok.1 t ht
        · constructor
          · intro s hs' cs hcs
            simp [Node.startPos?, Node.attrs?, Attrs.start] at hs'
            rw [markNodeF_node_startPos] at hcs
            subst hs'
            exact childStartsOk_root hcso hvn rfl hcs
          · intro e he ce hce
            simp [Node.endPos?, Node.attrs?] at he
            obtain ⟨t, ht, hte⟩ :=
              endTokF fuel v _ p hvs hok.2.1 _ (self_mem_allNodes _) ce hce
            subst hte
            rw [← he]
            exact markStart_window_ends_le hpw hok.1 t ht
      · simp only [Node.childNodes, nlistToList_ofList, List.mem_append,
          List.mem_singleton] at hc1
        rcases hc1 with hc1 | rfl
        · obtain ⟨c0, hc0, hp2, rfl, hokc⟩ := markFold_mem hc1
          have hcn : c0 ∈ (Node.assignS a0 ts v).childNodes := by
            show c0 ∈ ts.toList ++ [v]
            exact List.mem_append_left _ hc0
          have hs : nsize c0 ≤ fuel := by
            have := nsize_child_lt hcn
            omega
          exact ih c0 _ hp2 hs hpw2 (childStartsOk_child hcso hcn)
            (hokc hok.2.2) m hm c hcm
        · exact ih v _ p hvs hpw2 (childStartsOk_child hcso hvn) hok.2.1 m hm c hcm
    | callE a0 f args kws =>
      simp only [markNodeF_callE, Bool.and_eq_true] at hok
      rw [markNodeF_callE] at hm
      rw [mem_allNodes_iff] at hm
      have hpw2 := List.Pairwise.sublist
        (markStart_snd_sublist a0 (.callE a0 f args kws) tokens p) hpw
      rcases hm with rfl | ⟨c1, hc1, hm⟩
      · simp only [Node.childNodes, nlistToList_ofList, List.mem_cons,
          List.mem_append, List.mem_map, List.mem_range] at hcm
        have hcl : ∃ j, c = lookupTag (markFoldTagged (markNodeF fuel)
            (markStart a0 (.callE a0 f args kws) tokens p).2.1
            (callSorted f args kws) p).1 j := by
          rcases hcm with rfl | ⟨i, _, rfl⟩ | ⟨i, _, rfl⟩
          · exact ⟨0, rfl⟩
          · exact ⟨1 + i, rfl⟩
          · exact ⟨1 + args.toList.length + i, rfl⟩
        obtain ⟨j, rfl⟩ := hcl
        rcases lookupTag_cases (markFoldTagged (markNodeF fuel)
            (markStart a0 (.callE a0 f args kws) tokens p).2.1
            (callSorted f args kws) p).1 j with hdef | ⟨q, hq, heq⟩
        · rw [hdef]
          constructor
          · intro s hs' cs hcs
            simp [Node.startPos?, Node.attrs?] at hcs
          · intro e he ce hce
            simp [Node.endPos?, Node.attrs?] at hce
        · obtain ⟨c2, hc2, hp2, hq2, hokc⟩ := markFoldTagged_mem hq
          rw [heq, hq2]
          have hmem : c2 ∈ callChildList f args kws := mem_callSorted_snd hc2
          have hcn : c2 ∈ (Node.callE a0 f args kws).childNodes := hmem
          have hs : nsize c2 ≤ fuel := by
            have := nsize_child_lt hcn
            omega
          constructor
          · intro s hs' cs hcs
            simp [Node.startPos?, Node.attrs?, Attrs.start] at hs'
            rw [markNodeF_node_startPos] at hcs
            subst hs'
            exact childStartsOk_root hcso hcn rfl hcs
          · intro e he ce hce
            simp [Node.endPos?, Node.attrs?] at he
            obtain ⟨t, ht, hte⟩ :=
              endTokF fuel c2 _ _ hs (hokc hok.2) _ (self_mem_allNodes _) ce hce
            subst hte
            rw [← he]
            exact markStart_window_ends_le hpw hok.1 t ht
      · simp only [Node.childNodes, nlistToList_ofList, List.mem_cons,
          List.mem_append, List.mem_map, List.mem_range] at hc1
        have hcl : ∃ j, c1 = lookupTag (markFoldTagged (markNodeF fuel)
            (markStart a0 (.callE a0 f args kws) tokens p).2.1
            (callSorted f args kws) p).1 j := by
          rcases hc1 with rfl | ⟨i, _, rfl⟩ | ⟨i, _, rfl⟩
          · exact ⟨0, rfl⟩
          · exact ⟨1 + i, rfl⟩
          · exact ⟨1 + args.toList.length + i, rfl⟩
        obtain ⟨j, rfl⟩ := hcl
        rcases lookupTag_cases (markFoldTagged (markNodeF fuel)
            (markStart a0 (.callE a0 f args kws) tokens p).2.1
            (callSorted f args kws) p).1 j with hdef | ⟨q, hq, heq⟩
        · rw [hdef] at hm
          rw [mem_allNodes_iff] at hm
          rcases hm with rfl | ⟨c2, hc2, -⟩
          · simp [Node.childNodes, NodeList.toList] at hcm
          · simp [Node.childNodes, NodeList.toList] at hc2
        · rw [heq] at hm
          obtain ⟨c2, hc2, hp2, hq2, hokc⟩ := markFoldTagged_mem hq
          rw [hq2] at hm
          have hmem : c2 ∈ callChildList f args kws := mem_callSorted_snd hc2
          have hcn : c2 ∈ (Node.callE a0 f args kws).childNodes := hmem
          have hs : nsize c2 ≤ fuel := by
            have := nsize_child_lt hcn
            omega
          exact ih c2 _ hp2 hs hpw2 (childStartsOk_child hcso hcn)
            (hokc hok.2) m hm c hcm
    | binOpE a0 l op r =>
      simp only [markNodeF_binOpE, Bool.and_eq_true] at hok
      rw [markNodeF_binOpE] at hm
      rw [mem_allNodes_iff] at hm
      have hln : l ∈ (Node.binOpE a0 l op r).childNodes := by
        show l ∈ [l, r]
        simp
      have hrn : r ∈ (Node.binOpE a0 l op r).childNodes := by
        show r ∈ [l, r]
        simp
      have hls : nsize l ≤ fuel := by
        have := nsize_child_lt hln
        omega
      have hrs : nsize r ≤ fuel := by
        have := nsize_child_lt hrn
        omega
      have hpw2 := List.Pairwise.sublist
        (markStart_snd_sublist a0 (.binOpE a0 l op r) tokens p) hpw
      rcases hm with rfl | ⟨c1, hc1, hm⟩
      · simp only [Node.childNodes, List.mem_cons, List.not_mem_nil, or_false] at hcm
        rcases hcm with rfl | rfl
        · constructor
          · intro s hs' cs hcs
            simp [Node.startPos?, Node.attrs?, Attrs.start] at hs'
            rw [markNodeF_node_startPos] at hcs
            subst hs'
            exact childStartsOk_root hcso hln rfl hcs
          · intro e he ce hce
            simp [Node.endPos?, Node.attrs?] at he
            obtain ⟨t, ht, hte⟩ :=
              endTokF fuel l _ _ hls hok.2.2 _ (self_mem_allNodes _) ce hce
            subst hte
            rw [← he]
            exact markStart_window_ends_le hpw hok.1 t ht
        · constructor
          · intro s hs' cs hcs
            simp [Node.startPos?, Node.attrs?, Attrs.start] at hs'
            rw [markNodeF_node_startPos] at hcs
            subst hs'
            exact childStartsOk_root hcso hrn rfl hcs
          · intro e he ce hce
            simp [Node.endPos?, Node.attrs?] at he
            obtain ⟨t, ht, hte⟩ :=
              endTokF fuel r _ p hrs hok.2.1 _ (self_mem_allNodes _) ce hce
            subst hte
            rw [← he]
            exact markStart_window_ends_le hpw hok.1 t ht
      · simp only [Node.childNodes, List.mem_cons, List.not_mem_nil, or_false] at hc1
        rcases hc1 with rfl | rfl
        · exact ih l _ _ hls hpw2 (childStartsOk_child hcso hln) hok.2.2 m hm c hcm
        · exact ih r _ p hrs hpw2 (childStartsOk_child hcso hrn) hok.2.1 m hm c hcm
    | nameE a0 s =>
      rw [markNodeF_nameE] at hm
      rw [mem_allNodes_iff] at hm
      rcases hm with rfl | ⟨c1, hc1, -⟩
      · simp [Node.childNodes] at hcm
      · simp [Node.childNodes] at hc1
    | numE a0 v =>
      rw [markNodeF_numE] at hm
      rw [mem_allNodes_iff] at hm
      rcases hm with rfl | ⟨c1, hc1, -⟩
      · simp [Node.childNodes] at hcm
      · simp [Node.childNodes] at hc1
    | strE a0 s =>
      rw [markNodeF_strE] at hm
      rw [mem_allNodes_iff] at hm
      rcases hm with rfl | ⟨c1, hc1, -⟩
      · simp [Node.childNodes] at hcm
      · simp [Node.childNodes] at hc1
    | attrE a0 v s =>
      simp only [markNodeF_attrE, Bool.and_eq_true] at hok
      rw [markNodeF_attrE] at hm
      rw [mem_allNodes_iff] at hm
      have hcn : v ∈ (Node.attrE a0 v s).childNodes := by
        show v ∈ [v]
        simp
      have hvs : nsize v ≤ fuel := by
        have := nsize_child_lt hcn
        omega
      rcases hm with rfl | ⟨c1, hc1, hm⟩
      · simp only [Node.childNodes, List.mem_singleton] at hcm
        subst hcm
        constructor
        · intro s2 hs' cs hcs
          simp [Node.startPos?, Node.attrs?, Attrs.start] at hs'
          rw [markNodeF_node_startPos] at hcs
          subst hs'
          exact childStartsOk_root hcso hcn rfl hcs
        · intro e he ce hce
          simp [Node.endPos?, Node.attrs?] at he
          obtain ⟨t, ht, hte⟩ :=
            endTokF fuel v _ p hvs hok.2 _ (self_mem_allNodes _) ce hce
          subst hte
          rw [← he]
          exact markStart_window_ends_le hpw hok.1 t ht
      · simp only [Node.childNodes, List.mem_singleton] at hc1
        subst hc1
        exact ih v _ p hvs
          (List.Pairwise.sublist (markStart_snd_sublist a0 (.attrE a0 v s) tokens p) hpw)
          (childStartsOk_child hcso hcn) hok.2 m hm c hcm
    | tupleE a0 elts =>
      simp only [markNodeF_tupleE, Bool.and_eq_true] at hok
      rw [markNodeF_tupleE] at hm
      rw [mem_allNodes_iff] at hm
      have hpw2 := List.Pairwise.sublist
        (markStart_snd_sublist a0 (.tupleE a0 elts) tokens p) hpw
      rcases hm with rfl | ⟨c1, hc1, hm⟩
      · simp only [Node.childNodes, nlistToList_ofList] at hcm
        obtain ⟨c0, hc0, hp2, rfl, hokc⟩ := markFold_mem hcm
        have hcn : c0 ∈ (Node.tupleE a0 elts).childNodes := hc0
        have hs : nsize c0 ≤ fuel := by
          have := nsize_child_lt hcn
          omega
        constructor
        · intro s hs' cs hcs
          simp [Node.startPos?, Node.attrs?, Attrs.start] at hs'
          rw [markNodeF_node_startPos] at hcs
          subst hs'
          exact childStartsOk_root hcso hcn rfl hcs
        · intro e he ce hce
          simp [Node.endPos?, Node.attrs?] at he
          obtain ⟨t, ht, hte⟩ :=
            endTokF fuel c0 _ _ hs (hokc hok.2) _ (self_mem_allNodes _) ce hce
          subst hte
          rw [← he]
          exact markStart_window_ends_le hpw hok.1 t ht
      · simp only [Node.childNodes, nlistToList_ofList] at hc1
        obtain ⟨c0, hc0, hp2, rfl, hokc⟩ := markFold_mem hc1
        have hcn : c0 ∈ (Node.tupleE a0 elts).childNodes := hc0
        have hs : nsize c0 ≤ fuel := by
          have := nsize_child_lt hcn
          omega
        exact ih c0 _ hp2 hs hpw2 (childStartsOk_child hcso hcn)
          (hokc hok.2) m hm c hcm
    | dictE a0 pairs =>
      simp only [markNodeF_dictE, Bool.and_eq_true] at hok
      rw [markNodeF_dictE] at hm
      rw [mem_allNodes_iff] at hm
      have hpw2 := List.Pairwise.sublist
        (markStart_snd_sublist a0 (.dictE a0 pairs) tokens p) hpw
      rcases hm with rfl | ⟨c1, hc1, hm⟩
      · simp only [Node.childNodes, npairToList_ofList, List.mem_append,
          List.mem_map] at hcm
        rcases hcm with ⟨q, hq, rfl⟩ | ⟨q, hq, rfl⟩
        · obtain ⟨kv, hkv, hk, hv, h1, h2, hokc⟩ := markFoldPairs_mem hq
          rw [h1]
          have hcn : kv.1 ∈ (Node.dictE a0 pairs).childNodes := by
            show kv.1 ∈ pairs.toList.map (fun q => q.1) ++ pairs.toList.map (fun q => q.2)
            exact List.mem_append_left _ (List.mem_map_of_mem _ hkv)
          have hs : nsize kv.1 ≤ fuel := by
            have := nsize_child_lt hcn
            omega
          constructor
          · intro s hs' cs hcs
            simp [Node.startPos?, Node.attrs?, Attrs.start] at hs'
            rw [markNodeF_node_startPos] at hcs
            subst hs'
            exact childStartsOk_root hcso hcn rfl hcs
          · intro e he ce hce
            simp [Node.endPos?, Node.attrs?] at he
            obtain ⟨t, ht, hte⟩ :=
              endTokF fuel kv.1 _ _ hs (hokc hok.2).1 _ (self_mem_allNodes _) ce hce
            subst hte
            rw [← he]
            exact markStart_window_ends_le hpw hok.1 t ht
        · obtain ⟨kv, hkv, hk, hv, h1, h2, hokc⟩ := markFoldPairs_mem hq
          rw [h2]
          have hcn : kv.2 ∈ (Node.dictE a0 pairs).childNodes := by
            show kv.2 ∈ pairs.toList.map (fun q => q.1) ++ pairs.toList.map (fun q => q.2)
            exact List.mem_append_right _ (List.mem_map_of_mem _ hkv)
          have hs : nsize kv.2 ≤ fuel := by
            have := nsize_child_lt hcn
            omega
          constructor
          · intro s hs' cs hcs
            simp [Node.startPos?, Node.attrs?, Attrs.start] at hs'
            rw [markNodeF_node_startPos] at hcs
            subst hs'
            exact childStartsOk_root hcso hcn rfl hcs
          · intro e he ce hce
            simp [Node.endPos?, Node.attrs?] at he
            obtain ⟨t, ht, hte⟩ :=
              endTokF fuel kv.2 _ _ hs (hokc hok.2).2 _ (self_mem_allNodes _) ce hce
            subst hte
            rw [← he]
            exact markStart_window_ends_le hpw hok.1 t ht
      · simp only [Node.childNodes, npairToList_ofList, List.mem_append,
          List.mem_map] at hc1
        rcases hc1 with ⟨q, hq, rfl⟩ | ⟨q, hq, rfl⟩
        · obtain ⟨kv, hkv, hk, hv, h1, h2, hokc⟩ := markFoldPairs_mem hq
          rw [h1] at hm
          have hcn : kv.1 ∈ (Node.dictE a0 pairs).childNodes := by
            show kv.1 ∈ pairs.toList.map (fun q => q.1) ++ pairs.toList.map (fun q => q.2)
            exact List.mem_append_left _ (List.mem_map_of_mem _ hkv)
          have hs : nsize kv.1 ≤ fuel := by
            have := nsize_child_lt hcn
            omega
          exact ih kv.1 _ hk hs hpw2 (childStartsOk_child hcso hcn)
            (hokc hok.2).1 m hm c hcm
        · obtain ⟨kv, hkv, hk, hv, h1, h2, hokc⟩ := markFoldPairs_mem hq
          rw [h2] at hm
          have hcn : kv.2 ∈ (Node.dictE a0 pairs).childNodes := by
            show kv.2 ∈ pairs.toList.map (fun q => q.1) ++ pairs.toList.map (fun q => q.2)
            exact List.mem_append_right _ (List.mem_map_of_mem _ hkv)
          have hs : nsize kv.2 ≤ fuel := by
            have := nsize_child_lt hcn
            omega
          exact ih kv.2 _ hv hs hpw2 (childStartsOk_child hcso hcn)
            (hokc hok.2).2 m hm c hcm

/-- C2: for every tree whose positioned children start no earlier than
their parents (childStartsOk, a fact of every parser-produced tree), every
token stream with non-decreasing token ends (endsChainB, a fact of every
tokenizer-produced stream) and every horizon, if the reconstruction run
succeeds on every node (no degenerate fallback fired), then every
parent/child pair of positioned nodes of the marked tree satisfies
containment: parent.start <= child.start and child.end <= parent.end,
both lexicographic on (line, column) and non-strict. -/
theorem claim_C2_parent_child_containment (n : Node) (tokens : List Token) (p : Pos)
    (hends : endsChainB tokens = true)
    (hcso : childStartsOk n = true)
    (hok : (markNode n tokens p).ok = true) :
    ∀ m ∈ allNodes (markNode n tokens p).node, ∀ c ∈ m.childNodes,
      (∀ s, m.startPos? = some s → ∀ cs, c.startPos? = some cs →
        posLe s cs = true) ∧
      (∀ e, m.endPos? = some e → ∀ ce, c.endPos? = some ce →
        posLe ce e = true) :=
  containsF (nsize n) n tokens p (Nat.le_refl _) (endsChainB_pairwise hends) hcso hok

/-- Witness for C2 at the concrete x = 1 + 2 scenario. -/
theorem claim_C2_witness :
    endsChainB toks6 = true ∧ childStartsOk tree6 = true ∧
    (markNode tree6 toks6 ⟨1, 10⟩).ok = true ∧
    ∀ m ∈ allNodes (markNode tree6 toks6 ⟨1, 10⟩).node, ∀ c ∈ m.childNodes,
      (∀ s, m.startPos? = some s → ∀ cs, c.startPos? = some cs →
        posLe s cs = true) ∧
      (∀ e, m.endPos? = some e → ∀ ce, c.endPos? = some ce →
        posLe ce e = true) :=
  ⟨by rfl, by rfl, by rfl,
    claim_C2_parent_child_containment tree6 toks6 ⟨1, 10⟩ (by rfl) (by rfl) (by rfl)⟩

/-! ### C8 development: idempotence of the reconstruction -/

theorem set_real_end_trim_congr {n n' : Node} (h1 : n.isStmt = n'.isStmt)
    (h2 : n.isTuple = n'.isTuple) (w : List Token) :
    set_real_end_trim n w = set_real_end_trim n' w := by
  unfold set_real_end_trim
  rw [h1, h2]

theorem set_real_end_peel_congr {n n' : Node} (h3 : n.isCallNoArgs = n'.isCallNoArgs)
    (h4 : n.isAttrE = n'.isAttrE) (l : List Token) (t : Token) :
    set_real_end_peel n l t = set_real_end_peel n' l t := by
  unfold set_real_end_peel
  rw [h3, h4]

/-- _set_real_end inspects its node only through the four kind tests, so
two nodes agreeing on them are trimmed identically. -/
theorem set_real_end_congr {n n' : Node} (h1 : n.isStmt = n'.isStmt)
    (h2 : n.isTuple = n'.isTuple) (h3 : n.isCallNoArgs = n'.isCallNoArgs)
    (h4 : n.isAttrE = n'.isAttrE) (w : List Token) :
    set_real_end n w = set_real_end n' w := by
  unfold set_real_end
  rw [set_real_end_trim_congr h1 h2 w]
  cases htr : set_real_end_trim n' w with
  | none => simp only [htr]
  | some l =>
    simp only [htr]
    cases hg : l.getLast? with
    | none => simp only [hg]
    | some t =>
      simp only [hg]
      exact set_real_end_peel_congr h3 h4 l t

/-- The per-node prologue depends only on the node's start coordinates and
its four kind tests. -/
theorem markStart_congr {a a' : Attrs} {n n' : Node}
    (hl : a.lineno = a'.lineno) (hc : a.col_offset = a'.col_offset)
    (h1 : n.isStmt = n'.isStmt) (h2 : n.isTuple = n'.isTuple)
    (h3 : n.isCallNoArgs = n'.isCallNoArgs) (h4 : n.isAttrE = n'.isAttrE)
    (tokens : List Token) (p : Pos) :
    markStart a n tokens p = markStart a' n' tokens p := by
  simp only [markStart]
  rw [hl, hc, set_real_end_congr h1 h2 h3 h4]

theorem isEmpty_congr_length {l1 l2 : List Node} (h : l1.length = l2.length) :
    l1.isEmpty = l2.isEmpty := by
  cases l1 <;> cases l2 <;> simp_all [List.isEmpty]

/-- Re-running the right-to-left sweep over its own output reproduces it,
as soon as each member's marking is idempotent at every horizon. -/
theorem markFold_idem {mark : Node → List Token → Pos → MarkResult}
    {tokens : List Token} :
    ∀ {cs : List Node} {p : Pos},
    (∀ c ∈ cs, ∀ q : Pos, mark (mark c tokens q).node tokens q = mark c tokens q) →
    markFold mark tokens (markFold mark tokens cs p).1 p = markFold mark tokens cs p := by
  intro cs
  induction cs with
  | nil => intro p _; simp [markFold_nil]
  | cons c rest ih =>
    intro p h
    have ihr := ih (p := p) (fun x hx q => h x (by simp [hx]) q)
    simp only [markFold_cons]
    rw [ihr, h c (by simp) ((markFold mark tokens rest p).2.1)]

theorem markFoldTagged_idem {mark : Node → List Token → Pos → MarkResult}
    {tokens : List Token} :
    ∀ {tcs : List (Nat × Node)} {p : Pos},
    (∀ q ∈ tcs, ∀ h' : Pos, mark (mark q.2 tokens h').node tokens h' = mark q.2 tokens h') →
    markFoldTagged mark tokens (markFoldTagged mark tokens tcs p).1 p =
      markFoldTagged mark tokens tcs p := by
  intro tcs
  induction tcs with
  | nil => intro p _; simp [markFoldTagged_nil]
  | cons c rest ih =>
    intro p h
    have ihr := ih (p := p) (fun x hx q => h x (by simp [hx]) q)
    simp only [markFoldTagged_cons]
    rw [ihr, h c (by simp) ((markFoldTagged mark tokens rest p).2.1)]

theorem markFoldPairs_idem {mark : Node → List Token → Pos → MarkResult}
    {tokens : List Token} :
    ∀ {ps : List (Node × Node)} {p : Pos},
    (∀ kv ∈ ps, ∀ h' : Pos,
      mark (mark kv.1 tokens h').node tokens h' = mark kv.1 tokens h' ∧
      mark (mark kv.2 tokens h').node tokens h' = mark kv.2 tokens h') →
    markFoldPairs mark tokens (markFoldPairs mark tokens ps p).1 p =
      markFoldPairs mark tokens ps p := by
  intro ps
  induction ps with
  | nil => intro p _; simp [markFoldPairs_nil]
  | cons kv rest ih =>
    intro p h
    have ihr := ih (p := p) (fun x hx q => h x (by simp [hx]) q)
    simp only [markFoldPairs_cons]
    rw [ihr, (h kv (by simp) ((markFoldPairs mark tokens rest p).2.1)).2,
      (h kv (by simp) ((mark kv.2 tokens
        (markFoldPairs mark tokens rest p).2.1).pos)).1]

/-- The enumeration of a range-map, re-expressed over any list of the same
length (slot indices with looked-up values). -/
theorem enum_range_map (g : Nat → Node) (L : List Node) :
    ((List.range L.length).map g).enum = L.enum.map (fun q => (q.1, g q.1)) := by
  apply List.ext_getElem
  · simp [List.enum_length]
  · intro i h1 h2
    have hi2 : i < L.length := by simpa [List.enum_length] using h1
    simp [List.getElem_enum, List.getElem_map, List.getElem_range]

theorem orderedInsert_map_key_eq (φ : Nat × Node → Nat × Node)
    (x : Nat × Node) (hx : keyOf (φ x).2 = keyOf x.2) :
    ∀ l : List (Nat × Node), (∀ y ∈ l, keyOf (φ y).2 = keyOf y.2) →
    List.orderedInsert taggedKeyLe (φ x) (l.map φ) =
      (List.orderedInsert taggedKeyLe x l).map φ := by
  intro l
  induction l with
  | nil => intro _; rfl
  | cons y t ih =>
    intro hl
    simp only [List.map_cons, List.orderedInsert]
    by_cases h : taggedKeyLe x y
    · have hxy : taggedKeyLe (φ x) (φ y) := by
        show posLe (keyOf (φ x).2) (keyOf (φ y).2) = true
        rw [hx, hl y (by simp)]
        exact h
      rw [if_pos h, if_pos hxy]
      simp
    · have hxy : ¬taggedKeyLe (φ x) (φ y) := by
        intro hc
        apply h
        show posLe (keyOf x.2) (keyOf y.2) = true
        rw [← hx, ← hl y (by simp)]
        exact hc
      rw [if_neg h, if_neg hxy, List.map_cons, ih (fun z hz => hl z (by simp [hz]))]

/-- A key-preserving slot relabelling commutes with the stable sort. -/
theorem insertionSort_map_key_eq (φ : Nat × Node → Nat × Node) :
    ∀ l : List (Nat × Node), (∀ y ∈ l, keyOf (φ y).2 = keyOf y.2) →
    List.insertionSort taggedKeyLe (l.map φ) =
      (List.insertionSort taggedKeyLe l).map φ := by
  intro l
  induction l with
  | nil => intro _; rfl
  | cons x t ih =>
    intro hl
    simp only [List.map_cons, List.insertionSort]
    rw [ih (fun z hz => hl z (by simp [hz]))]
    exact orderedInsert_map_key_eq φ x (hl x (by simp)) (List.insertionSort taggedKeyLe t)
      (fun y hy => hl y (by
        simp [(List.perm_insertionSort taggedKeyLe t).mem_iff.mp hy]))

/-- Looking every slot of a tag-faithful list back up in a nodup-tagged
association list reproduces that list. -/
theorem map_lookup_self {rm1 A : List (Nat × Node)} (hnd : (rm1.map Prod.fst).Nodup)
    (hfst : A.map Prod.fst = rm1.map Prod.fst) :
    A.map (fun q => (q.1, lookupTag rm1 q.1)) = rm1 := by
  have hlen : A.length = rm1.length := by
    have h := congrArg List.length hfst
    simpa using h
  apply List.ext_getElem
  · simpa using hlen
  · intro i h1 h2
    have hiA : i < A.length := by simpa using h1
    have hf : A[i].1 = rm1[i].1 := by
      have h3 := congrArg (fun l => l[i]?) hfst
      simp only [List.getElem?_map] at h3
      rw [List.getElem?_eq_getElem hiA, List.getElem?_eq_getElem h2] at h3
      simpa using h3
    rw [List.getElem_map]
    have hl : lookupTag rm1 rm1[i].1 = rm1[i].2 :=
      lookupTag_of_nodup hnd (by rw [Prod.mk.eta]; exact List.getElem_mem h2)
    rw [hf, hl]

theorem markFoldTagged_mem_of_mem {mark : Node → List Token → Pos → MarkResult}
    {tokens : List Token} :
    ∀ {tcs : List (Nat × Node)} {p : Pos} {j : Nat} {c : Node}, (j, c) ∈ tcs →
    ∃ h : Pos, (j, (mark c tokens h).node) ∈ (markFoldTagged mark tokens tcs p).1 := by
  intro tcs
  induction tcs with
  | nil =>
    intro p j c hj
    simp at hj
  | cons q t ih =>
    intro p j c hj
    rcases List.mem_cons.mp hj with heq | hj2
    · subst heq
      refine ⟨(markFoldTagged mark tokens t p).2.1, ?_⟩
      rw [markFoldTagged_cons]
      exact List.mem_cons_self _ _
    · obtain ⟨h, hmem⟩ := ih hj2
      refine ⟨h, ?_⟩
      rw [markFoldTagged_cons]
      exact List.mem_cons_of_mem _ hmem

theorem call_tags_perm (fuel : Nat) (f : Node) (args kws : NodeList)
    (w : List Token) (p : Pos) :
    (((markFoldTagged (markNodeF fuel) w (callSorted f args kws) p).1.map
      Prod.fst)).Perm (List.range (callChildList f args kws).length) := by
  rw [(markFoldTagged_eq (markNodeF fuel) w (callSorted f args kws) p).1]
  have hp : (callSorted f args kws).Perm (callChildList f args kws).enum :=
    List.perm_insertionSort taggedKeyLe _
  have hp2 := hp.map Prod.fst
  rwa [List.enum_map_fst] at hp2

theorem call_tags_nodup (fuel : Nat) (f : Node) (args kws : NodeList)
    (w : List Token) (p : Pos) :
    (((markFoldTagged (markNodeF fuel) w (callSorted f args kws) p).1.map
      Prod.fst)).Nodup :=
  (call_tags_perm fuel f args kws w p).nodup_iff.mpr (List.nodup_range _)

/-- The slot rebuild of the marked Call children is a permutation of the
marked children themselves. -/
theorem call_rebuild_perm (fuel : Nat) (f : Node) (args kws : NodeList)
    (w : List Token) (p : Pos) :
    ((List.range (args.toList.length + kws.toList.length + 1)).map
      (lookupTag (markFoldTagged (markNodeF fuel) w (callSorted f args kws) p).1)).Perm
    ((markFoldTagged (markNodeF fuel) w (callSorted f args kws) p).1.map Prod.snd) := by
  have htags : (((markFoldTagged (markNodeF fuel) w (callSorted f args kws) p).1.map
      Prod.fst)).Perm (List.range (args.toList.length + kws.toList.length + 1)) := by
    have h := call_tags_perm fuel f args kws w p
    have hlen : (callChildList f args kws).length =
        args.toList.length + kws.toList.length + 1 := by
      simp [callChildList]
    rwa [hlen] at h
  have hnd := call_tags_nodup fuel f args kws w p
  have h2 : (((markFoldTagged (markNodeF fuel) w (callSorted f args kws) p).1.map
      Prod.fst)).map (lookupTag (markFoldTagged (markNodeF fuel) w
        (callSorted f args kws) p).1) =
      (markFoldTagged (markNodeF fuel) w (callSorted f args kws) p).1.map Prod.snd := by
    rw [List.map_map]
    apply List.map_congr_left
    intro q hq
    show lookupTag _ q.1 = q.2
    exact lookupTag_of_nodup hnd (by rwa [Prod.mk.eta])
  have h1 := (htags.symm).map (lookupTag (markFoldTagged (markNodeF fuel) w
    (callSorted f args kws) p).1)
  rwa [h2] at h1

/-! ### Size preservation of the marking (for the fuel of the second run) -/

theorem nsizeL_ofList_map : ∀ l : List Node,
    nsizeL (NodeList.ofList l) = (l.map nsize).sum
  | [] => rfl
  | x :: rest => by simp [NodeList.ofList, nsizeL, nsizeL_ofList_map rest]

theorem nsizeP_ofList_map : ∀ l : List (Node × Node),
    nsizeP (NodePairList.ofList l) = (l.map (fun q => nsize q.1 + nsize q.2)).sum
  | [] => rfl
  | kv :: rest => by simp [NodePairList.ofList, nsizeP, nsizeP_ofList_map rest]

theorem nsizeL_toList_sum : ∀ ts : NodeList, (ts.toList.map nsize).sum = nsizeL ts
  | .nil => rfl
  | .cons h t => by
    simp [NodeList.toList, nsizeL, nsizeL_toList_sum t]

theorem nsizeP_toList_sum :
    ∀ ps : NodePairList, (ps.toList.map (fun q => nsize q.1 + nsize q.2)).sum = nsizeP ps
  | .pnil => rfl
  | .pcons k v t => by
    simp [NodePairList.toList, nsizeP, nsizeP_toList_sum t]

theorem markFold_map_nsize (mark : Node → List Token → Pos → MarkResult)
    (tokens : List Token) :
    ∀ (cs : List Node) (p : Pos),
    (∀ c ∈ cs, ∀ toks q, nsize (mark c toks q).node = nsize c) →
    (markFold mark tokens cs p).1.map nsize = cs.map nsize := by
  intro cs
  induction cs with
  | nil => intro p _; rfl
  | cons c rest ih =>
    intro p h
    rw [markFold_cons]
    simp only [List.map_cons]
    rw [h c (by simp) tokens _, ih p (fun x hx => h x (by simp [hx]))]

theorem markFoldPairs_map_nsize (mark : Node → List Token → Pos → MarkResult)
    (tokens : List Token) :
    ∀ (ps : List (Node × Node)) (p : Pos),
    (∀ kv ∈ ps, ∀ toks q, nsize (mark kv.1 toks q).node = nsize kv.1 ∧
      nsize (mark kv.2 toks q).node = nsize kv.2) →
    (markFoldPairs mark tokens ps p).1.map (fun q => nsize q.1 + nsize q.2) =
      ps.map (fun q => nsize q.1 + nsize q.2) := by
  intro ps
  induction ps with
  | nil => intro p _; rfl
  | cons kv rest ih =>
    intro p h
    rw [markFoldPairs_cons]
    simp only [List.map_cons]
    rw [(h kv (by simp) tokens _).1, (h kv (by simp) tokens _).2,
      ih p (fun x hx => h x (by simp [hx]))]

/-- Marking never changes the size of the tree (the Call rebuild
redistributes the same children over the same slots). -/
theorem nsize_mark : ∀ (fuel : Nat) (n : Node) (tokens : List Token) (p : Pos),
    nsize n ≤ fuel → nsize (markNodeF fuel n tokens p).node = nsize n := by
  intro fuel
  induction fuel with
  | zero =>
    intro n tokens p hsz
    have := nsize_pos n
    omega
  | succ fuel ih =>
    intro n tokens p hsz
    cases n with
    | module body =>
      simp only [markNodeF_module, nsize, nsizeL_ofList_map]
      rw [markFold_map_nsize (markNodeF fuel) tokens body.toList p
        (fun c hc toks q => ih c toks q (by
          have := nsize_le_of_mem_toList body c hc
          simp only [nsize] at hsz
          omega))]
      rw [nsizeL_toList_sum]
    | exprS a0 v =>
      simp only [markNodeF_exprS, nsize]
      rw [ih v _ p (by simp only [nsize] at hsz; omega)]
    | assignS a0 ts v =>
      simp only [markNodeF_assignS, nsize, nsizeL_ofList_map]
      rw [markFold_map_nsize (markNodeF fuel) _ ts.toList _
        (fun c hc toks q => ih c toks q (by
          have := nsize_le_of_mem_toList ts c hc
          simp only [nsize] at hsz
          omega))]
      rw [nsizeL_toList_sum, ih v _ p (by simp only [nsize] at hsz; omega)]
    | callE a0 f args kws =>
      have hpt : ∀ c ∈ List.insertionSort keyLe (callChildList f args kws),
          ∀ toks q, nsize (markNodeF fuel c toks q).node = nsize c := by
        intro c hc toks q
        apply ih
        have hmem : c ∈ callChildList f args kws :=
          (List.perm_insertionSort keyLe _).mem_iff.mp hc
        simp only [callChildList, List.mem_cons, List.mem_append] at hmem
        simp only [nsize] at hsz
        rcases hmem with rfl | hm | hm
        · omega
        · have := nsize_le_of_mem_toList args c hm
          omega
        · have := nsize_le_of_mem_toList kws c hm
          omega
      simp only [markNodeF_callE, nsize, nsizeL_ofList_map]
      have hperm := call_rebuild_perm fuel f args kws
        (markStart a0 (.callE a0 f args kws) tokens p).2.1 p
      have hsum := (hperm.map nsize).sum_eq
      rw [range_map_split] at hsum
      simp only [List.map_cons, List.map_append, List.sum_cons, List.sum_append] at hsum
      have hsnd : ((markFoldTagged (markNodeF fuel)
          (markStart a0 (.callE a0 f args kws) tokens p).2.1
          (callSorted f args kws) p).1.map Prod.snd).map nsize =
          (List.insertionSort keyLe (callChildList f args kws)).map nsize := by
        rw [(markFoldTagged_eq (markNodeF fuel)
          (markStart a0 (.callE a0 f args kws) tokens p).2.1
          (callSorted f args kws) p).2.1, callSorted_map_snd]
        exact markFold_map_nsize (markNodeF fuel) _ _ p hpt
      have hsnd_sum := congrArg List.sum hsnd
      have hsort : ((List.insertionSort keyLe (callChildList f args kws)).map nsize).sum =
          ((callChildList f args kws).map nsize).sum :=
        ((List.perm_insertionSort keyLe _).map nsize).sum_eq
      have hL : ((callChildList f args kws).map nsize).sum =
          nsize f + ((args.toList.map nsize).sum + (kws.toList.map nsize).sum) := by
        simp [callChildList]
      have hargs := nsizeL_toList_sum args
      have hkws := nsizeL_toList_sum kws
      omega
    | binOpE a0 l op r =>
      simp only [markNodeF_binOpE, nsize]
      rw [ih r _ p (by simp only [nsize] at hsz; omega),
        ih l _ _ (by simp only [nsize] at hsz; omega)]
    | nameE a0 s => rfl
    | numE a0 v => rfl
    | strE a0 s => rfl
    | attrE a0 v s =>
      simp only [markNodeF_attrE, nsize]
      rw [ih v _ p (by simp only [nsize] at hsz; omega)]
    | tupleE a0 elts =>
      simp only [markNodeF_tupleE, nsize, nsizeL_ofList_map]
      rw [markFold_map_nsize (markNodeF fuel) _ elts.toList p
        (fun c hc toks q => ih c toks q (by
          have := nsize_le_of_mem_toList elts c hc
          simp only [nsize] at hsz
          omega))]
      rw [nsizeL_toList_sum]
    | dictE a0 pairs =>
      simp only [markNodeF_dictE, nsize, nsizeP_ofList_map]
      rw [markFoldPairs_map_nsize (markNodeF fuel) _ pairs.toList p
        (fun kv hkv toks q => by
          have := nsize_le_of_mem_ptoList pairs kv.1 kv.2 (by simpa using hkv)
          simp only [nsize] at hsz
          exact ⟨ih kv.1 toks q (by omega), ih kv.2 toks q (by omega)⟩)]
      rw [nsizeP_toList_sum]

/-- The Call case of the idempotence induction: re-running the pass on the
rebuilt Call node re-sorts the same children to the same order, re-marks
them identically and writes them back to the same slots. -/
theorem callE_idem_step (fuel : Nat) (a0 : Attrs) (f : Node) (args kws : NodeList)
    (tokens : List Token) (p : Pos)
    (hsz : nsize (.callE a0 f args kws) ≤ fuel + 1)
    (ih : ∀ (m : Node) (toks : List Token) (q : Pos), nsize m ≤ fuel →
      markNodeF fuel ((markNodeF fuel m toks q).node) toks q = markNodeF fuel m toks q) :
    markNodeF (fuel + 1) ((markNodeF (fuel + 1) (.callE a0 f args kws) tokens p).node)
      tokens p = markNodeF (fuel + 1) (.callE a0 f args kws) tokens p := by
  have hnd := call_tags_nodup fuel f args kws
    (markStart a0 (.callE a0 f args kws) tokens p).2.1 p
  have hstmt : (Node.callE {a0 with endPos := some (markStart a0 (.callE a0 f args kws) tokens p).1}
      (lookupTag (markFoldTagged (markNodeF fuel) (markStart a0 (.callE a0 f args kws) tokens p).2.1 (callSorted f args kws) p).1 0)
      (NodeList.ofList ((List.range args.toList.length).map (fun i => lookupTag (markFoldTagged (markNodeF fuel) (markStart a0 (.callE a0 f args kws) tokens p).2.1 (callSorted f args kws) p).1 (1 + i))))
      (NodeList.ofList ((List.range kws.toList.length).map (fun i => lookupTag (markFoldTagged (markNodeF fuel) (markStart a0 (.callE a0 f args kws) tokens p).2.1 (callSorted f args kws) p).1 (1 + args.toList.length + i))))).isStmt =
      (Node.callE a0 f args kws).isStmt := rfl
  have htup : (Node.callE {a0 with endPos := some (markStart a0 (.callE a0 f args kws) tokens p).1}
      (lookupTag (markFoldTagged (markNodeF fuel) (markStart a0 (.callE a0 f args kws) tokens p).2.1 (callSorted f args kws) p).1 0)
      (NodeList.ofList ((List.range args.toList.length).map (fun i => lookupTag (markFoldTagged (markNodeF fuel) (markStart a0 (.callE a0 f args kws) tokens p).2.1 (callSorted f args kws) p).1 (1 + i))))
      (NodeList.ofList ((List.range kws.toList.length).map (fun i => lookupTag (markFoldTagged (markNodeF fuel) (markStart a0 (.callE a0 f args kws) tokens p).2.1 (callSorted f args kws) p).1 (1 + args.toList.length + i))))).isTuple =
      (Node.callE a0 f args kws).isTuple := rfl
  have hattr : (Node.callE {a0 with endPos := some (markStart a0 (.callE a0 f args kws) tokens p).1}
      (lookupTag (markFoldTagged (markNodeF fuel) (markStart a0 (.callE a0 f args kws) tokens p).2.1 (callSorted f args kws) p).1 0)
      (NodeList.ofList ((List.range args.toList.length).map (fun i => lookupTag (markFoldTagged (markNodeF fuel) (markStart a0 (.callE a0 f args kws) tokens p).2.1 (callSorted f args kws) p).1 (1 + i))))
      (NodeList.ofList ((List.range kws.toList.length).map (fun i => lookupTag (markFoldTagged (markNodeF fuel) (markStart a0 (.callE a0 f args kws) tokens p).2.1 (callSorted f args kws) p).1 (1 + args.toList.length + i))))).isAttrE =
      (Node.callE a0 f args kws).isAttrE := rfl
  have hcall : (Node.callE {a0 with endPos := some (markStart a0 (.callE a0 f args kws) tokens p).1}
      (lookupTag (markFoldTagged (markNodeF fuel) (markStart a0 (.callE a0 f args kws) tokens p).2.1 (callSorted f args kws) p).1 0)
      (NodeList.ofList ((List.range args.toList.length).map (fun i => lookupTag (markFoldTagged (markNodeF fuel) (markStart a0 (.callE a0 f args kws) tokens p).2.1 (callSorted f args kws) p).1 (1 + i))))
      (NodeList.ofList ((List.range kws.toList.length).map (fun i => lookupTag (markFoldTagged (markNodeF fuel) (markStart a0 (.callE a0 f args kws) tokens p).2.1 (callSorted f args kws) p).1 (1 + args.toList.length + i))))).isCallNoArgs =
      (Node.callE a0 f args kws).isCallNoArgs := by
    show ((NodeList.ofList _).toList.isEmpty && (NodeList.ofList _).toList.isEmpty) =
      (args.toList.isEmpty && kws.toList.isEmpty)
    rw [nlistToList_ofList, nlistToList_ofList]
    congr 1
    · exact isEmpty_congr_length (by simp)
    · exact isEmpty_congr_length (by simp)
  have hpr : markStart {a0 with endPos := some (markStart a0 (.callE a0 f args kws) tokens p).1}
      (.callE {a0 with endPos := some (markStart a0 (.callE a0 f args kws) tokens p).1}
        (lookupTag (markFoldTagged (markNodeF fuel) (markStart a0 (.callE a0 f args kws) tokens p).2.1 (callSorted f args kws) p).1 0)
        (NodeList.ofList ((List.range args.toList.length).map (fun i => lookupTag (markFoldTagged (markNodeF fuel) (markStart a0 (.callE a0 f args kws) tokens p).2.1 (callSorted f args kws) p).1 (1 + i))))
        (NodeList.ofList ((List.range kws.toList.length).map (fun i => lookupTag (markFoldTagged (markNodeF fuel) (markStart a0 (.callE a0 f args kws) tokens p).2.1 (callSorted f args kws) p).1 (1 + args.toList.length + i))))) tokens p =
      markStart a0 (.callE a0 f args kws) tokens p :=
    markStart_congr rfl rfl hstmt htup hcall hattr tokens p
  have hCN : callChildList (lookupTag (markFoldTagged (markNodeF fuel) (markStart a0 (.callE a0 f args kws) tokens p).2.1 (callSorted f args kws) p).1 0)
      (NodeList.ofList ((List.range args.toList.length).map (fun i => lookupTag (markFoldTagged (markNodeF fuel) (markStart a0 (.callE a0 f args kws) tokens p).2.1 (callSorted f args kws) p).1 (1 + i))))
      (NodeList.ofList ((List.range kws.toList.length).map (fun i => lookupTag (markFoldTagged (markNodeF fuel) (markStart a0 (.callE a0 f args kws) tokens p).2.1 (callSorted f args kws) p).1 (1 + args.toList.length + i)))) =
      (List.range (args.toList.length + kws.toList.length + 1)).map
        (lookupTag (markFoldTagged (markNodeF fuel) (markStart a0 (.callE a0 f args kws) tokens p).2.1 (callSorted f args kws) p).1) := by
    show lookupTag (markFoldTagged (markNodeF fuel) (markStart a0 (.callE a0 f args kws) tokens p).2.1 (callSorted f args kws) p).1 0 ::
      ((NodeList.ofList _).toList ++ (NodeList.ofList _).toList) = _
    rw [nlistToList_ofList, nlistToList_ofList, range_map_split]
  have henum : (callChildList (lookupTag (markFoldTagged (markNodeF fuel) (markStart a0 (.callE a0 f args kws) tokens p).2.1 (callSorted f args kws) p).1 0)
      (NodeList.ofList ((List.range args.toList.length).map (fun i => lookupTag (markFoldTagged (markNodeF fuel) (markStart a0 (.callE a0 f args kws) tokens p).2.1 (callSorted f args kws) p).1 (1 + i))))
      (NodeList.ofList ((List.range kws.toList.length).map (fun i => lookupTag (markFoldTagged (markNodeF fuel) (markStart a0 (.callE a0 f args kws) tokens p).2.1 (callSorted f args kws) p).1 (1 + args.toList.length + i))))).enum =
      (callChildList f args kws).enum.map (fun q => (q.1, lookupTag (markFoldTagged (markNodeF fuel) (markStart a0 (.callE a0 f args kws) tokens p).2.1 (callSorted f args kws) p).1 q.1)) := by
    rw [hCN]
    have hN : args.toList.length + kws.toList.length + 1 =
        (callChildList f args kws).length := by
      simp [callChildList]
    rw [hN]
    exact enum_range_map (lookupTag (markFoldTagged (markNodeF fuel) (markStart a0 (.callE a0 f args kws) tokens p).2.1 (callSorted f args kws) p).1) (callChildList f args kws)
  have hkeys : ∀ q ∈ (callChildList f args kws).enum,
      keyOf ((fun q => (q.1, lookupTag (markFoldTagged (markNodeF fuel) (markStart a0 (.callE a0 f args kws) tokens p).2.1 (callSorted f args kws) p).1 q.1)) q).2 = keyOf q.2 := by
    intro q hq
    show keyOf (lookupTag (markFoldTagged (markNodeF fuel) (markStart a0 (.callE a0 f args kws) tokens p).2.1 (callSorted f args kws) p).1 q.1) = keyOf q.2
    have hqs : (q.1, q.2) ∈ callSorted f args kws := by
      rw [Prod.mk.eta]
      exact (List.perm_insertionSort taggedKeyLe
        ((callChildList f args kws).enum)).mem_iff.mpr hq
    obtain ⟨h2, hmem⟩ := markFoldTagged_mem_of_mem hqs
    rw [lookupTag_of_nodup hnd hmem]
    unfold keyOf
    rw [markNodeF_node_startPos]
  have hsorted : callSorted (lookupTag (markFoldTagged (markNodeF fuel) (markStart a0 (.callE a0 f args kws) tokens p).2.1 (callSorted f args kws) p).1 0)
      (NodeList.ofList ((List.range args.toList.length).map (fun i => lookupTag (markFoldTagged (markNodeF fuel) (markStart a0 (.callE a0 f args kws) tokens p).2.1 (callSorted f args kws) p).1 (1 + i))))
      (NodeList.ofList ((List.range kws.toList.length).map (fun i => lookupTag (markFoldTagged (markNodeF fuel) (markStart a0 (.callE a0 f args kws) tokens p).2.1 (callSorted f args kws) p).1 (1 + args.toList.length + i)))) = (markFoldTagged (markNodeF fuel) (markStart a0 (.callE a0 f args kws) tokens p).2.1 (callSorted f args kws) p).1 := by
    show List.insertionSort taggedKeyLe (callChildList (lookupTag (markFoldTagged (markNodeF fuel) (markStart a0 (.callE a0 f args kws) tokens p).2.1 (callSorted f args kws) p).1 0)
      (NodeList.ofList ((List.range args.toList.length).map (fun i => lookupTag (markFoldTagged (markNodeF fuel) (markStart a0 (.callE a0 f args kws) tokens p).2.1 (callSorted f args kws) p).1 (1 + i))))
      (NodeList.ofList ((List.range kws.toList.length).map (fun i => lookupTag (markFoldTagged (markNodeF fuel) (markStart a0 (.callE a0 f args kws) tokens p).2.1 (callSorted f args kws) p).1 (1 + args.toList.length + i))))).enum = _
    rw [henum, insertionSort_map_key_eq _ _ hkeys]
    exact map_lookup_self hnd
      ((markFoldTagged_eq (markNodeF fuel)
        (markStart a0 (.callE a0 f args kws) tokens p).2.1
        (callSorted f args kws) p).1).symm
  have hidem : markFoldTagged (markNodeF fuel)
      (markStart a0 (.callE a0 f args kws) tokens p).2.1
      ((markFoldTagged (markNodeF fuel) (markStart a0 (.callE a0 f args kws) tokens p).2.1 (callSorted f args kws) p).1) p =
      markFoldTagged (markNodeF fuel)
        (markStart a0 (.callE a0 f args kws) tokens p).2.1
        (callSorted f args kws) p :=
    markFoldTagged_idem (fun q hq h2 => ih q.2 _ h2 (by
      have hmem : q.2 ∈ callChildList f args kws := mem_callSorted_snd hq
      simp only [callChildList, List.mem_cons, List.mem_append] at hmem
      simp only [nsize] at hsz
      rcases hmem with heq | hm | hm
      · rw [heq]
        omega
      · have := nsize_le_of_mem_toList args q.2 hm
        omega
      · have := nsize_le_of_mem_toList kws q.2 hm
        omega))
  simp only [markNodeF_callE, nlistToList_ofList, List.length_map, List.length_range]
  rw [hpr, hsorted, hidem]
  rfl


/-- Main induction for C8: marking an already-marked subtree with the same
token list and horizon reproduces the marked subtree exactly. -/
theorem idemF : ∀ (fuel : Nat) (n : Node) (tokens : List Token) (p : Pos),
    nsize n ≤ fuel →
    markNodeF fuel ((markNodeF fuel n tokens p).node) tokens p =
      markNodeF fuel n tokens p := by
  intro fuel
  induction fuel with
  | zero =>
    intro n tokens p hsz
    have := nsize_pos n
    omega
  | succ fuel ih =>
    intro n tokens p hsz
    cases n with
    | module body =>
      simp only [markNodeF_module, nlistToList_ofList]
      rw [markFold_idem (fun c hc q => ih c tokens q (by
        have := nsize_le_of_mem_toList body c hc
        simp only [nsize] at hsz
        omega))]
    | exprS a0 v =>
      have hsv : nsize v ≤ fuel := by simp only [nsize] at hsz; omega
      simp only [markNodeF_exprS]
      have hpr : markStart
          {a0 with endPos := some (markStart a0 (.exprS a0 v) tokens p).1}
          (.exprS {a0 with endPos := some (markStart a0 (.exprS a0 v) tokens p).1}
            (markNodeF fuel v (markStart a0 (.exprS a0 v) tokens p).2.1 p).node)
          tokens p =
          markStart a0 (.exprS a0 v) tokens p := by
        have hstmt : (Node.exprS
            {a0 with endPos := some (markStart a0 (.exprS a0 v) tokens p).1}
            (markNodeF fuel v (markStart a0 (.exprS a0 v) tokens p).2.1 p).node).isStmt =
            (Node.exprS a0 v).isStmt := rfl
        exact markStart_congr rfl rfl hstmt rfl rfl rfl tokens p
      rw [hpr, ih v _ p hsv]
      rfl
    | assignS a0 ts v =>
      have hsv : nsize v ≤ fuel := by simp only [nsize] at hsz; omega
      simp only [markNodeF_assignS, nlistToList_ofList]
      have hpr : markStart
          {a0 with endPos := some (markStart a0 (.assignS a0 ts v) tokens p).1}
          (.assignS {a0 with endPos := some (markStart a0 (.assignS a0 ts v) tokens p).1}
            (NodeList.ofList (markFold (markNodeF fuel)
              (markStart a0 (.assignS a0 ts v) tokens p).2.1 ts.toList
              (markNodeF fuel v (markStart a0 (.assignS a0 ts v) tokens p).2.1 p).pos).1)
            (markNodeF fuel v (markStart a0 (.assignS a0 ts v) tokens p).2.1 p).node)
          tokens p =
          markStart a0 (.assignS a0 ts v) tokens p := by
        have hstmt : (Node.assignS
            {a0 with endPos := some (markStart a0 (.assignS a0 ts v) tokens p).1}
            (NodeList.ofList (markFold (markNodeF fuel)
              (markStart a0 (.assignS a0 ts v) tokens p).2.1 ts.toList
              (markNodeF fuel v (markStart a0 (.assignS a0 ts v) tokens p).2.1 p).pos).1)
            (markNodeF fuel v (markStart a0 (.assignS a0 ts v) tokens p).2.1 p).node).isStmt =
            (Node.assignS a0 ts v).isStmt := rfl
        exact markStart_congr rfl rfl hstmt rfl rfl rfl tokens p
      rw [hpr, ih v _ p hsv, markFold_idem (fun c hc q => ih c _ q (by
        have := nsize_le_of_mem_toList ts c hc
        simp only [nsize] at hsz
        omega))]
      rfl
    | callE a0 f args kws => exact callE_idem_step fuel a0 f args kws tokens p hsz ih
    | binOpE a0 l op r =>
      have hsl : nsize l ≤ fuel := by simp only [nsize] at hsz; omega
      have hsr : nsize r ≤ fuel := by simp only [nsize] at hsz; omega
      simp only [markNodeF_binOpE]
      have hpr : markStart
          {a0 with endPos := some (markStart a0 (.binOpE a0 l op r) tokens p).1}
          (.binOpE {a0 with endPos := some (markStart a0 (.binOpE a0 l op r) tokens p).1}
            (markNodeF fuel l (markStart a0 (.binOpE a0 l op r) tokens p).2.1
              (markNodeF fuel r (markStart a0 (.binOpE a0 l op r) tokens p).2.1 p).pos).node
            op
            (markNodeF fuel r (markStart a0 (.binOpE a0 l op r) tokens p).2.1 p).node)
          tokens p =
          markStart a0 (.binOpE a0 l op r) tokens p := by
        have hstmt : (Node.binOpE
            {a0 with endPos := some (markStart a0 (.binOpE a0 l op r) tokens p).1}
            (markNodeF fuel l (markStart a0 (.binOpE a0 l op r) tokens p).2.1
              (markNodeF fuel r (markStart a0 (.binOpE a0 l op r) tokens p).2.1 p).pos).node
            op
            (markNodeF fuel r (markStart a0 (.binOpE a0 l op r) tokens p).2.1 p).node).isStmt =
            (Node.binOpE a0 l op r).isStmt := rfl
        exact markStart_congr rfl rfl hstmt rfl rfl rfl tokens p
      rw [hpr, ih r _ p hsr, ih l _ _ hsl]
      rfl
    | nameE a0 s =>
      simp only [markNodeF_nameE]
      have hpr : markStart
          {a0 with endPos := some (markStart a0 (.nameE a0 s) tokens p).1}
          (.nameE {a0 with endPos := some (markStart a0 (.nameE a0 s) tokens p).1} s)
          tokens p =
          markStart a0 (.nameE a0 s) tokens p := by
        have hstmt : (Node.nameE
            {a0 with endPos := some (markStart a0 (.nameE a0 s) tokens p).1} s).isStmt =
            (Node.nameE a0 s).isStmt := rfl
        exact markStart_congr rfl rfl hstmt rfl rfl rfl tokens p
      rw [hpr]
      rfl
    | numE a0 v =>
      simp only [markNodeF_numE]
      have hpr : markStart
          {a0 with endPos := some (markStart a0 (.numE a0 v) tokens p).1}
          (.numE {a0 with endPos := some (markStart a0 (.numE a0 v) tokens p).1} v)
          tokens p =
          markStart a0 (.numE a0 v) tokens p := by
        have hstmt : (Node.numE
            {a0 with endPos := some (markStart a0 (.numE a0 v) tokens p).1} v).isStmt =
            (Node.numE a0 v).isStmt := rfl
        exact markStart_congr rfl rfl hstmt rfl rfl rfl tokens p
      rw [hpr]
      rfl
    | strE a0 s =>
      simp only [markNodeF_strE]
      have hpr : markStart
          {a0 with endPos := some (markStart a0 (.strE a0 s) tokens p).1}
          (.strE {a0 with endPos := some (markStart a0 (.strE a0 s) tokens p).1} s)
          tokens p =
          markStart a0 (.strE a0 s) tokens p := by
        have hstmt : (Node.strE
            {a0 with endPos := some (markStart a0 (.strE a0 s) tokens p).1} s).isStmt =
            (Node.strE a0 s).isStmt := rfl
        exact markStart_congr rfl rfl hstmt rfl rfl rfl tokens p
      rw [hpr]
      rfl
    | attrE a0 v s =>
      have hsv : nsize v ≤ fuel := by simp only [nsize] at hsz; omega
      simp only [markNodeF_attrE]
      have hpr : markStart
          {a0 with endPos := some (markStart a0 (.attrE a0 v s) tokens p).1}
          (.attrE {a0 with endPos := some (markStart a0 (.attrE a0 v s) tokens p).1}
            (markNodeF fuel v (markStart a0 (.attrE a0 v s) tokens p).2.1 p).node s)
          tokens p =
          markStart a0 (.attrE a0 v s) tokens p := by
        have hstmt : (Node.attrE
            {a0 with endPos := some (markStart a0 (.attrE a0 v s) tokens p).1}
            (markNodeF fuel v (markStart a0 (.attrE a0 v s) tokens p).2.1 p).node s).isStmt =
            (Node.attrE a0 v s).isStmt := rfl
        exact markStart_congr rfl rfl hstmt rfl rfl rfl tokens p
      rw [hpr, ih v _ p hsv]
      rfl
    | tupleE a0 elts =>
      simp only [markNodeF_tupleE, nlistToList_ofList]
      have hpr : markStart
          {a0 with endPos := some (markStart a0 (.tupleE a0 elts) tokens p).1}
          (.tupleE {a0 with endPos := some (markStart a0 (.tupleE a0 elts) tokens p).1}
            (NodeList.ofList (markFold (markNodeF fuel)
              (markStart a0 (.tupleE a0 elts) tokens p).2.1 elts.toList p).1))
          tokens p =
          markStart a0 (.tupleE a0 elts) tokens p := by
        have hstmt : (Node.tupleE
            {a0 with endPos := some (markStart a0 (.tupleE a0 elts) tokens p).1}
            (NodeList.ofList (markFold (markNodeF fuel)
              (markStart a0 (.tupleE a0 elts) tokens p).2.1 elts.toList p).1)).isStmt =
            (Node.tupleE a0 elts).isStmt := rfl
        exact markStart_congr rfl rfl hstmt rfl rfl rfl tokens p
      rw [hpr, markFold_idem (fun c hc q => ih c _ q (by
        have := nsize_le_of_mem_toList elts c hc
        simp only [nsize] at hsz
        omega))]
      rfl
    | dictE a0 pairs =>
      simp only [markNodeF_dictE, npairToList_ofList]
      have hpr : markStart
          {a0 with endPos := some (markStart a0 (.dictE a0 pairs) tokens p).1}
          (.dictE {a0 with endPos := some (markStart a0 (.dictE a0 pairs) tokens p).1}
            (NodePairList.ofList (markFoldPairs (markNodeF fuel)
              (markStart a0 (.dictE a0 pairs) tokens p).2.1 pairs.toList p).1))
          tokens p =
          markStart a0 (.dictE a0 pairs) tokens p := by
        have hstmt : (Node.dictE
            {a0 with endPos := some (markStart a0 (.dictE a0 pairs) tokens p).1}
            (NodePairList.ofList (markFoldPairs (markNodeF fuel)
              (markStart a0 (.dictE a0 pairs) tokens p).2.1 pairs.toList p).1)).isStmt =
            (Node.dictE a0 pairs).isStmt := rfl
        exact markStart_congr rfl rfl hstmt rfl rfl rfl tokens p
      rw [hpr, markFoldPairs_idem (fun kv hkv q => by
        have := nsize_le_of_mem_ptoList pairs kv.1 kv.2 (by simpa using hkv)
        simp only [nsize] at hsz
        exact ⟨ih kv.1 _ q (by omega), ih kv.2 _ q (by omega)⟩)]
      rfl

/-- C8: the end-position reconstruction is idempotent.  Re-running the pass
over its own output tree, with the same token stream and horizon, assigns
to every node exactly the same range (the output trees are equal, and so
are the returned horizon and success flag); no validity assumptions are
needed. -/
theorem claim_C8_idempotent (n : Node) (tokens : List Token) (p : Pos) :
    markNode ((markNode n tokens p).node) tokens p = markNode n tokens p := by
  unfold markNode
  rw [nsize_mark (nsize n) n tokens p (Nat.le_refl _)]
  exact idemF (nsize n) n tokens p (Nat.le_refl _)

end ThonnyAst
